import Mathlib

/-!
# Reliability branching of Minotaur (parallel brancher): a shallow embedding

The definitions below follow `src/base/ParReliabilityBrancher.cpp` function by
function, then `src/base/NodeStack.cpp` and the interval, clock and sorting
utilities of `src/base/Operations.cpp`.  Conventions of the embedding:

* `double` values are exact rationals (`ℚ`).  The two infinite constants the
  code uses are kept apart: the initial `best_score = -INFINITY` is
  `Option ℚ` with `none` for `-∞`, the incumbent value of an empty solution
  pool is `Cutoff.infinity`.  Where the code tests a value for infinities or
  NaN, or where a NaN decides what the code does, a `double` is a `Dbl`: in
  the interval utilities, in the cost of `updateAfterSolve` and in the values
  that `sort` compares.  The lower bound of a node is a `Bound`, a `Dbl` that
  is not NaN.  The one product whose rounding decides the result, `t * 100`
  in `toClockTime`, is rounded to the nearest double (`roundDouble`).
* `UInt` counters are natural numbers; the one place where unsigned
  wrap-around shows at ordinary values, the subtraction
  `nodesProc - lastStrBranched_[index]`, is taken modulo `2^32`.
* `std::vector` is `List`; a read beyond the end gives `0`, a write beyond
  the end is dropped (`vget`, `vset`).
* A null pointer dereference and a failed `assert` end the run:
  functions that can do either return `Except Fault _`.  `assert` is skipped
  when the flag `ndebug` is set, as when compiling with `NDEBUG`.
* Handlers and the engine are collaborators outside the file: they are
  functions carried by the brancher.  Logger and timer are left out, they
  influence nothing else.
* Loops are recursive functions on what is left to do.  The recursion of
  `sortRec`, whose depth is not bounded by the shape of its arguments, is
  counted by fuel; that enough fuel gives a result is a theorem.
-/

namespace Minotaur

/-! ## Doubles with infinities and NaN -/

/-- A `double` where the code tests it for infinities and NaN: NaN, an
infinity or an exact rational (no rounding, one zero). -/
inductive Dbl where
  | nan
  | negInf
  | fin (q : ℚ)
  | posInf
  deriving DecidableEq

/-- The comparison `a < b` of two doubles; false when one is NaN. -/
def Dbl.lt : Dbl → Dbl → Bool
  | .nan, _ => false
  | .negInf, .nan => false
  | .negInf, .negInf => false
  | .negInf, .fin _ => true
  | .negInf, .posInf => true
  | .fin _, .nan => false
  | .fin _, .negInf => false
  | .fin a, .fin b => decide (a < b)
  | .fin _, .posInf => true
  | .posInf, _ => false

/-- The comparison `a <= b` of two doubles; false when one is NaN. -/
def Dbl.le : Dbl → Dbl → Bool
  | .nan, _ => false
  | .negInf, .nan => false
  | .negInf, .negInf => true
  | .negInf, .fin _ => true
  | .negInf, .posInf => true
  | .fin _, .nan => false
  | .fin _, .negInf => false
  | .fin a, .fin b => decide (a ≤ b)
  | .fin _, .posInf => true
  | .posInf, .posInf => true
  | .posInf, _ => false

/-- The comparison `a == b` of two doubles; false when one is NaN. -/
def Dbl.eq : Dbl → Dbl → Bool
  | .negInf, .negInf => true
  | .fin a, .fin b => decide (a = b)
  | .posInf, .posInf => true
  | _, _ => false

/-- The test `std::isnan`. -/
def Dbl.isnan : Dbl → Bool
  | .nan => true
  | _ => false

/-- The function `fabs`. -/
def Dbl.fabs : Dbl → Dbl
  | .nan => .nan
  | .negInf => .posInf
  | .fin q => .fin |q|
  | .posInf => .posInf

/-- An infinity with the sign of `q`, NaN for `q = 0`: the product of
`+INFINITY` and the finite value `q`. -/
def Dbl.infTimes (q : ℚ) : Dbl :=
  if q = 0 then .nan else if 0 < q then .posInf else .negInf

/-- The product `a * b` of two doubles. -/
def Dbl.mul : Dbl → Dbl → Dbl
  | .nan, _ => .nan
  | _, .nan => .nan
  | .fin a, .fin b => .fin (a * b)
  | .fin a, .posInf => Dbl.infTimes a
  | .fin a, .negInf => Dbl.infTimes (-a)
  | .posInf, .fin b => Dbl.infTimes b
  | .negInf, .fin b => Dbl.infTimes (-b)
  | .posInf, .posInf => .posInf
  | .negInf, .negInf => .posInf
  | .posInf, .negInf => .negInf
  | .negInf, .posInf => .negInf

/-- The quotient `1.0 / a`; the one zero of the model is the positive zero. -/
def Dbl.recip : Dbl → Dbl
  | .nan => .nan
  | .negInf => .fin 0
  | .fin q => if q = 0 then .posInf else .fin (1 / q)
  | .posInf => .fin 0

/-- The call `std::min(a, b)`. -/
def Dbl.min (a b : Dbl) : Dbl :=
  if b.lt a then b else a

/-- The call `std::max(a, b)`. -/
def Dbl.max (a b : Dbl) : Dbl :=
  if a.lt b then b else a

/-- The statement `if (std::isnan(prod)) prod = d;`. -/
def Dbl.nanTo (d prod : Dbl) : Dbl :=
  if prod.isnan then d else prod

/-- The test `std::isinf`. -/
def Dbl.isinf : Dbl → Bool
  | .negInf => true
  | .posInf => true
  | _ => false

/-- The sum `a + b` of two doubles. -/
def Dbl.add : Dbl → Dbl → Dbl
  | .nan, _ => .nan
  | _, .nan => .nan
  | .fin a, .fin b => .fin (a + b)
  | .fin _, .posInf => .posInf
  | .fin _, .negInf => .negInf
  | .posInf, .fin _ => .posInf
  | .negInf, .fin _ => .negInf
  | .posInf, .posInf => .posInf
  | .negInf, .negInf => .negInf
  | .posInf, .negInf => .nan
  | .negInf, .posInf => .nan

/-- The difference `a - b` of two doubles. -/
def Dbl.sub : Dbl → Dbl → Dbl
  | .nan, _ => .nan
  | _, .nan => .nan
  | .fin a, .fin b => .fin (a - b)
  | .fin _, .posInf => .negInf
  | .fin _, .negInf => .posInf
  | .posInf, .fin _ => .posInf
  | .negInf, .fin _ => .negInf
  | .posInf, .posInf => .nan
  | .negInf, .negInf => .nan
  | .posInf, .negInf => .posInf
  | .negInf, .posInf => .negInf

/-- The quotient `a / b` of two doubles; the one zero of the model is the
positive zero, so a finite `a` over zero is an infinity with the sign of `a`,
and NaN for `a = 0`. -/
def Dbl.div : Dbl → Dbl → Dbl
  | .nan, _ => .nan
  | _, .nan => .nan
  | .fin a, .fin b => if b = 0 then Dbl.infTimes a else .fin (a / b)
  | .fin _, .posInf => .fin 0
  | .fin _, .negInf => .fin 0
  | .posInf, .fin b => if b = 0 then .posInf else Dbl.infTimes b
  | .negInf, .fin b => if b = 0 then .negInf else Dbl.infTimes (-b)
  | .posInf, .posInf => .nan
  | .negInf, .negInf => .nan
  | .posInf, .negInf => .nan
  | .negInf, .posInf => .nan

/-- A lower bound of a node: a `double` that is not NaN (the value of a
relaxation, or an infinity). -/
inductive Bound where
  | negInf
  | fin (q : ℚ)
  | posInf
  deriving DecidableEq

/-- A lower bound as the `double` it is. -/
def Bound.toDbl : Bound → Dbl
  | .negInf => .negInf
  | .fin q => .fin q
  | .posInf => .posInf

/-- The comparison `a < b` of two lower bounds. -/
def Bound.lt (a b : Bound) : Bool :=
  a.toDbl.lt b.toDbl

/-- The comparison `a <= b` of two lower bounds. -/
def Bound.le (a b : Bound) : Bool :=
  a.toDbl.le b.toDbl

/-! ## Types of the collaborators -/

/-- Status returned by a brancher. -/
inductive BrancherStatus where
  | NotModifiedByBrancher
  | ModifiedByBrancher
  | PrunedByBrancher
  deriving DecidableEq, Repr

/-- Direction of a branch. -/
inductive BranchDirection where
  | DownBranch
  | UpBranch
  deriving DecidableEq, Repr

/-- Engine statuses: the ones `shouldPrune_` names, and `otherStatus` for
every remaining value of the enumeration (the `default` label). -/
inductive EngineStatus where
  | ProvenOptimal
  | ProvenLocalOptimal
  | ProvenInfeasible
  | ProvenLocalInfeasible
  | ProvenObjectiveCutOff
  | EngineIterationLimit
  | ProvenFailedCQFeas
  | ProvenFailedCQInfeas
  | EngineUnknownStatus
  | otherStatus (code : Nat)
  deriving DecidableEq, Repr

/-- Ways in which a run ends without returning. -/
inductive Fault where
  | nullDeref
  | assertFailed
  deriving DecidableEq, Repr

/-- Incumbent value: finite, or `INFINITY` when no solution is known. -/
inductive Cutoff where
  | finite (v : ℚ)
  | infinity
  deriving DecidableEq

/-- The difference `cutoff - v` for a finite `v`. -/
def Cutoff.sub : Cutoff → ℚ → Cutoff
  | .finite c, v => .finite (c - v)
  | .infinity, _ => .infinity

/-- The comparison `change > c` of a finite value with a cutoff. -/
def Cutoff.ltBy : Cutoff → ℚ → Bool
  | .finite c, change => decide (change > c)
  | .infinity, _ => false

/-- A modification built by a handler; the brancher only stores and forwards
it. -/
structure Modification where
  id : Nat
  deriving DecidableEq, Repr

/-- A branching candidate (`BrCand` / `BrVarCand`): the pseudo-cost index
(`-1` for a generic candidate), the two distances, the preferred direction,
the transient score and the handler back-link, kept as the position of the
handler in `handlers_`. -/
structure BrCand where
  pCostIndex : Int
  dDist : ℚ
  uDist : ℚ
  dir : BranchDirection
  score : ℚ
  handler : Option Nat
  deriving DecidableEq

/-- A branch: the candidate it was made from (`setBrCand`) and the activity,
the value of the branched variable at the parent. -/
structure Branch where
  brCand : Option BrCand
  activity : ℚ
  deriving DecidableEq

/-- A node of the tree, as far as the brancher reads it: depth, lower bound,
parent pointer and the branch that created it. -/
inductive Node where
  | mk (depth : Nat) (lb : Bound) (parent : Option Node) (branch : Option Branch)

/-- Reads the depth of a node. -/
def Node.getDepth : Node → Nat
  | .mk d _ _ _ => d

/-- Reads the lower bound of a node. -/
def Node.getLb : Node → Bound
  | .mk _ lb _ _ => lb

/-- Reads the parent pointer of a node. -/
def Node.getParent : Node → Option Node
  | .mk _ _ p _ => p

/-- Reads the branch pointer of a node. -/
def Node.getBranch : Node → Option Branch
  | .mk _ _ _ b => b

/-- A solution: primal values and objective value. -/
structure Solution where
  primal : List ℚ
  objValue : ℚ

/-- The relaxation, as far as the brancher reads it. -/
structure Relaxation where
  numVars : Nat

/-- What one call of `getBranchingCandidates` hands back: the modifications it
appended to `mods_`, its variable candidates, its generic candidates and the
value of `is_inf` after the call. -/
structure HandlerOut where
  mods : List Modification
  cands : List BrCand
  gencands : List BrCand
  is_inf : Bool

/-- The handler protocol used by the brancher.  The relaxation is fixed during
a call, so the functions depend on the primal point only. -/
structure Handler where
  getBranchingCandidates : List ℚ → HandlerOut
  getBrMod : BrCand → List ℚ → BranchDirection → Modification
  getBranches : BrCand → List ℚ → Option (List Branch)

/-- The engine: the status and the solution value of the solve that follows
`applyToProblem` of a modification.  The first argument is the number of
strong-branching solves done before, so that an engine with memory is
covered. -/
structure Engine where
  solve : Nat → Modification → EngineStatus × ℚ

/-- Statistics of the brancher (`strTime` is left out with the timer). -/
structure ParRelBrStats where
  calls : Nat
  engProbs : Nat
  strBrCalls : Nat
  bndChange : Nat
  iters : Nat
  deriving DecidableEq, Repr

/-- The members of `ParReliabilityBrancher`, and the build flag `ndebug`. -/
structure ParReliabilityBrancher where
  engine_ : Option Engine
  eTol_ : ℚ
  handlers_ : List Handler
  init_ : Bool
  maxDepth_ : Nat
  maxIterations_ : Nat
  maxStrongCands_ : Nat
  minNodeDist_ : Nat
  status_ : BrancherStatus
  thresh_ : Nat
  trustCutoff_ : Bool
  x_ : List ℚ
  mods_ : List Modification
  relCands_ : List BrCand
  unrelCands_ : List BrCand
  pseudoUp_ : List ℚ
  pseudoDown_ : List ℚ
  timesUp_ : List Nat
  timesDown_ : List Nat
  lastStrBranched_ : List Nat
  stats_ : ParRelBrStats
  ndebug : Bool

open BrancherStatus BranchDirection EngineStatus

/-- The constructor `ParReliabilityBrancher(env, handlers)`. -/
def ParReliabilityBrancher.new (handlers : List Handler) (ndebug : Bool) :
    ParReliabilityBrancher where
  engine_ := none
  eTol_ := 1 / 1000000
  handlers_ := handlers
  init_ := false
  maxDepth_ := 1000
  maxIterations_ := 25
  maxStrongCands_ := 20
  minNodeDist_ := 50
  status_ := NotModifiedByBrancher
  thresh_ := 4
  trustCutoff_ := true
  x_ := []
  mods_ := []
  relCands_ := []
  unrelCands_ := []
  pseudoUp_ := []
  pseudoDown_ := []
  timesUp_ := []
  timesDown_ := []
  lastStrBranched_ := []
  stats_ := ⟨0, 0, 0, 0, 0⟩
  ndebug := ndebug

/-- The setter `setEngine`. -/
def setEngine (b : ParReliabilityBrancher) (engine : Engine) : ParReliabilityBrancher :=
  { b with engine_ := some engine }

/-- The setter `setTrustCutoff`. -/
def setTrustCutoff (b : ParReliabilityBrancher) (val : Bool) : ParReliabilityBrancher :=
  { b with trustCutoff_ := val }

/-! ## The pseudo-cost ledger -/

/-- The member function `initialize(rel)`: all five arrays get length `n`. -/
def initializeLedger (b : ParReliabilityBrancher) (rel : Relaxation) : ParReliabilityBrancher :=
  { b with
    pseudoUp_ := List.replicate rel.numVars 0
    pseudoDown_ := List.replicate rel.numVars 0
    lastStrBranched_ := List.replicate rel.numVars 20000
    timesUp_ := List.replicate rel.numVars 0
    timesDown_ := List.replicate rel.numVars 0 }

/-- The read `v[i]` of a vector at an `int` index: a negative index converts
to a position beyond the end of every vector, where the read gives `d`. -/
def vget {α : Type} (v : List α) (i : Int) (d : α) : α :=
  match i with
  | .ofNat n => v.getD n d
  | .negSucc _ => d

/-- The write `v[i] = a` of a vector at an `int` index; a write beyond the
end is dropped. -/
def vset {α : Type} (v : List α) (i : Int) (a : α) : List α :=
  match i with
  | .ofNat n => v.set n a
  | .negSucc _ => v

/-- The update law `updatePCost_(i, new_cost, cost, count)`. -/
def updatePCost_ (i : Int) (new_cost : ℚ) (cost : List ℚ) (count : List Nat) :
    List ℚ × List Nat :=
  (vset cost i ((vget cost i 0 * ((vget count i 0 : Nat) : ℚ) + new_cost) / (((vget count i 0 : Nat) : ℚ) + 1)),
   vset count i (vget count i 0 + 1))

/-- The observation of `updateAfterSolve`: the quotient
`(node->getLb() - parent->getLb()) / (fabs(newval - oldval) + eTol_)` as a
`double`, replaced by `0` when it is negative, infinite or NaN.  What is left
is finite; the last case is never reached. -/
def afterSolveCost (eTol : ℚ) (nodeLb parentLb : Bound) (newval oldval : ℚ) : ℚ :=
  let cost := (nodeLb.toDbl.sub parentLb.toDbl).div (.fin (|newval - oldval| + eTol))
  if cost.lt (.fin 0) || cost.isinf || cost.isnan then 0
  else
    match cost with
    | .fin q => q
    | _ => 0

/-- The hook `updateAfterSolve(node, sol)`. -/
def updateAfterSolve (b : ParReliabilityBrancher) (node : Node) (sol : Solution) :
    Except Fault ParReliabilityBrancher :=
  match node.getParent with
  | none => .ok b
  | some parent =>
    match node.getBranch with
    | none => .error .nullDeref
    | some br =>
      match br.brCand with
      | none => .error .nullDeref
      | some cand =>
        let index := cand.pCostIndex
        if index > -1 then
          let oldval := br.activity
          let newval := vget sol.primal index 0
          let cost := afterSolveCost b.eTol_ node.getLb parent.getLb newval oldval
          if newval < oldval then
            let r := updatePCost_ index cost b.pseudoDown_ b.timesDown_
            .ok { b with pseudoDown_ := r.1, timesDown_ := r.2 }
          else
            let r := updatePCost_ index cost b.pseudoUp_ b.timesUp_
            .ok { b with pseudoUp_ := r.1, timesUp_ := r.2 }
        else .ok b

/-! ## Scores -/

/-- The score `getScore_(up_score, down_score)`. -/
def getScore_ (up_score down_score : ℚ) : ℚ :=
  if up_score > down_score then down_score * (8 / 10) + up_score * (2 / 10)
  else up_score * (8 / 10) + down_score * (2 / 10)

/-- The three outputs of `getPCScore_`. -/
structure PCScore where
  ch_down : ℚ
  ch_up : ℚ
  score : ℚ

/-- The pseudo-cost score `getPCScore_(cand, ch_down, ch_up, score, pseudoUp,
pseudoDown)`. -/
def getPCScore_ (cand : BrCand) (pseudoUp pseudoDown : List ℚ) : PCScore :=
  let index := cand.pCostIndex
  if index > -1 then
    let ch_down := cand.dDist * vget pseudoDown index 0
    let ch_up := cand.uDist * vget pseudoUp index 0
    { ch_down := ch_down, ch_up := ch_up, score := getScore_ ch_up ch_down }
  else
    { ch_down := 0, ch_up := 0, score := cand.score }

/-! ## Strong branching -/

/-- The back-link `cand->getHandler()`, null when it was never set. -/
def getHandler (b : ParReliabilityBrancher) (cand : BrCand) : Option Handler :=
  match cand.handler with
  | none => none
  | some k => b.handlers_.get? k

/-- The test `shouldPrune_(chcutoff, change, status, is_rel)`; the result is
the returned flag, the value of `*is_rel` and the brancher (for `engProbs`). -/
def shouldPrune_ (b : ParReliabilityBrancher) (chcutoff : Cutoff) (change : ℚ)
    (status : EngineStatus) (is_rel : Bool) :
    Except Fault (Bool × Bool × ParReliabilityBrancher) :=
  match status with
  | ProvenLocalInfeasible => .ok (true, is_rel, b)
  | ProvenInfeasible => .ok (true, is_rel, b)
  | ProvenObjectiveCutOff => .ok (true, is_rel, b)
  | ProvenLocalOptimal | ProvenOptimal =>
    if b.trustCutoff_ && (chcutoff.sub b.eTol_).ltBy change then .ok (true, is_rel, b)
    else .ok (false, is_rel, b)
  | EngineUnknownStatus =>
    if b.ndebug then .ok (false, is_rel, b) else .error .assertFailed
  | EngineIterationLimit => .ok (false, is_rel, b)
  | ProvenFailedCQFeas | ProvenFailedCQInfeas => .ok (false, false, b)
  | otherStatus _ =>
    .ok (false, false, { b with stats_ := { b.stats_ with engProbs := b.stats_.engProbs + 1 } })

/-- The outputs of `strongBranch_`. -/
structure StrongBranchOut where
  obj_up : ℚ
  obj_down : ℚ
  status_up : EngineStatus
  status_down : EngineStatus

/-- The two solves `strongBranch_(cand, obj_up, obj_down, status_up,
status_down)`: down first, then up. -/
def strongBranch_ (b : ParReliabilityBrancher) (cand : BrCand) :
    Except Fault (StrongBranchOut × ParReliabilityBrancher) :=
  match getHandler b cand with
  | none => .error .nullDeref
  | some h =>
    match b.engine_ with
    | none => .error .nullDeref
    | some engine =>
      let down := engine.solve b.stats_.strBrCalls (h.getBrMod cand b.x_ DownBranch)
      let b1 := { b with stats_ := { b.stats_ with strBrCalls := b.stats_.strBrCalls + 1 } }
      let up := engine.solve b1.stats_.strBrCalls (h.getBrMod cand b1.x_ UpBranch)
      let b2 := { b1 with stats_ := { b1.stats_ with strBrCalls := b1.stats_.strBrCalls + 1 } }
      .ok ({ obj_up := up.2, obj_down := down.2, status_up := up.1, status_down := down.1 }, b2)

/-- The interpretation `useStrongBranchInfo_(cand, chcutoff, change_up,
change_down, status_up, status_down)`; the result carries the new values of
`change_up` and `change_down`.  The local `const UInt index` is converted back
to `int` when it is passed to `updatePCost_`, which restores the value of
`cand->getPCostIndex()`. -/
def useStrongBranchInfo_ (b : ParReliabilityBrancher) (cand : BrCand) (chcutoff : Cutoff)
    (change_up change_down : ℚ) (status_up status_down : EngineStatus) :
    Except Fault (ℚ × ℚ × ParReliabilityBrancher) :=
  let index := cand.pCostIndex
  match shouldPrune_ b chcutoff change_down status_down true with
  | .error e => .error e
  | .ok (should_prune_down, is_rel1, b1) =>
    match shouldPrune_ b1 chcutoff change_up status_up is_rel1 with
    | .error e => .error e
    | .ok (should_prune_up, is_rel, b2) =>
      if !is_rel then .ok (0, 0, b2)
      else if should_prune_up = true && should_prune_down = true then
        .ok (change_up, change_down,
          { b2 with
            status_ := PrunedByBrancher
            stats_ := { b2.stats_ with bndChange := b2.stats_.bndChange + 2 } })
      else if should_prune_up then
        match getHandler b2 cand with
        | none => .error .nullDeref
        | some h =>
          .ok (change_up, change_down,
            { b2 with
              status_ := ModifiedByBrancher
              mods_ := b2.mods_ ++ [h.getBrMod cand b2.x_ DownBranch]
              stats_ := { b2.stats_ with bndChange := b2.stats_.bndChange + 1 } })
      else if should_prune_down then
        match getHandler b2 cand with
        | none => .error .nullDeref
        | some h =>
          .ok (change_up, change_down,
            { b2 with
              status_ := ModifiedByBrancher
              mods_ := b2.mods_ ++ [h.getBrMod cand b2.x_ UpBranch]
              stats_ := { b2.stats_ with bndChange := b2.stats_.bndChange + 1 } })
      else
        let down := updatePCost_ index (|change_down| / (|cand.dDist| + b2.eTol_))
          b2.pseudoDown_ b2.timesDown_
        let up := updatePCost_ index (|change_up| / (|cand.uDist| + b2.eTol_))
          b2.pseudoUp_ b2.timesUp_
        .ok (change_up, change_down,
          { b2 with
            pseudoDown_ := down.1
            timesDown_ := down.2
            pseudoUp_ := up.1
            timesUp_ := up.2 })

/-- The statement `change_up = std::max(change_up - objval, 0.0)` of
`findBestCandidate_` (and the same for `change_down`) on a value of the engine
that may be infinite or NaN; `std::max(a, b)` is `(a < b) ? b : a`. -/
def strongChange (obj objval : Dbl) : Dbl :=
  Dbl.max (obj.sub objval) (.fin 0)

/-- The cost `fabs(change) / (fabs(dist) + eTol_)` that the last branch of
`useStrongBranchInfo_` passes to `updatePCost_`, on such a value. -/
def strongCost (eTol : ℚ) (change : Dbl) (dist : ℚ) : Dbl :=
  change.fabs.div (.fin (|dist| + eTol))

/-- The entry `(cost[i]*count[i] + new_cost)/(count[i]+1)` that `updatePCost_`
stores, on such a value. -/
def pCostEntry (cost_i : Dbl) (count_i : Nat) (new_cost : Dbl) : Dbl :=
  ((cost_i.mul (.fin count_i)).add new_cost).div (.fin ((count_i : ℚ) + 1))

/-! ## Choice of the best candidate -/

/-- The locals `best_score` (`none` is `-INFINITY`) and `best_cand` of
`findBestCandidate_`, with a record of the values that `change_up` and
`change_down` had when `best_cand` was last assigned. -/
structure BestSoFar where
  best_score : Option ℚ
  best_cand : Option BrCand
  sel_up : ℚ
  sel_down : ℚ

/-- The comparison `score > best_score`. -/
def gtBest (score : ℚ) : Option ℚ → Bool
  | none => true
  | some best => decide (score > best)

/-- The block `if (score > best_score) { ... }` that follows every scoring. -/
def adopt (s : BestSoFar) (cand : BrCand) (score change_up change_down : ℚ) : BestSoFar :=
  if gtBest score s.best_score then
    { best_score := some score
      best_cand := some
        { cand with dir := if change_up > change_down then DownBranch else UpBranch }
      sel_up := change_up
      sel_down := change_down }
  else s

/-- The loops over candidates that are scored by pseudo-costs: the first loop
of `findBestCandidate_` (over `relCands_`) and its last loop (over the
unreliable candidates left). -/
def scoreByPCost (pseudoUp pseudoDown : List ℚ) : List BrCand → BestSoFar → BestSoFar
  | [], s => s
  | cand :: rest, s =>
    let r := getPCScore_ cand pseudoUp pseudoDown
    scoreByPCost pseudoUp pseudoDown rest (adopt s cand r.score r.ch_up r.ch_down)

/-- The strong-branching loop of `findBestCandidate_`, from the candidate at
the iterator on; `cnt` counts the candidates done.  The list returned is what
the iterator points at when the loop is left. -/
def strongLoop (objval : ℚ) (maxchange : Cutoff) (nodesProc maxcnt : Nat) :
    Nat → List BrCand → BestSoFar → ParReliabilityBrancher →
    Except Fault (BestSoFar × ParReliabilityBrancher × List BrCand)
  | _, [], s, b => .ok (s, b, [])
  | cnt, cand :: rest, s, b =>
    if cnt < maxcnt then
      match strongBranch_ b cand with
      | .error e => .error e
      | .ok (o, b1) =>
        match useStrongBranchInfo_ b1 cand maxchange (max (o.obj_up - objval) 0)
            (max (o.obj_down - objval) 0) o.status_up o.status_down with
        | .error e => .error e
        | .ok (change_up, change_down, b2) =>
          let score := getScore_ change_up change_down
          let b3 := { b2 with
            lastStrBranched_ := vset b2.lastStrBranched_ cand.pCostIndex (nodesProc + 1) }
          if b3.status_ ≠ NotModifiedByBrancher then .ok (s, b3, cand :: rest)
          else strongLoop objval maxchange nodesProc maxcnt (cnt + 1) rest
            (adopt s cand score change_up change_down) b3
    else .ok (s, b, cand :: rest)

/-- The body of `findBestCandidate_(objval, cutoff, node, pseudoUp,
pseudoDown, nodesProc)`, returning all of its locals. -/
def findBestCandidateAux (b : ParReliabilityBrancher) (objval : ℚ) (cutoff : Cutoff)
    (node : Node) (pseudoUp pseudoDown : List ℚ) (nodesProc : Nat) :
    Except Fault (BestSoFar × ParReliabilityBrancher) :=
  let s0 := scoreByPCost pseudoUp pseudoDown b.relCands_ ⟨none, none, 0, 0⟩
  let maxchange := cutoff.sub objval
  if b.unrelCands_.length > 0 then
    match b.engine_ with
    | none => .error .nullDeref
    | some _ =>
      let maxcnt := if node.getDepth > b.maxDepth_ then 0 else b.maxStrongCands_
      match strongLoop objval maxchange nodesProc maxcnt 0 b.unrelCands_ s0 b with
      | .error e => .error e
      | .ok (s1, b1, rest) =>
        if NotModifiedByBrancher = b1.status_ then
          .ok (scoreByPCost pseudoUp pseudoDown rest s1, b1)
        else .ok (s1, b1)
  else .ok (s0, b)

/-- The function `findBestCandidate_`: the candidate returned (null when there
is none) and the brancher after the call. -/
def findBestCandidate_ (b : ParReliabilityBrancher) (objval : ℚ) (cutoff : Cutoff)
    (node : Node) (pseudoUp pseudoDown : List ℚ) (nodesProc : Nat) :
    Except Fault (Option BrCand × ParReliabilityBrancher) :=
  match findBestCandidateAux b objval cutoff node pseudoUp pseudoDown nodesProc with
  | .error e => .error e
  | .ok (s, b1) => .ok (s.best_cand, b1)

/-! ## Collection and classification of candidates -/

/-- The working copies of the driver's snapshot that `findBranches` receives by
value and `findCandidates_` merges the local ledger into. -/
structure Snapshot where
  timesUp : List Nat
  timesDown : List Nat
  pseudoUp : List ℚ
  pseudoDown : List ℚ

/-- Modelled from the spec: the container `BrVarCandSet` is declared outside
the sources at hand; the spec has the candidates traversed in the order of
their collection, so `cands.insert(cands2.begin(), cands2.end())` appends. -/
def BrVarCandSet.insert (cands cands2 : List BrCand) : List BrCand :=
  cands ++ cands2

/-- Modelled from the spec: the comparator `CompareScore(a, b)` is declared
outside the sources at hand; the spec has it return `a.score < b.score`. -/
def CompareScore (a b : BrCand) : Bool :=
  decide (a.score < b.score)

/-- The call `std::sort(first, last, comp)`: an ascending sort by `comp`. -/
def stdSort (comp : BrCand → BrCand → Bool) (l : List BrCand) : List BrCand :=
  l.insertionSort (fun a b => comp b a = false)

/-- The setter `setHandler` of a candidate. -/
def BrCand.setHandler (k : Nat) (cand : BrCand) : BrCand :=
  { cand with handler := some k }

/-- The unsigned difference `a - b` of two `UInt`. -/
def uintSub (a b : Nat) : Nat :=
  (((a : Int) - (b : Int)) % 2 ^ 32).toNat

/-- The outcome of the loop over the handlers in `findCandidates_`: `mods_`,
`cands`, `gencands`, and the status set when the loop returns early. -/
structure Collected where
  mods : List Modification
  cands : List BrCand
  gencands : List BrCand
  early : Option BrancherStatus

/-- The loop over the handlers in `findCandidates_`, from the handler at
position `k` on. -/
def collectLoop (x : List ℚ) : List Handler → Nat → List Modification → List BrCand →
    List BrCand → Collected
  | [], _, mods, cands, gencands => ⟨mods, cands, gencands, none⟩
  | h :: hs, k, mods, cands, gencands =>
    let out := h.getBranchingCandidates x
    let mods1 := mods ++ out.mods
    let cands1 := BrVarCandSet.insert cands (out.cands.map (BrCand.setHandler k))
    let gencands1 := gencands ++ out.gencands.map (BrCand.setHandler k)
    if out.is_inf || decide (mods1.length > 0) then
      ⟨mods1, cands1, gencands1,
        some (if out.is_inf then PrunedByBrancher else ModifiedByBrancher)⟩
    else collectLoop x hs (k + 1) mods1 cands1 gencands1

/-- The merge of the local ledger into the working snapshot at one index, the
first five statements of the loop over `cands` in `findCandidates_`. -/
def mergeAt (b : ParReliabilityBrancher) (w : Snapshot) (index : Int) : Snapshot :=
  let timesUp := vset w.timesUp index (vget w.timesUp index 0 + vget b.timesUp_ index 0)
  let timesDown := vset w.timesDown index (vget w.timesDown index 0 + vget b.timesDown_ index 0)
  let pseudoUp :=
    if vget timesUp index 0 ≠ 0 then
      vset w.pseudoUp index
        ((vget w.pseudoUp index 0 + vget b.pseudoUp_ index 0 * ((vget b.timesUp_ index 0 : Nat) : ℚ))
          / ((vget timesUp index 0 : Nat) : ℚ))
    else w.pseudoUp
  let pseudoDown :=
    if vget timesDown index 0 ≠ 0 then
      vset w.pseudoDown index
        ((vget w.pseudoDown index 0
            + vget b.pseudoDown_ index 0 * ((vget b.timesDown_ index 0 : Nat) : ℚ))
          / ((vget timesDown index 0 : Nat) : ℚ))
    else w.pseudoDown
  ⟨timesUp, timesDown, pseudoUp, pseudoDown⟩

/-- The loop over `cands` in `findCandidates_`: merge, then the reliability
test; `rel` and `unrel` are `relCands_` and `unrelCands_`. -/
def classifyLoop (b : ParReliabilityBrancher) (nodesProc : Nat) :
    List BrCand → Snapshot → List BrCand → List BrCand →
    Snapshot × List BrCand × List BrCand
  | [], w, rel, unrel => (w, rel, unrel)
  | cand :: rest, w, rel, unrel =>
    let index := cand.pCostIndex
    let w1 := mergeAt b w index
    if b.minNodeDist_ > uintSub nodesProc (vget b.lastStrBranched_ index 0) ∨
        (vget w1.timesUp index 0 ≥ b.thresh_ ∧ vget w1.timesDown index 0 ≥ b.thresh_) then
      classifyLoop b nodesProc rest w1 (rel ++ [cand]) unrel
    else
      let score : ℚ := ((vget w1.timesUp index 0 + vget w1.timesDown index 0 : Nat) : ℚ)
        - (1 / 100000) * (vget w1.pseudoUp index 0 + vget w1.pseudoDown index 0)
        - (1 / 1000000) * max cand.dDist cand.uDist
      classifyLoop b nodesProc rest w1 rel (unrel ++ [{ cand with score := score }])

/-- The function `findCandidates_(timesUp, timesDown, pseudoUp, pseudoDown,
nodesProc)`; the snapshot returned is the state of the four vectors pointed
at. -/
def findCandidates_ (b : ParReliabilityBrancher) (w : Snapshot) (nodesProc : Nat) :
    Except Fault (Snapshot × ParReliabilityBrancher) :=
  if !b.ndebug && !b.relCands_.isEmpty then .error .assertFailed
  else if !b.ndebug && !b.unrelCands_.isEmpty then .error .assertFailed
  else
    let c := collectLoop b.x_ b.handlers_ 0 b.mods_ [] []
    match c.early with
    | some st => .ok (w, { b with mods_ := c.mods, status_ := st })
    | none =>
      let r := classifyLoop b nodesProc c.cands w b.relCands_ b.unrelCands_
      .ok (r.1, { b with
        mods_ := c.mods
        relCands_ := r.2.1 ++ c.gencands
        unrelCands_ := stdSort CompareScore r.2.2 })

/-- The function `freeCandidates_(no_del)`. -/
def freeCandidates_ (b : ParReliabilityBrancher) : ParReliabilityBrancher :=
  { b with relCands_ := [], unrelCands_ := [] }

/-! ## The entry point -/

/-- The solution pool, as far as the brancher reads it. -/
structure SolutionPool where
  bestSolutionValue : Cutoff

/-- What `findBranches` hands back: the branches returned (`none` for the null
pointer) and the two outputs `br_status` and `mods`. -/
structure FindBranchesOut where
  branches : Option (List Branch)
  br_status : BrancherStatus
  mods : List Modification

/-- The setter `setBrCand` of a branch. -/
def Branch.setBrCand (cand : BrCand) (br : Branch) : Branch :=
  { br with brCand := some cand }

/-- The copy of the first `n` primal values into `x_`. -/
def copyPrimal (n : Nat) (x : List ℚ) : List ℚ :=
  (List.range n).map (fun i => x.getD i 0)

/-- The statements of `findBranches` before the call of `findCandidates_`:
the call counter, `initialize` on the first call, the reset of `status_` and
`mods_`, and the copy of the primal point. -/
def beginCall (b : ParReliabilityBrancher) (rel : Relaxation) (sol : Solution) :
    ParReliabilityBrancher :=
  let b0 := { b with stats_ := { b.stats_ with calls := b.stats_.calls + 1 } }
  let b1 := if !b0.init_ then initializeLedger { b0 with init_ := true } rel else b0
  { b1 with
    status_ := NotModifiedByBrancher
    mods_ := []
    x_ := copyPrimal rel.numVars sol.primal }

/-- The function `findBranches(rel, node, sol, s_pool, br_status, mods,
timesUp, timesDown, pseudoUp, pseudoDown, nodesProc)`; `mods` is the content
of the output vector before the call. -/
def findBranches (b : ParReliabilityBrancher) (rel : Relaxation) (node : Node)
    (sol : Solution) (s_pool : SolutionPool) (mods : List Modification)
    (w : Snapshot) (nodesProc : Nat) :
    Except Fault (FindBranchesOut × ParReliabilityBrancher) :=
  match findCandidates_ (beginCall b rel sol) w nodesProc with
  | .error e => .error e
  | .ok (w1, b3) =>
    if b3.status_ = PrunedByBrancher then
      .ok (⟨none, b3.status_, mods⟩, b3)
    else
      let found : Except Fault (Option BrCand × ParReliabilityBrancher) :=
        if b3.status_ = NotModifiedByBrancher then
          findBestCandidate_ b3 sol.objValue s_pool.bestSolutionValue node
            w1.pseudoUp w1.pseudoDown nodesProc
        else .ok (none, b3)
      match found with
      | .error e => .error e
      | .ok (br_can, b4) =>
        if b4.status_ = NotModifiedByBrancher then
          match br_can with
          | none => .error .nullDeref
          | some cand =>
            match getHandler b4 cand with
            | none => .error .nullDeref
            | some h =>
              match h.getBranches cand b4.x_ with
              | none => .error .nullDeref
              | some branches =>
                .ok (⟨some (branches.map (Branch.setBrCand cand)), NotModifiedByBrancher, mods⟩,
                  freeCandidates_ b4)
        else
          .ok (⟨none, b4.status_, if b4.mods_.length > 0 then mods ++ b4.mods_ else mods⟩,
            freeCandidates_ b4)

/-! ## The node stack (`src/base/NodeStack.cpp`) -/

/-- The member `nodes_` of `NodeStack`, a `std::deque`, front first. -/
structure NodeStack where
  nodes_ : List Node

/-- The query `isEmpty()`. -/
def NodeStack.isEmpty (s : NodeStack) : Bool :=
  s.nodes_.isEmpty

/-- The loop of `getBestLB()` from the iterator on, with the current value of
`best_lb`. -/
def getBestLBLoop : List Node → Bound → Bound
  | [], best_lb => best_lb
  | n :: rest, best_lb =>
    getBestLBLoop rest (if n.getLb.lt best_lb then n.getLb else best_lb)

/-- The query `getBestLB()`; `best_lb` starts at `INFINITY`. -/
def NodeStack.getBestLB (s : NodeStack) : Bound :=
  getBestLBLoop s.nodes_ .posInf

/-- The query `getDeepestLevel()`; `none` where the code dereferences the
begin iterator of an empty container. -/
def NodeStack.getDeepestLevel (s : NodeStack) : Option Nat :=
  match s.nodes_ with
  | [] => none
  | n :: _ => some n.getDepth

/-- The operation `pop()`; `none` where the code calls `pop_front` on an empty
container. -/
def NodeStack.pop (s : NodeStack) : Option NodeStack :=
  match s.nodes_ with
  | [] => none
  | _ :: rest => some ⟨rest⟩

/-- The operation `push(n)`. -/
def NodeStack.push (s : NodeStack) (n : Node) : NodeStack :=
  ⟨n :: s.nodes_⟩

/-! ## Interval utilities (`src/base/Operations.cpp`) -/

/-- The literal `1e-10`. -/
def tol10 : ℚ := 1 / 10000000000

/-- The function `BoundsOnProduct(zero_x_inf_zero, l0, u0, l1, u1, lb, ub)`;
the result is `(lb, ub)`. -/
def BoundsOnProduct (zero_x_inf_zero : Bool) (l0 u0 l1 u1 : Dbl) : Dbl × Dbl :=
  let exchange := l1.fabs.le (.fin tol10) && u1.fabs.le (.fin tol10)
  let l0a := if exchange then l1 else l0
  let l1a := if exchange then l0 else l1
  let u0a := if exchange then u1 else u0
  let u1a := if exchange then u0 else u1
  if l0a.fabs.le (.fin tol10) && u0a.fabs.le (.fin tol10) then
    if zero_x_inf_zero then (.fin 0, .fin 0)
    else
      (if l1a.eq .negInf then .negInf else .fin 0,
       if u1a.eq .posInf then .posInf else .fin 0)
  else if (l1a.eq .negInf && u1a.eq .posInf) || (l0a.eq .negInf && u0a.eq .posInf) then
    (.negInf, .posInf)
  else
    let p1 := Dbl.nanTo .negInf (l0a.mul l1a)
    let p2 := Dbl.nanTo .posInf (u0a.mul l1a)
    let p3 := Dbl.nanTo .negInf (u0a.mul u1a)
    let p4 := Dbl.nanTo .posInf (l0a.mul u1a)
    (Dbl.min (Dbl.min (Dbl.min p1 p2) p3) p4, Dbl.max (Dbl.max (Dbl.max p1 p2) p3) p4)

/-- The function `BoundsOnRecip(l0, u0, lb, ub)`; the result is `(lb, ub)`. -/
def BoundsOnRecip (l0 u0 : Dbl) : Dbl × Dbl :=
  if u0.fabs.lt (.fin tol10) && l0.fabs.lt (.fin tol10) then (.negInf, .posInf)
  else if l0.lt (.fin (-tol10)) && (Dbl.fin tol10).lt u0 then (.negInf, .posInf)
  else if u0.fabs.lt (.fin tol10) && l0.lt (.fin 0) then (.negInf, l0.recip)
  else if l0.fabs.lt (.fin tol10) && (Dbl.fin 0).lt u0 then (u0.recip, .posInf)
  else (u0.recip, l0.recip)

/-- The function `BoundsOnSquare(l1, u1, lb, ub)`; the result is `(lb, ub)`. -/
def BoundsOnSquare (l1 u1 : Dbl) : Dbl × Dbl :=
  if u1.lt (.fin 0) then (u1.mul u1, l1.mul l1)
  else if (Dbl.fin 0).lt l1 then (l1.mul l1, u1.mul u1)
  else (.fin 0, Dbl.max (l1.mul l1) (u1.mul u1))

/-- The conversion `(int)v` of a double: truncation, and `none` where the
value does not fit an `int` of 32 bits. -/
def intOfDouble (v : ℚ) : Option Int :=
  let it := Int.tdiv v.num v.den
  if -2147483648 ≤ it ∧ it ≤ 2147483647 then some it else none

/-- The output of `std::setfill('0') << std::setw(2) << n`: the decimal
digits of `n`, filled with `0` on the left up to two characters. -/
def setw2 (n : Int) : String :=
  "".pushn '0' (2 - (toString n).length) ++ toString n

/-- The integer nearest to `m`, the even one of the two when `m` lies half-way
between two integers. -/
def roundEven (m : ℚ) : Int :=
  let f := ⌊m⌋
  if m - f < 1 / 2 then f
  else if 1 / 2 < m - f then f + 1
  else if f % 2 = 0 then f else f + 1

/-- The double nearest to the real number `q` (IEEE 754 binary64, round to
nearest, ties to even): 53 significant bits in the binade of `q`, with the
exponent held at `-1022` for subnormal values.  Values beyond the largest
double are not sent to `±∞` here; they stay far outside the range of an
`int`, so the conversion `intOfDouble`, the only reader, rejects them either
way. -/
def roundDouble (q : ℚ) : ℚ :=
  if q = 0 then 0
  else
    let e := max (Int.log 2 |q|) (-1022)
    let ulp : ℚ := 2 ^ (e - 52)
    roundEven (q / ulp) * ulp

/-- The function `toClockTime(t)`; the product `t * 100` is a `double`, the
exact product rounded, and `(int)` truncates that. -/
def toClockTime (t : ℚ) : Option String :=
  match intOfDouble (roundDouble (t * 100)) with
  | none => none
  | some it =>
    let it1 := Int.tmod it 360000
    let it2 := Int.tmod it1 6000
    let it3 := Int.tmod it2 100
    some (setw2 (Int.tdiv it 360000) ++ ":" ++ setw2 (Int.tdiv it1 6000) ++ ":"
      ++ setw2 (Int.tdiv it2 100) ++ ":" ++ setw2 it3)

/-! ## Sorting (`src/base/Operations.cpp`)

The values are doubles as `Dbl`: the test `x[i] <= pval` is false when one
side is NaN. -/

/-- The exchange `tmp = v[i]; v[i] = v[j]; v[j] = tmp` of two entries of an
array; with an index beyond the end (undefined in the source) the array is
left as it is. -/
def swapAt {α : Type} (v : List α) (i j : Nat) : List α :=
  match v[i]?, v[j]? with
  | some a, some c => (v.set i c).set j a
  | _, _ => v

/-- The loop `for (i = left; i < right; ++i)` of `sortRec`, with `n` passes
to go: an entry `x[i] <= pval` is exchanged with the entry at `sind`, in both
arrays, and `sind` moves on.  The result is the two arrays and `sind`. -/
def partitionLoop {α : Type} (pval : Dbl) :
    Nat → Nat → Nat → List α → List Dbl → List α × List Dbl × Nat
  | 0, _, sind, vvec, x => (vvec, x, sind)
  | n + 1, i, sind, vvec, x =>
    if (x.getD i (.fin 0)).le pval then
      partitionLoop pval n (i + 1) (sind + 1) (swapAt vvec sind i) (swapAt x sind i)
    else partitionLoop pval n (i + 1) sind vvec x

/-- The function `sortRec(vvec, x, left, right, pivotind)`.  The `int` indices
are natural numbers (they start at `0 <= left` and are compared after a
conversion to `Int`; for fewer than `2^30` entries no sum of two indices
overflows).  The recursion is counted by `fuel`: every call uses one unit,
and `none` means that the fuel did not suffice. -/
def sortRec {α : Type} :
    Nat → List α → List Dbl → Nat → Nat → Nat → Option (List α × List Dbl)
  | 0, _, _, _, _, _ => none
  | fuel + 1, vvec, x, left, right, pivotind =>
    -- move pivot to the rightmost
    let vvec1 := swapAt vvec pivotind right
    let pval := x.getD pivotind (.fin 0)
    let x1 := swapAt x pivotind right
    -- move any value <= pval to the left side
    let r := partitionLoop pval (right - left) left left vvec1 x1
    let sind := r.2.2
    -- move pivot to sind
    let vvec3 := swapAt r.1 sind right
    let x3 := swapAt r.2.1 sind right
    let first : Option (List α × List Dbl) :=
      if (sind : Int) - (left : Int) > 1 then
        sortRec fuel vvec3 x3 left (sind - 1) ((sind + left) / 2)
      else some (vvec3, x3)
    match first with
    | none => none
    | some (vvec4, x4) =>
      if (right : Int) - (sind : Int) > 1 then
        sortRec fuel vvec4 x4 sind right ((sind + right) / 2)
      else some (vvec4, x4)

/-- The loop `for (int i = vvec.size() - 1; i > -1; --i) x[i] *= -1` of
`sort`, with the entries below `n` still to do. -/
def negateLoop : Nat → List Dbl → List Dbl
  | 0, x => x
  | i + 1, x => negateLoop i (x.set i ((x.getD i (.fin 0)).mul (.fin (-1))))

/-- The function `sort(vvec, x, ascend)`, with the fuel for `sortRec`. -/
def sort {α : Type} (fuel : Nat) (vvec : List α) (x : List Dbl) (ascend : Bool) :
    Option (List α × List Dbl) :=
  if vvec.length ≤ 1 then some (vvec, x)
  else
    let x0 := if ascend = false then negateLoop vvec.length x else x
    match sortRec fuel vvec x0 0 (vvec.length - 1) (vvec.length / 2) with
    | none => none
    | some (vvec1, x1) =>
      some (vvec1, if ascend = false then negateLoop vvec.length x1 else x1)

/-! ## Runs and scenarios the theorems speak about -/

/-- A run of `updatePCost_` at one index over a sequence of observations. -/
def updatePCostSeq (i : Int) : List ℚ → List ℚ × List Nat → List ℚ × List Nat
  | [], p => p
  | c :: cs, p => updatePCostSeq i cs (updatePCost_ i c p.1 p.2)

/-- The ledger states reached from `initialize(rel)` by calls of
`updateAfterSolve` and of `useStrongBranchInfo_` that return. -/
inductive LedgerReachable (b0 : ParReliabilityBrancher) (rel : Relaxation) :
    ParReliabilityBrancher → Prop where
  | init : LedgerReachable b0 rel (initializeLedger b0 rel)
  | afterSolve {b b1 : ParReliabilityBrancher} (node : Node) (sol : Solution) :
      LedgerReachable b0 rel b → updateAfterSolve b node sol = .ok b1 →
      LedgerReachable b0 rel b1
  | strongBranch {b b1 : ParReliabilityBrancher} (cand : BrCand) (chcutoff : Cutoff)
      (change_up change_down up1 down1 : ℚ) (status_up status_down : EngineStatus) :
      LedgerReachable b0 rel b →
      useStrongBranchInfo_ b cand chcutoff change_up change_down status_up status_down
        = .ok (up1, down1, b1) →
      LedgerReachable b0 rel b1

/-- A brancher right after construction and `initialize` for `n` variables. -/
def freshBrancher (n : Nat) : ParReliabilityBrancher :=
  initializeLedger (ParReliabilityBrancher.new [] false) ⟨n⟩

/-- A variable candidate with index `i`, distances `d` and `u`, no handler. -/
def varCand (i : Int) (d u : ℚ) : BrCand :=
  ⟨i, d, u, UpBranch, 0, none⟩

/-- A child node with lower bound `lb` below a root with lower bound
`parentLb`, made by branching on variable `0` at activity `act`. -/
def childNode (parentLb lb act : ℚ) : Node :=
  .mk 1 (.fin lb) (some (.mk 0 (.fin parentLb) none none))
    (some ⟨some (varCand 0 (1 / 2) (1 / 2)), act⟩)

/-- A brancher for `n` variables whose reliable candidates are `rel` and whose
unreliable candidates are `unrel`, as `findCandidates_` would leave them. -/
def withCands (n : Nat) (rel unrel : List BrCand) : ParReliabilityBrancher :=
  { freshBrancher n with relCands_ := rel, unrelCands_ := unrel }

/-- A root node. -/
def rootNode : Node := .mk 0 (.fin 0) none none

/-- What the record in `BestSoFar` says about the candidate held: its
direction is `DownBranch` exactly when the recorded up change exceeds the
recorded down change, and `best_score` is the score of the recorded changes,
or the own score of a generic candidate, whose changes are reported as 0. -/
def SelectionRecord (s : BestSoFar) : Prop :=
  ∀ c : BrCand, s.best_cand = some c →
    (c.dir = DownBranch ↔ s.sel_up > s.sel_down)
    ∧ (s.best_score = some (getScore_ s.sel_up s.sel_down)
      ∨ (¬ c.pCostIndex > -1 ∧ s.sel_up = 0 ∧ s.sel_down = 0 ∧ s.best_score = some c.score))

/-- The three states in which strong branching leaves `status_` and `mods_`
when it starts from `NotModifiedByBrancher` and an empty `mods_`. -/
def StrongOutcome (b : ParReliabilityBrancher) : Prop :=
  (b.status_ = NotModifiedByBrancher ∧ b.mods_ = [])
  ∨ (b.status_ = ModifiedByBrancher ∧ b.mods_ ≠ [])
  ∨ (b.status_ = PrunedByBrancher ∧ b.mods_ = [])

/-- A generic candidate with its own score. -/
def genCand (score : ℚ) : BrCand :=
  ⟨-1, 0, 0, UpBranch, score, none⟩

/-- A handler that reports the candidates `cands` and `gencands`, builds the
modification `0` for a down branch and `1` for an up branch, and returns the
branches `brs`. -/
def simpleHandler (cands gencands : List BrCand) (brs : Option (List Branch)) : Handler where
  getBranchingCandidates := fun _ => ⟨[], cands, gencands, false⟩
  getBrMod := fun _ _ d => match d with
    | DownBranch => ⟨0⟩
    | UpBranch => ⟨1⟩
  getBranches := fun _ _ => brs

/-- An engine that reports `down` for the modification `0` and `up` for every
other one. -/
def simpleEngine (down up : EngineStatus × ℚ) : Engine where
  solve := fun _ m => if m.id = 0 then down else up

/-- The two branches of a variable dichotomy at activity `act`. -/
def twoBranches (act : ℚ) : List Branch :=
  [⟨none, act⟩, ⟨none, act⟩]

/-- A snapshot of zeros for `n` variables. -/
def zeroSnapshot (n : Nat) : Snapshot :=
  ⟨List.replicate n 0, List.replicate n 0, List.replicate n 0, List.replicate n 0⟩

/-- Scenario S2 at the strong-branching loop: one variable, one handler, an
engine that reports `ProvenInfeasible` on both sides, and the candidate for
variable 0 as the only unreliable candidate. -/
def s2Brancher : ParReliabilityBrancher :=
  { setEngine
      (initializeLedger
        (ParReliabilityBrancher.new
          [simpleHandler [varCand 0 (1 / 2) (1 / 2)] [] (some (twoBranches (1 / 2)))] false)
        ⟨1⟩)
      (simpleEngine (ProvenInfeasible, 0) (ProvenInfeasible, 0)) with
    unrelCands_ := [(varCand 0 (1 / 2) (1 / 2)).setHandler 0] }

/-- One variable, one handler, the candidate for variable 0 as the only
unreliable candidate, and an engine that reports `down` on the down side and
`up` on the up side. -/
def oneCandBrancher (down up : EngineStatus × ℚ) : ParReliabilityBrancher :=
  { setEngine
      (initializeLedger
        (ParReliabilityBrancher.new
          [simpleHandler [varCand 0 (1 / 2) (1 / 2)] [] (some (twoBranches (1 / 2)))] false)
        ⟨1⟩)
      (simpleEngine down up) with
    unrelCands_ := [(varCand 0 (1 / 2) (1 / 2)).setHandler 0] }

/-- The brancher of `oneCandBrancher` before its first call of `findBranches`. -/
def oneCandStart (down up : EngineStatus × ℚ) : ParReliabilityBrancher :=
  setEngine
    (ParReliabilityBrancher.new
      [simpleHandler [varCand 0 (1 / 2) (1 / 2)] [] (some (twoBranches (1 / 2)))] false)
    (simpleEngine down up)

/-- A node at depth `d` without parent. -/
def nodeAtDepth (d : Nat) : Node := .mk d (.fin 0) none none

/-- The double nearest to 0.03, `0x3F9EB851EB851EB8`. -/
def t003 : ℚ := 1080863910568919 / 36028797018963968

/-- The double nearest to 3723.45. -/
def t372345 : ℚ := 4093976570442547 / 1099511627776

/-- Follows the spec's words, not the code: the case table of
`bounds_on_reciprocal` for a real interval `[l, u]` with tolerance `1e-10`,
read from top to bottom: zero interval (`|l|, |u| < 1e-10`), strictly
spanning zero (`l < 0 < u`), touching zero from below (`|u| < 1e-10`,
`l < 0`), touching zero from above (`|l| < 1e-10`, `u > 0`), otherwise. -/
def recipTableSpec (l u : ℚ) : Dbl × Dbl :=
  if |l| < tol10 ∧ |u| < tol10 then (.negInf, .posInf)
  else if l < 0 ∧ 0 < u then (.negInf, .posInf)
  else if |u| < tol10 ∧ l < 0 then (.negInf, .fin (1 / l))
  else if |l| < tol10 ∧ 0 < u then (.fin (1 / u), .posInf)
  else (.fin (1 / u), .fin (1 / l))

/-- The working snapshot after the loop over `cands` in `findCandidates_`:
the merges at the indices of the candidates, in turn. -/
def mergeLoop (b : ParReliabilityBrancher) : List BrCand → Snapshot → Snapshot
  | [], w => w
  | cand :: rest, w => mergeLoop b rest (mergeAt b w cand.pCostIndex)

/-- The reliability test of the loop over `cands` in `findCandidates_`, read
on the snapshot `w`. -/
def reliableAt (b : ParReliabilityBrancher) (nodesProc : Nat) (w : Snapshot) (index : Int) :
    Bool :=
  decide (b.minNodeDist_ > uintSub nodesProc (vget b.lastStrBranched_ index 0) ∨
    (vget w.timesUp index 0 ≥ b.thresh_ ∧ vget w.timesDown index 0 ≥ b.thresh_))

/-- The score that the loop over `cands` in `findCandidates_` gives to an
unreliable candidate, read on the snapshot `w`. -/
def unrelScore (w : Snapshot) (cand : BrCand) : ℚ :=
  ((vget w.timesUp cand.pCostIndex 0 + vget w.timesDown cand.pCostIndex 0 : Nat) : ℚ)
    - (1 / 100000) * (vget w.pseudoUp cand.pCostIndex 0 + vget w.pseudoDown cand.pCostIndex 0)
    - (1 / 1000000) * max cand.dDist cand.uDist

/-- The candidates have pairwise different pseudo-cost indices. -/
def DistinctIndices (cands : List BrCand) : Prop :=
  cands.Pairwise (fun a c => a.pCostIndex ≠ c.pCostIndex)

/-- Two variables and one handler that reports a candidate for each; the local
ledger holds three up observations of mean 2 on variable 0. -/
def twoCandBrancher : ParReliabilityBrancher :=
  { initializeLedger
      (ParReliabilityBrancher.new
        [simpleHandler [varCand 0 (1 / 2) (1 / 2), varCand 1 (1 / 4) (3 / 4)] []
          (some (twoBranches (1 / 2)))] false)
      ⟨2⟩ with
    pseudoUp_ := [2, 0]
    timesUp_ := [3, 0]
    x_ := [1 / 2, 1 / 4] }

/-- A working snapshot for two variables with one up observation of value 4 on
variable 0. -/
def twoCandSnapshot : Snapshot :=
  ⟨[1, 0], [0, 0], [4, 0], [0, 0]⟩

/-- One scoring in the traversal of `findBestCandidate_`: the candidate, its
score, and the values of `change_up` and `change_down` at that moment. -/
structure Scored where
  cand : BrCand
  score : ℚ
  change_up : ℚ
  change_down : ℚ

/-- The scorings of a loop of `findBestCandidate_` over candidates that are
scored by `getPCScore_`, in the order of the loop. -/
def pcScored (pseudoUp pseudoDown : List ℚ) (l : List BrCand) : List Scored :=
  l.map (fun c =>
    ⟨c, (getPCScore_ c pseudoUp pseudoDown).score, (getPCScore_ c pseudoUp pseudoDown).ch_up,
      (getPCScore_ c pseudoUp pseudoDown).ch_down⟩)

/-- The scorings of the strong-branching loop of `findBestCandidate_` that
reach the block `if (score > best_score)`, in the order of the loop: the
candidates before the loop is left. -/
def strongScored (objval : ℚ) (maxchange : Cutoff) (nodesProc maxcnt : Nat) :
    Nat → List BrCand → ParReliabilityBrancher → List Scored
  | _, [], _ => []
  | cnt, cand :: rest, b =>
    if cnt < maxcnt then
      match strongBranch_ b cand with
      | .error _ => []
      | .ok (o, b1) =>
        match useStrongBranchInfo_ b1 cand maxchange (max (o.obj_up - objval) 0)
            (max (o.obj_down - objval) 0) o.status_up o.status_down with
        | .error _ => []
        | .ok (change_up, change_down, b2) =>
          let b3 := { b2 with
            lastStrBranched_ := vset b2.lastStrBranched_ cand.pCostIndex (nodesProc + 1) }
          if b3.status_ ≠ NotModifiedByBrancher then []
          else ⟨cand, getScore_ change_up change_down, change_up, change_down⟩
            :: strongScored objval maxchange nodesProc maxcnt (cnt + 1) rest b3
    else []

/-- The block `if (score > best_score) { ... }` along a list of scorings. -/
def adoptAll (l : List Scored) (s : BestSoFar) : BestSoFar :=
  l.foldl (fun s t => adopt s t.cand t.score t.change_up t.change_down) s

/-- All scorings of a call of `findBestCandidate_` that ends with status
`NotModifiedByBrancher`, in traversal order: the reliable candidates by
pseudo-costs, the strong-branched candidates by their strong-branching score,
the unreliable candidates left by pseudo-costs. -/
def traversal (b : ParReliabilityBrancher) (objval : ℚ) (cutoff : Cutoff) (node : Node)
    (pseudoUp pseudoDown : List ℚ) (nodesProc : Nat) : List Scored :=
  let strong := strongScored objval (cutoff.sub objval) nodesProc
    (if node.getDepth > b.maxDepth_ then 0 else b.maxStrongCands_) 0 b.unrelCands_ b
  pcScored pseudoUp pseudoDown b.relCands_ ++ strong
    ++ pcScored pseudoUp pseudoDown (b.unrelCands_.drop strong.length)

/-- The array `p1` holds the entries of `p`, moved within the positions
`l..r` only. -/
def RangePerm {β : Type} (l r : Nat) (p p1 : List β) : Prop :=
  p1.Perm p
  ∧ (∀ k : Nat, k < l ∨ r < k → p1[k]? = p[k]?)
  ∧ (∀ k : Nat, l ≤ k → k ≤ r → ∃ k1 : Nat, l ≤ k1 ∧ k1 ≤ r ∧ p1[k]? = p[k1]?)

/-- The value `x[k]` when the two arrays are held as the list `p` of pairs
`(vvec[k], x[k])`. -/
def valAt {α : Type} (p : List (α × Dbl)) (k : Nat) : Dbl :=
  (p.map Prod.snd).getD k (.fin 0)

/-- The values of the pairs of `p` at the positions `l..r` are in
non-decreasing order: `x[i] <= x[j]` holds for `i` before `j`. -/
def SortedOn {α : Type} (l r : Nat) (p : List (α × Dbl)) : Prop :=
  ∀ i j : Nat, l ≤ i → i < j → j ≤ r → (valAt p i).le (valAt p j) = true

/-- The state of `sortRec` after the pivot was moved to `sind`: the arrays,
as the list `p3` of pairs, hold the entries of `p` moved within `left..right`,
the values before `sind` passed the test `x[i] <= pval` against the pivot
value, the value at `sind` is the pivot value, the values behind `sind` failed
the test. -/
def Partitioned {α : Type} (p p3 : List (α × Dbl)) (left right pivotind sind : Nat) : Prop :=
  left ≤ sind ∧ sind ≤ right ∧ RangePerm left right p p3
  ∧ (∀ k : Nat, left ≤ k → k < sind → (valAt p3 k).le (valAt p pivotind) = true)
  ∧ valAt p3 sind = valAt p pivotind
  ∧ (∀ k : Nat, sind < k → k ≤ right → (valAt p3 k).le (valAt p pivotind) = false)

/-- The two recursive calls at the end of `sortRec`, on the arrays held as
the list `p3` of pairs. -/
def sortRecCalls {α : Type} (fuel : Nat) (p3 : List (α × Dbl)) (left right sind : Nat) :
    Option (List α × List Dbl) :=
  let first : Option (List α × List Dbl) :=
    if (sind : Int) - (left : Int) > 1 then
      sortRec fuel (p3.map Prod.fst) (p3.map Prod.snd) left (sind - 1) ((sind + left) / 2)
    else some (p3.map Prod.fst, p3.map Prod.snd)
  match first with
  | none => none
  | some (vvec4, x4) =>
    if (right : Int) - (sind : Int) > 1 then
      sortRec fuel vvec4 x4 sind right ((sind + right) / 2)
    else some (vvec4, x4)

/-- The result `r` of a call on the arrays held as `p` is the arrays held as
some `p1` with the entries of `p` moved within `left..right` and the values at
`left..right` in non-decreasing order. -/
def SortedResult {α : Type} (r : Option (List α × List Dbl)) (p : List (α × Dbl))
    (left right : Nat) : Prop :=
  ∃ p1 : List (α × Dbl), r = some (p1.map Prod.fst, p1.map Prod.snd)
    ∧ RangePerm left right p p1 ∧ SortedOn left right p1

/-! ## Vectors -/

theorem vget_natCast {α : Type} (v : List α) (n : Nat) (d : α) :
    vget v (n : Int) d = v.getD n d := rfl

theorem vset_natCast {α : Type} (v : List α) (n : Nat) (a : α) :
    vset v (n : Int) a = v.set n a := rfl

theorem length_vset {α : Type} (v : List α) (i : Int) (a : α) :
    (vset v i a).length = v.length := by
  cases i <;> simp [vset]

theorem vget_vset_same {α : Type} (v : List α) (n : Nat) (a d : α) (h : n < v.length) :
    vget (vset v (n : Int) a) (n : Int) d = a := by
  simp [vget_natCast, vset_natCast, List.getD_eq_getElem?_getD, List.getElem?_set, h]

theorem vget_vset_ne {α : Type} (v : List α) (i j : Int) (a d : α) (h : i ≠ j) :
    vget (vset v i a) j d = vget v j d := by
  cases i with
  | ofNat n =>
    cases j with
    | ofNat m =>
      have hnm : n ≠ m := fun e => h (by rw [e])
      simp [vget, vset, List.getD_eq_getElem?_getD, List.getElem?_set, hnm]
    | negSucc m => rfl
  | negSucc n => rfl

theorem mem_vset {α : Type} (v : List α) (i : Int) (a x : α) (h : x ∈ vset v i a) :
    x ∈ v ∨ x = a := by
  cases i with
  | ofNat n =>
    rcases List.mem_or_eq_of_mem_set h with h1 | h1
    · exact Or.inl h1
    · exact Or.inr h1
  | negSucc n => exact Or.inl h

theorem vget_nonneg (v : List ℚ) (i : Int) (h : ∀ x ∈ v, 0 ≤ x) : 0 ≤ vget v i 0 := by
  cases i with
  | ofNat n =>
    show 0 ≤ v.getD n 0
    rw [List.getD_eq_getElem?_getD]
    cases hn : v[n]? with
    | none => simp
    | some y => simpa using h y (List.getElem?_mem hn)
  | negSucc n => exact le_refl _

/-! ## The update law -/

theorem updatePCost_fst_nonneg (i : Int) (c : ℚ) (cost : List ℚ) (count : List Nat)
    (hc : 0 ≤ c) (h : ∀ x ∈ cost, 0 ≤ x) : ∀ x ∈ (updatePCost_ i c cost count).1, 0 ≤ x := by
  intro x hx
  rcases mem_vset _ _ _ _ hx with h1 | h1
  · exact h x h1
  · rw [h1]
    have h0 := vget_nonneg cost i h
    exact div_nonneg (add_nonneg (mul_nonneg h0 (Nat.cast_nonneg _)) hc)
      (add_nonneg (Nat.cast_nonneg _) zero_le_one)

theorem updatePCost_at (n : Nat) (c : ℚ) (cost : List ℚ) (count : List Nat)
    (h1 : n < cost.length) (h2 : n < count.length) :
    vget (updatePCost_ n c cost count).1 n 0
        = (vget cost n 0 * ((vget count n 0 : Nat) : ℚ) + c) / (((vget count n 0 : Nat) : ℚ) + 1)
      ∧ vget (updatePCost_ n c cost count).2 n 0 = vget count n 0 + 1 := by
  constructor
  · exact vget_vset_same _ _ _ _ h1
  · exact vget_vset_same _ _ _ _ h2

theorem updatePCostSeq_sum (n : Nat) (cs : List ℚ) :
    ∀ (cost : List ℚ) (count : List Nat), n < cost.length → n < count.length →
      vget (updatePCostSeq n cs (cost, count)).1 n 0
          * (((vget count n 0 : Nat) : ℚ) + cs.length)
        = vget cost n 0 * ((vget count n 0 : Nat) : ℚ) + cs.sum
      ∧ vget (updatePCostSeq n cs (cost, count)).2 n 0 = vget count n 0 + cs.length := by
  induction cs with
  | nil => intro cost count _ _; simp [updatePCostSeq]
  | cons c cs ih =>
    intro cost count h1 h2
    have hl1 : n < (updatePCost_ n c cost count).1.length := by
      simpa [updatePCost_, length_vset] using h1
    have hl2 : n < (updatePCost_ n c cost count).2.length := by
      simpa [updatePCost_, length_vset] using h2
    obtain ⟨e1, e2⟩ := ih _ _ hl1 hl2
    obtain ⟨a1, a2⟩ := updatePCost_at n c cost count h1 h2
    simp only [updatePCostSeq]
    rw [a1, a2] at e1
    rw [a2] at e2
    have hpos : (((vget count n 0 : Nat) : ℚ) + 1) ≠ 0 := by positivity
    constructor
    · have : (((vget count n 0 : Nat) : ℚ) + ((c :: cs).length : ℚ))
          = (((vget count n 0 + 1 : ℕ) : ℚ) + (cs.length : ℚ)) := by
        push_cast [List.length_cons]; ring
      rw [this, e1]
      push_cast
      rw [div_mul_cancel₀ _ hpos, List.sum_cons]
      ring
    · rw [e2, List.length_cons]; ring

/-- C5: from a freshly initialised ledger entry (cost 0, count 0) at index
`i`, after `updatePCost_` has been applied at `i` for the observations
`c1, ..., ck` with `k ≥ 1`, `cost[i]` is `(c1 + ... + ck) / k` and `count[i]`
is `k`, for the up arrays and for the down arrays; a single update maps
`(cost, count)` at `i` to `((cost * count + c) / (count + 1), count + 1)`. -/
theorem updatePCost_running_mean (b : ParReliabilityBrancher) (rel : Relaxation) (i : Nat)
    (cs : List ℚ) (hi : i < rel.numVars) (hk : 1 ≤ cs.length) :
    (vget (updatePCostSeq i cs
        ((initializeLedger b rel).pseudoUp_, (initializeLedger b rel).timesUp_)).1 i 0
        = cs.sum / (cs.length : ℚ)
      ∧ vget (updatePCostSeq i cs
        ((initializeLedger b rel).pseudoUp_, (initializeLedger b rel).timesUp_)).2 i 0
        = cs.length)
    ∧ (vget (updatePCostSeq i cs
        ((initializeLedger b rel).pseudoDown_, (initializeLedger b rel).timesDown_)).1 i 0
        = cs.sum / (cs.length : ℚ)
      ∧ vget (updatePCostSeq i cs
        ((initializeLedger b rel).pseudoDown_, (initializeLedger b rel).timesDown_)).2 i 0
        = cs.length)
    ∧ ∀ (c : ℚ) (cost : List ℚ) (count : List Nat), i < cost.length → i < count.length →
        vget (updatePCost_ i c cost count).1 i 0
            = (vget cost i 0 * ((vget count i 0 : Nat) : ℚ) + c)
              / (((vget count i 0 : Nat) : ℚ) + 1)
          ∧ vget (updatePCost_ i c cost count).2 i 0 = vget count i 0 + 1 := by
  have key : ∀ (cost : List ℚ) (count : List Nat), cost = List.replicate rel.numVars 0 →
      count = List.replicate rel.numVars 0 →
      vget (updatePCostSeq i cs (cost, count)).1 i 0 = cs.sum / (cs.length : ℚ)
        ∧ vget (updatePCostSeq i cs (cost, count)).2 i 0 = cs.length := by
    intro cost count hc hn
    have h1 : i < cost.length := by rw [hc]; simpa using hi
    have h2 : i < count.length := by rw [hn]; simpa using hi
    obtain ⟨e1, e2⟩ := updatePCostSeq_sum i cs cost count h1 h2
    have z1 : vget cost i 0 = 0 := by
      rw [hc, vget_natCast]; simp [List.getD_eq_getElem?_getD, List.getElem?_replicate, hi]
    have z2 : vget count i 0 = 0 := by
      rw [hn, vget_natCast]; simp [List.getD_eq_getElem?_getD, List.getElem?_replicate, hi]
    rw [z1, z2] at e1
    rw [z2] at e2
    have hpos : (cs.length : ℚ) ≠ 0 := by
      have : (0 : ℚ) < cs.length := by exact_mod_cast hk
      exact ne_of_gt this
    constructor
    · rw [eq_div_iff hpos]; simpa using e1
    · simpa using e2
  exact ⟨key _ _ rfl rfl, key _ _ rfl rfl, fun c cost count h1 h2 =>
    updatePCost_at i c cost count h1 h2⟩

/-- Witness of C5: three variables, index 1, observations 3, 5 and 10. -/
theorem updatePCost_running_mean_witness :
    vget (updatePCostSeq 1 [3, 5, 10]
        ((freshBrancher 3).pseudoDown_, (freshBrancher 3).timesDown_)).1 1 0 = 6
      ∧ vget (updatePCostSeq 1 [3, 5, 10]
        ((freshBrancher 3).pseudoDown_, (freshBrancher 3).timesDown_)).2 1 0 = 3 := by
  have h := (updatePCost_running_mean (ParReliabilityBrancher.new [] false) ⟨3⟩ 1 [3, 5, 10]
    (by decide) (by decide)).2.1
  refine ⟨?_, h.2⟩
  have h1 := h.1
  norm_num at h1
  exact h1

/-- The quotient of a double by a positive number. -/
theorem div_pos_cases (d : ℚ) (hd : 0 < d) :
    Dbl.nan.div (.fin d) = .nan ∧ Dbl.negInf.div (.fin d) = .negInf
      ∧ Dbl.posInf.div (.fin d) = .posInf
      ∧ ∀ a : ℚ, (Dbl.fin a).div (.fin d) = .fin (a / d) := by
  have h0 : ¬ d = 0 := ne_of_gt hd
  have h2 : ¬ -d = 0 := fun h => h0 (neg_eq_zero.mp h)
  have h3 : ¬ 0 < -d := fun h => absurd (neg_pos.mp h) (not_lt.mpr hd.le)
  refine ⟨rfl, ?_, ?_, ?_⟩
  · have e : Dbl.negInf.div (.fin d) = if d = 0 then .negInf else Dbl.infTimes (-d) := rfl
    rw [e, if_neg h0, Dbl.infTimes, if_neg h2, if_neg h3]
  · have e : Dbl.posInf.div (.fin d) = if d = 0 then .posInf else Dbl.infTimes d := rfl
    rw [e, if_neg h0, Dbl.infTimes, if_neg h0, if_pos hd]
  · intro a
    have e : (Dbl.fin a).div (.fin d) = if d = 0 then Dbl.infTimes a else .fin (a / d) := rfl
    rw [e, if_neg h0]

/-- The observation of `updateAfterSolve` when the denominator is positive:
for two finite bounds the absolute quotient if the bound did not decrease and
`0` if it did; `0` when a bound is infinite, the quotient being infinite or
NaN then. -/
theorem afterSolveCost_eq (eTol : ℚ) (nodeLb parentLb : Bound) (newval oldval : ℚ)
    (htol : 0 < eTol) :
    afterSolveCost eTol nodeLb parentLb newval oldval
      = (match parentLb, nodeLb with
        | .fin pl, .fin nl =>
          if pl ≤ nl then |nl - pl| / (|newval - oldval| + eTol) else 0
        | _, _ => 0) := by
  have hden : 0 < |newval - oldval| + eTol := add_pos_of_nonneg_of_pos (abs_nonneg _) htol
  obtain ⟨c1, c2, c3, c4⟩ := div_pos_cases _ hden
  unfold afterSolveCost
  cases parentLb with
  | negInf =>
    cases nodeLb <;> simp only [Bound.toDbl, Dbl.sub, c1, c2, c3] <;> rfl
  | posInf =>
    cases nodeLb <;> simp only [Bound.toDbl, Dbl.sub, c1, c2, c3] <;> rfl
  | fin pl =>
    cases nodeLb with
    | negInf => simp only [Bound.toDbl, Dbl.sub, c2]; rfl
    | posInf => simp only [Bound.toDbl, Dbl.sub, c3]; rfl
    | fin nl =>
      simp only [Bound.toDbl, Dbl.sub, c4, Dbl.lt, Dbl.isinf, Dbl.isnan, Bool.or_false,
        decide_eq_true_eq]
      by_cases h : pl ≤ nl
      · have h1 : 0 ≤ nl - pl := sub_nonneg.mpr h
        have h2 : ¬ (nl - pl) / (|newval - oldval| + eTol) < 0 :=
          not_lt.mpr (div_nonneg h1 hden.le)
        simp only [h, if_true, h2, if_false, abs_of_nonneg h1]
      · have h1 : nl - pl < 0 := sub_neg.mpr (not_le.mp h)
        have h2 : (nl - pl) / (|newval - oldval| + eTol) < 0 := div_neg_of_neg_of_pos h1 hden
        simp only [h, if_false, h2, if_true]

/-- What `updateAfterSolve` does at a node with a parent whose candidate has a
pseudo-cost index that is not negative. -/
theorem updateAfterSolve_eq (b : ParReliabilityBrancher) (node parent : Node) (br : Branch)
    (cand : BrCand) (sol : Solution) (i : Nat) (hp : node.getParent = some parent)
    (hbr : node.getBranch = some br) (hc : br.brCand = some cand)
    (hi : cand.pCostIndex = (i : Int)) :
    updateAfterSolve b node sol
      = .ok (if vget sol.primal i 0 < br.activity then
          { b with
            pseudoDown_ := (updatePCost_ i (afterSolveCost b.eTol_ node.getLb parent.getLb
              (vget sol.primal i 0) br.activity) b.pseudoDown_ b.timesDown_).1
            timesDown_ := (updatePCost_ i (afterSolveCost b.eTol_ node.getLb parent.getLb
              (vget sol.primal i 0) br.activity) b.pseudoDown_ b.timesDown_).2 }
        else
          { b with
            pseudoUp_ := (updatePCost_ i (afterSolveCost b.eTol_ node.getLb parent.getLb
              (vget sol.primal i 0) br.activity) b.pseudoUp_ b.timesUp_).1
            timesUp_ := (updatePCost_ i (afterSolveCost b.eTol_ node.getLb parent.getLb
              (vget sol.primal i 0) br.activity) b.pseudoUp_ b.timesUp_).2 }) := by
  have hgt : (i : Int) > -1 := by omega
  unfold updateAfterSolve
  simp only [hp, hbr, hc, hi, hgt, if_true]
  split <;> rfl

/-- C6, as the code has it: at a non-root node whose candidate has pseudo-cost
index `i ≥ 0`, with `etol > 0`, the observation that `updateAfterSolve` feeds
into the ledger is `|child.lb − parent.lb| / (|x_child − x_parent| + etol)`
when both bounds are finite and the child bound is not below the parent bound,
and `0` otherwise: the signed quotient is replaced by `0` when it is negative
(child bound below parent bound), infinite or NaN (a bound is infinite). -/
theorem updateAfterSolve_observation (b : ParReliabilityBrancher) (node parent : Node)
    (br : Branch) (cand : BrCand) (sol : Solution) (i : Nat)
    (hp : node.getParent = some parent) (hbr : node.getBranch = some br)
    (hc : br.brCand = some cand) (hi : cand.pCostIndex = (i : Int)) (htol : 0 < b.eTol_) :
    ∃ obs : ℚ,
      obs = (match parent.getLb, node.getLb with
        | .fin pl, .fin nl =>
          if pl ≤ nl then |nl - pl| / (|vget sol.primal i 0 - br.activity| + b.eTol_) else 0
        | _, _ => 0)
      ∧ updateAfterSolve b node sol
        = .ok (if vget sol.primal i 0 < br.activity then
            { b with
              pseudoDown_ := (updatePCost_ i obs b.pseudoDown_ b.timesDown_).1
              timesDown_ := (updatePCost_ i obs b.pseudoDown_ b.timesDown_).2 }
          else
            { b with
              pseudoUp_ := (updatePCost_ i obs b.pseudoUp_ b.timesUp_).1
              timesUp_ := (updatePCost_ i obs b.pseudoUp_ b.timesUp_).2 }) := by
  refine ⟨_, rfl, ?_⟩
  rw [updateAfterSolve_eq b node parent br cand sol i hp hbr hc hi,
    afterSolveCost_eq _ _ _ _ _ htol]

/-- Witness of C6 as amended: parent bound 10, child bound 14, the variable
moves from 3.7 to 3; and the same below a parent whose bound is `−∞`, where
the observation is 0. -/
theorem updateAfterSolve_observation_witness :
    (∃ obs : ℚ, obs = 4 / (7 / 10 + 1 / 1000000)
      ∧ updateAfterSolve (freshBrancher 1) (childNode 10 14 (37 / 10)) ⟨[3], 14⟩
        = .ok { freshBrancher 1 with
            pseudoDown_ := (updatePCost_ 0 obs [0] [0]).1
            timesDown_ := (updatePCost_ 0 obs [0] [0]).2 })
    ∧ updateAfterSolve (freshBrancher 1)
        (.mk 1 (.fin 14) (some (.mk 0 .negInf none none))
          (some ⟨some (varCand 0 (1 / 2) (1 / 2)), 37 / 10⟩)) ⟨[3], 14⟩
      = .ok { freshBrancher 1 with pseudoDown_ := [0], timesDown_ := [1] } := by
  have htol : 0 < (freshBrancher 1).eTol_ := by
    norm_num [freshBrancher, initializeLedger, ParReliabilityBrancher.new]
  obtain ⟨obs, h1, h2⟩ := updateAfterSolve_observation (freshBrancher 1)
    (childNode 10 14 (37 / 10)) (.mk 0 (.fin 10) none none)
    ⟨some (varCand 0 (1 / 2) (1 / 2)), 37 / 10⟩ (varCand 0 (1 / 2) (1 / 2)) ⟨[3], 14⟩ 0
    rfl rfl rfl rfl htol
  obtain ⟨obs2, k1, k2⟩ := updateAfterSolve_observation (freshBrancher 1)
    (.mk 1 (.fin 14) (some (.mk 0 .negInf none none))
      (some ⟨some (varCand 0 (1 / 2) (1 / 2)), 37 / 10⟩)) (.mk 0 .negInf none none)
    ⟨some (varCand 0 (1 / 2) (1 / 2)), 37 / 10⟩ (varCand 0 (1 / 2) (1 / 2)) ⟨[3], 14⟩ 0
    rfl rfl rfl rfl htol
  refine ⟨⟨obs, ?_, ?_⟩, ?_⟩
  · rw [h1]
    simp only [Node.getLb, childNode]
    norm_num [vget, freshBrancher, initializeLedger, ParReliabilityBrancher.new, abs_of_neg]
  · rw [h2]
    norm_num [vget, freshBrancher, initializeLedger, ParReliabilityBrancher.new]
  · have hobs : obs2 = 0 := by rw [k1]; rfl
    rw [k2, hobs]
    norm_num [vget, vset, updatePCost_, freshBrancher, initializeLedger,
      ParReliabilityBrancher.new]

/-- C6 fails as stated: with parent bound 10 and child bound 6 (the variable
moves from 3.7 to 3) the ledger receives the observation 0, not
`|6 − 10| / (|3 − 3.7| + etol)`: after the call the down entry is 0 with count
1, and the claimed observation is not 0. -/
theorem updateAfterSolve_observation_counterexample :
    afterSolveCost (freshBrancher 1).eTol_ (.fin 6) (.fin 10) 3 (37 / 10) = 0
      ∧ updateAfterSolve (freshBrancher 1) (childNode 10 6 (37 / 10)) ⟨[3], 6⟩
        = .ok { freshBrancher 1 with pseudoDown_ := [0], timesDown_ := [1] }
      ∧ (updatePCost_ 0 (|6 - 10| / (|3 - 37 / 10| + (freshBrancher 1).eTol_)) [0] [0]).1
        ≠ [0] := by
  have htol : 0 < (freshBrancher 1).eTol_ := by
    norm_num [freshBrancher, initializeLedger, ParReliabilityBrancher.new]
  have habs : |(3 : ℚ) - 37 / 10| = 7 / 10 := by
    rw [abs_of_neg (by norm_num)]; norm_num
  have habs2 : |(6 : ℚ) - 10| = 4 := by
    rw [abs_of_neg (by norm_num)]; norm_num
  have hcost : afterSolveCost (freshBrancher 1).eTol_ (.fin 6) (.fin 10) 3 (37 / 10) = 0 := by
    rw [afterSolveCost_eq _ _ _ _ _ htol]
    simp only
    rw [if_neg (by norm_num)]
  refine ⟨hcost, ?_, ?_⟩
  · rw [updateAfterSolve_eq (freshBrancher 1) (childNode 10 6 (37 / 10))
      (.mk 0 (.fin 10) none none)
      ⟨some (varCand 0 (1 / 2) (1 / 2)), 37 / 10⟩ (varCand 0 (1 / 2) (1 / 2)) ⟨[3], 6⟩ 0
      rfl rfl rfl rfl]
    have hx : vget ([3] : List ℚ) ((0 : Nat) : Int) 0 = 3 := rfl
    simp only [hx, childNode, Node.getLb, hcost]
    norm_num [freshBrancher, initializeLedger, ParReliabilityBrancher.new, vget, vset,
      updatePCost_]
  · rw [habs, habs2]
    norm_num [updatePCost_, vget, vset, freshBrancher, initializeLedger,
      ParReliabilityBrancher.new]

/-- C7: `updateAfterSolve` leaves the whole brancher, and so the whole ledger,
as it is when the node has no parent or its candidate has pseudo-cost index
`−1`; otherwise it applies exactly one observation at the index `i` of the
candidate, to `(pseudoDown_, timesDown_)` when `x_child < x_parent` and to
`(pseudoUp_, timesUp_)` otherwise, the two arrays of the other direction and
every entry at an index other than `i` staying as they are. -/
theorem updateAfterSolve_frame (b : ParReliabilityBrancher) (node : Node) (sol : Solution) :
    (node.getParent = none → updateAfterSolve b node sol = .ok b)
    ∧ (∀ (parent : Node) (br : Branch) (cand : BrCand), node.getParent = some parent →
        node.getBranch = some br → br.brCand = some cand → cand.pCostIndex = -1 →
        updateAfterSolve b node sol = .ok b)
    ∧ (∀ (parent : Node) (br : Branch) (cand : BrCand) (i : Nat),
        node.getParent = some parent → node.getBranch = some br → br.brCand = some cand →
        cand.pCostIndex = (i : Int) →
        ∃ b1 : ParReliabilityBrancher, updateAfterSolve b node sol = .ok b1
          ∧ (vget sol.primal i 0 < br.activity →
              b1.pseudoDown_ = (updatePCost_ i (afterSolveCost b.eTol_ node.getLb parent.getLb
                  (vget sol.primal i 0) br.activity) b.pseudoDown_ b.timesDown_).1
              ∧ b1.timesDown_ = (updatePCost_ i (afterSolveCost b.eTol_ node.getLb
                  parent.getLb (vget sol.primal i 0) br.activity) b.pseudoDown_ b.timesDown_).2
              ∧ b1.pseudoUp_ = b.pseudoUp_ ∧ b1.timesUp_ = b.timesUp_)
          ∧ (¬ vget sol.primal i 0 < br.activity →
              b1.pseudoUp_ = (updatePCost_ i (afterSolveCost b.eTol_ node.getLb parent.getLb
                  (vget sol.primal i 0) br.activity) b.pseudoUp_ b.timesUp_).1
              ∧ b1.timesUp_ = (updatePCost_ i (afterSolveCost b.eTol_ node.getLb
                  parent.getLb (vget sol.primal i 0) br.activity) b.pseudoUp_ b.timesUp_).2
              ∧ b1.pseudoDown_ = b.pseudoDown_ ∧ b1.timesDown_ = b.timesDown_)
          ∧ (∀ j : Int, j ≠ (i : Int) →
              vget b1.pseudoUp_ j 0 = vget b.pseudoUp_ j 0
              ∧ vget b1.pseudoDown_ j 0 = vget b.pseudoDown_ j 0
              ∧ vget b1.timesUp_ j 0 = vget b.timesUp_ j 0
              ∧ vget b1.timesDown_ j 0 = vget b.timesDown_ j 0)
          ∧ b1.lastStrBranched_ = b.lastStrBranched_) := by
  refine ⟨?_, ?_, ?_⟩
  · intro hp
    simp only [updateAfterSolve, hp]
  · intro parent br cand hp hbr hc hi
    simp only [updateAfterSolve, hp, hbr, hc, hi]
    rfl
  · intro parent br cand i hp hbr hc hi
    refine ⟨_, updateAfterSolve_eq b node parent br cand sol i hp hbr hc hi, ?_, ?_, ?_, ?_⟩
    · intro hlt
      simp only [hlt, if_true, and_self]
    · intro hlt
      simp only [hlt, if_false, and_self]
    · intro j hj
      have hj1 : (i : Int) ≠ j := fun e => hj e.symm
      by_cases hlt : vget sol.primal i 0 < br.activity
      · simp only [hlt, if_true, updatePCost_, vget_vset_ne _ _ _ _ _ hj1, and_self]
      · simp only [hlt, if_false, updatePCost_, vget_vset_ne _ _ _ _ _ hj1, and_self]
    · by_cases hlt : vget sol.primal i 0 < br.activity
      · simp only [hlt, if_true]
      · simp only [hlt, if_false]

/-- Scenario S6 for C7: parent bound 10, child bound 14, the variable moves
from 3.7 to 3; the down entry becomes `4 / (0.7 + 1e-6)` with count 1 and the
up arrays stay as they are. -/
theorem updateAfterSolve_frame_witness :
    ∃ b1 : ParReliabilityBrancher,
      updateAfterSolve (freshBrancher 1) (childNode 10 14 (37 / 10)) ⟨[3], 14⟩ = .ok b1
      ∧ b1.pseudoDown_ = [4 / (7 / 10 + 1 / 1000000)] ∧ b1.timesDown_ = [1]
      ∧ b1.pseudoUp_ = [0] ∧ b1.timesUp_ = [0] := by
  obtain ⟨b1, h1, h2, -, -, -⟩ := (updateAfterSolve_frame (freshBrancher 1)
    (childNode 10 14 (37 / 10)) ⟨[3], 14⟩).2.2 (.mk 0 (.fin 10) none none)
    ⟨some (varCand 0 (1 / 2) (1 / 2)), 37 / 10⟩ (varCand 0 (1 / 2) (1 / 2)) 0 rfl rfl rfl rfl
  have hx : vget ([3] : List ℚ) ((0 : Nat) : Int) 0 = 3 := rfl
  have habs : |(3 : ℚ) - 37 / 10| = 7 / 10 := by
    rw [abs_of_neg (by norm_num)]; norm_num
  have htol : 0 < (freshBrancher 1).eTol_ := by
    norm_num [freshBrancher, initializeLedger, ParReliabilityBrancher.new]
  have hcost : afterSolveCost (freshBrancher 1).eTol_ (.fin 14) (.fin 10) 3 (37 / 10)
      = 4 / (7 / 10 + 1 / 1000000) := by
    rw [afterSolveCost_eq _ _ _ _ _ htol]
    simp only
    rw [if_pos (by norm_num), habs]
    norm_num [freshBrancher, initializeLedger, ParReliabilityBrancher.new]
  obtain ⟨e1, e2, e3, e4⟩ := h2 (by rw [hx]; norm_num)
  refine ⟨b1, h1, ?_, ?_, ?_, ?_⟩
  · rw [e1, hx]
    simp only [childNode, Node.getLb, hcost]
    norm_num [freshBrancher, initializeLedger, ParReliabilityBrancher.new, vget, vset,
      updatePCost_]
  · rw [e2]; rfl
  · rw [e3]; rfl
  · rw [e4]; rfl

/-! ## The pruning test -/

theorem shouldPrune_state (b b1 : ParReliabilityBrancher) (chcutoff : Cutoff) (change : ℚ)
    (status : EngineStatus) (is_rel p r : Bool)
    (h : shouldPrune_ b chcutoff change status is_rel = .ok (p, r, b1)) :
    b1 = b ∨ b1 = { b with stats_ := { b.stats_ with engProbs := b.stats_.engProbs + 1 } } := by
  cases status
  case otherStatus code =>
    simp only [shouldPrune_, Except.ok.injEq, Prod.mk.injEq] at h
    exact Or.inr h.2.2.symm
  all_goals
    simp only [shouldPrune_] at h
    first
      | (simp only [Except.ok.injEq, Prod.mk.injEq] at h
         exact Or.inl h.2.2.symm)
      | (split at h
         · simp only [Except.ok.injEq, Prod.mk.injEq] at h
           exact Or.inl h.2.2.symm
         · first
             | (simp only [Except.ok.injEq, Prod.mk.injEq] at h
                exact Or.inl h.2.2.symm)
             | exact absurd h (by simp))

theorem shouldPrune_true (b b1 : ParReliabilityBrancher) (chcutoff : Cutoff) (change : ℚ)
    (status : EngineStatus) (is_rel r : Bool)
    (h : shouldPrune_ b chcutoff change status is_rel = .ok (true, r, b1)) :
    r = is_rel ∧ b1 = b := by
  cases status <;> simp [shouldPrune_] at h
  all_goals first
    | exact ⟨h.1.symm, h.2.symm⟩
    | (split at h <;> simp at h <;> exact ⟨h.1.symm, h.2.symm⟩)

/-- C9, as the code has it: with `trustCutoff_ = false` the result of
`shouldPrune_` does not depend on the change or on `chcutoff`, and it returns
true exactly when the engine status is `ProvenLocalInfeasible`,
`ProvenInfeasible` or `ProvenObjectiveCutOff`. -/
theorem shouldPrune_trust_off (b : ParReliabilityBrancher) (h : b.trustCutoff_ = false)
    (status : EngineStatus) (is_rel : Bool) (chcutoff chcutoff1 : Cutoff)
    (change change1 : ℚ) :
    shouldPrune_ b chcutoff change status is_rel
        = shouldPrune_ b chcutoff1 change1 status is_rel
      ∧ ((∃ (r : Bool) (b1 : ParReliabilityBrancher),
            shouldPrune_ b chcutoff change status is_rel = .ok (true, r, b1))
          ↔ (status = ProvenLocalInfeasible ∨ status = ProvenInfeasible
              ∨ status = ProvenObjectiveCutOff)) := by
  cases status <;> simp [shouldPrune_, h]
  split <;> simp

/-- Witness of C9 as amended: an optimal status whose change exceeds the
cut-off does not prune when the cut-off is not trusted. -/
theorem shouldPrune_trust_off_witness :
    shouldPrune_ (setTrustCutoff (freshBrancher 1) false) (.finite 1) 5 ProvenOptimal true
        = shouldPrune_ (setTrustCutoff (freshBrancher 1) false) .infinity 0 ProvenOptimal true
      ∧ ¬ ∃ (r : Bool) (b1 : ParReliabilityBrancher),
          shouldPrune_ (setTrustCutoff (freshBrancher 1) false) (.finite 1) 5 ProvenOptimal true
            = .ok (true, r, b1) := by
  have h := shouldPrune_trust_off (setTrustCutoff (freshBrancher 1) false) rfl ProvenOptimal
    true (.finite 1) .infinity 5 0
  refine ⟨h.1, fun hex => ?_⟩
  have := h.2.mp hex
  simp at this

/-- C9 fails as stated: with `trustCutoff_ = false` the status
`ProvenObjectiveCutOff`, which is not an infeasibility status, makes
`shouldPrune_` return true. -/
theorem shouldPrune_trust_off_counterexample :
    (setTrustCutoff (freshBrancher 1) false).trustCutoff_ = false
      ∧ shouldPrune_ (setTrustCutoff (freshBrancher 1) false) (.finite 10) 0
          ProvenObjectiveCutOff true
        = .ok (true, true, setTrustCutoff (freshBrancher 1) false)
      ∧ ProvenObjectiveCutOff ≠ ProvenLocalInfeasible
      ∧ ProvenObjectiveCutOff ≠ ProvenInfeasible := by
  refine ⟨rfl, rfl, ?_, ?_⟩ <;> decide

/-! ## The interpretation of a strong branch -/

/-- The five ways in which `useStrongBranchInfo_` returns. -/
theorem useStrongBranchInfo_cases (b b3 : ParReliabilityBrancher) (cand : BrCand)
    (chcutoff : Cutoff) (change_up change_down up1 down1 : ℚ)
    (status_up status_down : EngineStatus)
    (h : useStrongBranchInfo_ b cand chcutoff change_up change_down status_up status_down
      = .ok (up1, down1, b3)) :
    ∃ (pd r1 pu r : Bool) (b1 b2 : ParReliabilityBrancher),
      shouldPrune_ b chcutoff change_down status_down true = .ok (pd, r1, b1)
      ∧ shouldPrune_ b1 chcutoff change_up status_up r1 = .ok (pu, r, b2)
      ∧ ((r = false ∧ up1 = 0 ∧ down1 = 0 ∧ b3 = b2)
        ∨ (r = true ∧ pu = true ∧ pd = true ∧ up1 = change_up ∧ down1 = change_down
          ∧ b3 = { b2 with
              status_ := PrunedByBrancher
              stats_ := { b2.stats_ with bndChange := b2.stats_.bndChange + 2 } })
        ∨ (r = true ∧ pu = true ∧ pd = false ∧ up1 = change_up ∧ down1 = change_down
          ∧ ∃ hd : Handler, getHandler b2 cand = some hd
            ∧ b3 = { b2 with
                status_ := ModifiedByBrancher
                mods_ := b2.mods_ ++ [hd.getBrMod cand b2.x_ DownBranch]
                stats_ := { b2.stats_ with bndChange := b2.stats_.bndChange + 1 } })
        ∨ (r = true ∧ pu = false ∧ pd = true ∧ up1 = change_up ∧ down1 = change_down
          ∧ ∃ hd : Handler, getHandler b2 cand = some hd
            ∧ b3 = { b2 with
                status_ := ModifiedByBrancher
                mods_ := b2.mods_ ++ [hd.getBrMod cand b2.x_ UpBranch]
                stats_ := { b2.stats_ with bndChange := b2.stats_.bndChange + 1 } })
        ∨ (r = true ∧ pu = false ∧ pd = false ∧ up1 = change_up ∧ down1 = change_down
          ∧ b3 = { b2 with
              pseudoDown_ := (updatePCost_ cand.pCostIndex
                (|change_down| / (|cand.dDist| + b2.eTol_)) b2.pseudoDown_ b2.timesDown_).1
              timesDown_ := (updatePCost_ cand.pCostIndex
                (|change_down| / (|cand.dDist| + b2.eTol_)) b2.pseudoDown_ b2.timesDown_).2
              pseudoUp_ := (updatePCost_ cand.pCostIndex
                (|change_up| / (|cand.uDist| + b2.eTol_)) b2.pseudoUp_ b2.timesUp_).1
              timesUp_ := (updatePCost_ cand.pCostIndex
                (|change_up| / (|cand.uDist| + b2.eTol_)) b2.pseudoUp_ b2.timesUp_).2 })) := by
  unfold useStrongBranchInfo_ at h
  cases h1 : shouldPrune_ b chcutoff change_down status_down true with
  | error e => rw [h1] at h; exact absurd h (by simp)
  | ok v1 =>
    obtain ⟨pd, r1, b1⟩ := v1
    rw [h1] at h
    simp only at h
    cases h2 : shouldPrune_ b1 chcutoff change_up status_up r1 with
    | error e => rw [h2] at h; exact absurd h (by simp)
    | ok v2 =>
      obtain ⟨pu, r, b2⟩ := v2
      rw [h2] at h
      simp only at h
      refine ⟨pd, r1, pu, r, b1, b2, rfl, h2, ?_⟩
      cases r with
      | false =>
        simp at h
        exact Or.inl ⟨rfl, h.1.symm, h.2.1.symm, h.2.2.symm⟩
      | true =>
        cases pu <;> cases pd
        · simp at h
          exact Or.inr (Or.inr (Or.inr (Or.inr
            ⟨rfl, rfl, rfl, h.1.symm, h.2.1.symm, h.2.2.symm⟩)))
        · simp at h
          cases h3 : getHandler b2 cand with
          | none => rw [h3] at h; exact absurd h (by simp)
          | some hd =>
            rw [h3] at h
            simp at h
            exact Or.inr (Or.inr (Or.inr (Or.inl
              ⟨rfl, rfl, rfl, h.1.symm, h.2.1.symm, hd, rfl, h.2.2.symm⟩)))
        · simp at h
          cases h3 : getHandler b2 cand with
          | none => rw [h3] at h; exact absurd h (by simp)
          | some hd =>
            rw [h3] at h
            simp at h
            exact Or.inr (Or.inr (Or.inl
              ⟨rfl, rfl, rfl, h.1.symm, h.2.1.symm, hd, rfl, h.2.2.symm⟩))
        · simp at h
          exact Or.inr (Or.inl ⟨rfl, rfl, rfl, h.1.symm, h.2.1.symm, h.2.2.symm⟩)

theorem shouldPrune_engProbs (b b1 : ParReliabilityBrancher) (chcutoff : Cutoff) (change : ℚ)
    (status : EngineStatus) (is_rel p r : Bool)
    (h : shouldPrune_ b chcutoff change status is_rel = .ok (p, r, b1)) :
    ∃ n : Nat, b1 = { b with stats_ := { b.stats_ with engProbs := n } } := by
  rcases shouldPrune_state b b1 chcutoff change status is_rel p r h with h1 | h1
  · exact ⟨b.stats_.engProbs, by rw [h1]⟩
  · exact ⟨_, h1⟩

/-- Both calls of `shouldPrune_` in `useStrongBranchInfo_` change the counter
`engProbs` at most. -/
theorem shouldPrune_twice (b b1 b2 : ParReliabilityBrancher) (chcutoff : Cutoff)
    (change_down change_up : ℚ) (status_down status_up : EngineStatus) (r0 pd r1 pu r : Bool)
    (h1 : shouldPrune_ b chcutoff change_down status_down r0 = .ok (pd, r1, b1))
    (h2 : shouldPrune_ b1 chcutoff change_up status_up r1 = .ok (pu, r, b2)) :
    ∃ n : Nat, b2 = { b with stats_ := { b.stats_ with engProbs := n } } := by
  obtain ⟨n1, e1⟩ := shouldPrune_engProbs _ _ _ _ _ _ _ _ h1
  obtain ⟨n2, e2⟩ := shouldPrune_engProbs _ _ _ _ _ _ _ _ h2
  exact ⟨n2, by rw [e2, e1]⟩

theorem afterSolveCost_nonneg (eTol : ℚ) (nodeLb parentLb : Bound) (newval oldval : ℚ) :
    0 ≤ afterSolveCost eTol nodeLb parentLb newval oldval := by
  unfold afterSolveCost
  simp only
  generalize (nodeLb.toDbl.sub parentLb.toDbl).div (.fin (|newval - oldval| + eTol)) = cost
  split
  · exact le_refl _
  · next h =>
    cases cost with
    | fin q =>
      simp only [Dbl.lt, Dbl.isinf, Dbl.isnan, Bool.or_false, decide_eq_true_eq] at h
      exact not_lt.mp h
    | nan => exact le_refl _
    | negInf => exact le_refl _
    | posInf => exact le_refl _

theorem updateAfterSolve_pseudo_nonneg (b b1 : ParReliabilityBrancher) (node : Node)
    (sol : Solution) (h : updateAfterSolve b node sol = .ok b1)
    (hu : ∀ x ∈ b.pseudoUp_, 0 ≤ x) (hd : ∀ x ∈ b.pseudoDown_, 0 ≤ x) :
    (∀ x ∈ b1.pseudoUp_, 0 ≤ x) ∧ (∀ x ∈ b1.pseudoDown_, 0 ≤ x) ∧ b1.eTol_ = b.eTol_ := by
  unfold updateAfterSolve at h
  split at h
  · injection h with h; subst h; exact ⟨hu, hd, rfl⟩
  · split at h
    · exact absurd h (by simp)
    · split at h
      · exact absurd h (by simp)
      · simp only at h
        split at h
        · split at h
          · injection h with h; subst h
            exact ⟨hu, updatePCost_fst_nonneg _ _ _ _ (afterSolveCost_nonneg _ _ _ _ _) hd, rfl⟩
          · injection h with h; subst h
            exact ⟨updatePCost_fst_nonneg _ _ _ _ (afterSolveCost_nonneg _ _ _ _ _) hu, hd, rfl⟩
        · injection h with h; subst h; exact ⟨hu, hd, rfl⟩

theorem useStrongBranchInfo_pseudo_nonneg (b b3 : ParReliabilityBrancher) (cand : BrCand)
    (chcutoff : Cutoff) (change_up change_down up1 down1 : ℚ)
    (status_up status_down : EngineStatus)
    (h : useStrongBranchInfo_ b cand chcutoff change_up change_down status_up status_down
      = .ok (up1, down1, b3))
    (htol : 0 ≤ b.eTol_)
    (hu : ∀ x ∈ b.pseudoUp_, 0 ≤ x) (hd : ∀ x ∈ b.pseudoDown_, 0 ≤ x) :
    (∀ x ∈ b3.pseudoUp_, 0 ≤ x) ∧ (∀ x ∈ b3.pseudoDown_, 0 ≤ x) ∧ b3.eTol_ = b.eTol_ := by
  obtain ⟨pd, r1, pu, r, b1, b2, h1, h2, hc⟩ := useStrongBranchInfo_cases _ _ _ _ _ _ _ _ _ _ h
  obtain ⟨n, e⟩ := shouldPrune_twice _ _ _ _ _ _ _ _ _ _ _ _ _ h1 h2
  subst e
  rcases hc with ⟨-, -, -, e⟩ | ⟨-, -, -, -, -, e⟩ | ⟨-, -, -, -, -, hd1, -, e⟩
    | ⟨-, -, -, -, -, hd1, -, e⟩ | ⟨-, -, -, -, -, e⟩
  · subst e; exact ⟨hu, hd, rfl⟩
  · subst e; exact ⟨hu, hd, rfl⟩
  · subst e; exact ⟨hu, hd, rfl⟩
  · subst e; exact ⟨hu, hd, rfl⟩
  · subst e
    refine ⟨updatePCost_fst_nonneg _ _ _ _ ?_ hu, updatePCost_fst_nonneg _ _ _ _ ?_ hd, rfl⟩
    · exact div_nonneg (abs_nonneg _) (add_nonneg (abs_nonneg _) htol)
    · exact div_nonneg (abs_nonneg _) (add_nonneg (abs_nonneg _) htol)

/-- The invariant on values of the engine that are numbers: in every ledger
state reached from `initialize` by calls of `updateAfterSolve` and by
strong-branch updates (`useStrongBranchInfo_`) with rational changes, with a
positive tolerance, `pseudoUp_[i] ≥ 0` and `pseudoDown_[i] ≥ 0` at every index
`i`, whatever the distances of the candidates. -/
theorem ledger_pseudo_nonneg (b0 b : ParReliabilityBrancher) (rel : Relaxation)
    (htol : 0 < b0.eTol_) (hr : LedgerReachable b0 rel b) (i : Int) :
    0 ≤ vget b.pseudoUp_ i 0 ∧ 0 ≤ vget b.pseudoDown_ i 0 := by
  have inv : (∀ x ∈ b.pseudoUp_, 0 ≤ x) ∧ (∀ x ∈ b.pseudoDown_, 0 ≤ x)
      ∧ b.eTol_ = b0.eTol_ := by
    induction hr with
    | init =>
      refine ⟨?_, ?_, rfl⟩
      · intro x hx
        have : x = 0 := List.eq_of_mem_replicate hx
        rw [this]
      · intro x hx
        have : x = 0 := List.eq_of_mem_replicate hx
        rw [this]
    | afterSolve node sol _ hstep ih =>
      obtain ⟨a1, a2, a3⟩ := updateAfterSolve_pseudo_nonneg _ _ _ _ hstep ih.1 ih.2.1
      exact ⟨a1, a2, a3.trans ih.2.2⟩
    | strongBranch cand chcutoff cu cd u1 d1 su sd _ hstep ih =>
      obtain ⟨a1, a2, a3⟩ := useStrongBranchInfo_pseudo_nonneg _ _ _ _ _ _ _ _ _ _ hstep
        (by rw [ih.2.2]; exact htol.le) ih.1 ih.2.1
      exact ⟨a1, a2, a3.trans ih.2.2⟩
  exact ⟨vget_nonneg _ _ inv.1, vget_nonneg _ _ inv.2.1⟩

/-- An instance of the invariant: the ledger after `initialize`, a strong
branch on variable 0 that ends at the iteration limit on both sides, and the
after-solve update of scenario S6. -/
theorem ledger_pseudo_nonneg_witness :
    ∃ b1 b2 : ParReliabilityBrancher,
      useStrongBranchInfo_ (freshBrancher 1) (varCand 0 (1 / 2) (1 / 2)) (.finite 10)
          (3 / 10) (2 / 10) EngineIterationLimit EngineIterationLimit
        = .ok (3 / 10, 2 / 10, b1)
      ∧ updateAfterSolve b1 (childNode 10 14 (37 / 10)) ⟨[3], 14⟩ = .ok b2
      ∧ 0 ≤ vget b2.pseudoUp_ 0 0 ∧ 0 ≤ vget b2.pseudoDown_ 0 0 := by
  have s1 : useStrongBranchInfo_ (freshBrancher 1) (varCand 0 (1 / 2) (1 / 2)) (.finite 10)
      (3 / 10) (2 / 10) EngineIterationLimit EngineIterationLimit = .ok (3 / 10, 2 / 10, _) :=
    rfl
  have s2 := fun b1 => updateAfterSolve_eq b1 (childNode 10 14 (37 / 10))
    (.mk 0 (.fin 10) none none) ⟨some (varCand 0 (1 / 2) (1 / 2)), 37 / 10⟩
    (varCand 0 (1 / 2) (1 / 2)) ⟨[3], 14⟩ 0 rfl rfl rfl rfl
  refine ⟨_, _, s1, s2 _, ?_⟩
  exact ledger_pseudo_nonneg (ParReliabilityBrancher.new [] false) _ ⟨1⟩
    (by norm_num [ParReliabilityBrancher.new])
    (.afterSolve _ _ (.strongBranch _ _ _ _ _ _ _ _ .init s1) (s2 _)) 0

/-- On numbers, `strongChange`, `strongCost` and `pCostEntry` are the
expressions of `strongLoop`, `useStrongBranchInfo_` and `updatePCost_`. -/
theorem strongCost_fin (eTol dist obj objval c : ℚ) (n : Nat) (htol : 0 < eTol) :
    strongChange (.fin obj) (.fin objval) = .fin (max (obj - objval) 0)
    ∧ strongCost eTol (.fin c) dist = .fin (|c| / (|dist| + eTol))
    ∧ ∀ x : ℚ, pCostEntry (.fin c) n (.fin x) = .fin ((c * (n : ℚ) + x) / ((n : ℚ) + 1)) := by
  have hden : 0 < |dist| + eTol := add_pos_of_nonneg_of_pos (abs_nonneg _) htol
  have hn : (0 : ℚ) < (n : ℚ) + 1 := by positivity
  refine ⟨?_, ?_, ?_⟩
  · simp only [strongChange, Dbl.sub, Dbl.max, Dbl.lt]
    by_cases h : obj - objval < 0
    · simp only [h, decide_True, if_true, max_eq_right h.le]
    · simp only [h, decide_False, Bool.false_eq_true, if_false, max_eq_left (not_lt.mp h)]
  · simp only [strongCost, Dbl.fabs]
    exact (div_pos_cases _ hden).2.2.2 _
  · intro x
    simp only [pCostEntry, Dbl.mul, Dbl.add]
    exact (div_pos_cases _ hn).2.2.2 _

/-- C8 fails in the code when the engine returns NaN as the value of a strong
branch: with status `EngineIterationLimit` on both sides `useStrongBranchInfo_`
reaches its two calls of `updatePCost_` whatever the changes are, without a
test of the cost; `std::max(NaN − objval, 0.0)` is NaN, the cost
`fabs(NaN) / (fabs(dist) + eTol_)` is NaN, the entry that `updatePCost_` stores
is NaN, and `0 <= NaN` is false.  The sibling `updateAfterSolve` replaces a NaN
cost (here from the bounds `+∞` and `+∞`) by 0. -/
theorem useStrongBranchInfo_nan (b : ParReliabilityBrancher) (cand : BrCand)
    (chcutoff : Cutoff) (change_up change_down dist : ℚ) (objval cost_i : Dbl)
    (count_i : Nat) :
    useStrongBranchInfo_ b cand chcutoff change_up change_down EngineIterationLimit
        EngineIterationLimit
      = .ok (change_up, change_down,
          { b with
            pseudoDown_ := (updatePCost_ cand.pCostIndex
              (|change_down| / (|cand.dDist| + b.eTol_)) b.pseudoDown_ b.timesDown_).1
            timesDown_ := (updatePCost_ cand.pCostIndex
              (|change_down| / (|cand.dDist| + b.eTol_)) b.pseudoDown_ b.timesDown_).2
            pseudoUp_ := (updatePCost_ cand.pCostIndex
              (|change_up| / (|cand.uDist| + b.eTol_)) b.pseudoUp_ b.timesUp_).1
            timesUp_ := (updatePCost_ cand.pCostIndex
              (|change_up| / (|cand.uDist| + b.eTol_)) b.pseudoUp_ b.timesUp_).2 })
    ∧ strongChange .nan objval = .nan
    ∧ strongCost b.eTol_ (strongChange .nan objval) dist = .nan
    ∧ pCostEntry cost_i count_i (strongCost b.eTol_ (strongChange .nan objval) dist) = .nan
    ∧ (Dbl.fin 0).le
        (pCostEntry cost_i count_i (strongCost b.eTol_ (strongChange .nan objval) dist))
      = false
    ∧ afterSolveCost b.eTol_ .posInf .posInf 0 0 = 0 := by
  have h1 : strongChange .nan objval = .nan := by
    cases objval <;> rfl
  have h2 : strongCost b.eTol_ .nan dist = .nan := rfl
  have hadd : ∀ a : Dbl, a.add .nan = .nan := fun a => by cases a <;> rfl
  have h3 : pCostEntry cost_i count_i .nan = .nan := by
    rw [pCostEntry, hadd]
    rfl
  refine ⟨?_, h1, ?_, ?_, ?_, rfl⟩
  · simp [useStrongBranchInfo_, shouldPrune_]
  · rw [h1, h2]
  · rw [h1, h2, h3]
  · rw [h1, h2, h3]
    rfl

/-! ## The choice of the best candidate -/

theorem adopt_record (s : BestSoFar) (cand : BrCand) (score change_up change_down : ℚ)
    (hs : SelectionRecord s)
    (hl : score = getScore_ change_up change_down
      ∨ (¬ cand.pCostIndex > -1 ∧ change_up = 0 ∧ change_down = 0 ∧ score = cand.score)) :
    SelectionRecord (adopt s cand score change_up change_down) := by
  unfold adopt
  split
  · intro c hc
    simp only [Option.some.injEq] at hc
    subst hc
    refine ⟨?_, ?_⟩
    · by_cases hgt : change_up > change_down
      · simp [hgt]
      · simp [hgt]
    · rcases hl with hl | ⟨h1, h2, h3, h4⟩
      · exact Or.inl (by rw [hl])
      · exact Or.inr ⟨h1, h2, h3, by rw [h4]⟩
  · exact hs

theorem getPCScore_link (cand : BrCand) (pseudoUp pseudoDown : List ℚ) :
    (getPCScore_ cand pseudoUp pseudoDown).score
        = getScore_ (getPCScore_ cand pseudoUp pseudoDown).ch_up
          (getPCScore_ cand pseudoUp pseudoDown).ch_down
      ∨ (¬ cand.pCostIndex > -1 ∧ (getPCScore_ cand pseudoUp pseudoDown).ch_up = 0
        ∧ (getPCScore_ cand pseudoUp pseudoDown).ch_down = 0
        ∧ (getPCScore_ cand pseudoUp pseudoDown).score = cand.score) := by
  unfold getPCScore_
  by_cases h : cand.pCostIndex > -1
  · simp [h]
  · simp [h]

theorem scoreByPCost_record (pseudoUp pseudoDown : List ℚ) (l : List BrCand) :
    ∀ s : BestSoFar, SelectionRecord s →
      SelectionRecord (scoreByPCost pseudoUp pseudoDown l s) := by
  induction l with
  | nil => intro s hs; exact hs
  | cons cand rest ih =>
    intro s hs
    exact ih _ (adopt_record s cand _ _ _ hs (getPCScore_link cand pseudoUp pseudoDown))

theorem strongLoop_record (objval : ℚ) (maxchange : Cutoff) (nodesProc maxcnt : Nat)
    (l : List BrCand) :
    ∀ (cnt : Nat) (s : BestSoFar) (b : ParReliabilityBrancher)
      (r : BestSoFar × ParReliabilityBrancher × List BrCand),
      strongLoop objval maxchange nodesProc maxcnt cnt l s b = .ok r →
      SelectionRecord s → SelectionRecord r.1 := by
  induction l with
  | nil =>
    intro cnt s b r h hs
    simp only [strongLoop, Except.ok.injEq] at h
    rw [← h]; exact hs
  | cons cand rest ih =>
    intro cnt s b r h hs
    simp only [strongLoop] at h
    split at h
    · split at h
      · exact absurd h (by simp)
      · split at h
        · exact absurd h (by simp)
        · split at h
          · simp only [Except.ok.injEq] at h
            rw [← h]; exact hs
          · exact ih _ _ _ _ h (adopt_record s cand _ _ _ hs (Or.inl rfl))
    · simp only [Except.ok.injEq] at h
      rw [← h]; exact hs

/-- C3, as the code has it: when `findBestCandidate_` returns a candidate, the
direction set on it is `DownBranch` if and only if `Δ_up > Δ_down`, for the up
and down changes from which the winning score was computed when the candidate
was selected. -/
theorem findBestCandidate_direction (b b1 : ParReliabilityBrancher) (objval : ℚ)
    (cutoff : Cutoff) (node : Node) (pseudoUp pseudoDown : List ℚ) (nodesProc : Nat)
    (s : BestSoFar) (c : BrCand)
    (h : findBestCandidateAux b objval cutoff node pseudoUp pseudoDown nodesProc = .ok (s, b1))
    (hc : s.best_cand = some c) :
    findBestCandidate_ b objval cutoff node pseudoUp pseudoDown nodesProc = .ok (some c, b1)
      ∧ (c.dir = DownBranch ↔ s.sel_up > s.sel_down)
      ∧ (s.best_score = some (getScore_ s.sel_up s.sel_down)
        ∨ (¬ c.pCostIndex > -1 ∧ s.sel_up = 0 ∧ s.sel_down = 0
          ∧ s.best_score = some c.score)) := by
  have h0 : SelectionRecord ⟨none, none, 0, 0⟩ := by
    intro c hc; exact absurd hc (by simp)
  have hrec : SelectionRecord s := by
    unfold findBestCandidateAux at h
    simp only at h
    split at h
    · split at h
      · exact absurd h (by simp)
      · split at h
        · exact absurd h (by simp)
        · next s1 b2 rest hloop =>
          have h1 := strongLoop_record _ _ _ _ _ _ _ _ _ hloop
            (scoreByPCost_record _ _ _ _ h0)
          split at h
          · simp only [Except.ok.injEq, Prod.mk.injEq] at h
            rw [← h.1]
            exact scoreByPCost_record _ _ _ _ h1
          · simp only [Except.ok.injEq, Prod.mk.injEq] at h
            rw [← h.1]
            exact h1
    · simp only [Except.ok.injEq, Prod.mk.injEq] at h
      rw [← h.1]
      exact scoreByPCost_record _ _ _ _ h0
  refine ⟨?_, hrec c hc⟩
  simp only [findBestCandidate_, h, hc]

/-- Witness of C3 as amended: one reliable candidate with `Δ_up = 3/2` and
`Δ_down = 1/2` is returned with direction `DownBranch`. -/
theorem findBestCandidate_direction_witness :
    findBestCandidate_ (withCands 1 [varCand 0 (1 / 2) (1 / 2)] []) 0 .infinity rootNode
        [3] [1] 0
      = .ok (some { varCand 0 (1 / 2) (1 / 2) with dir := DownBranch },
          withCands 1 [varCand 0 (1 / 2) (1 / 2)] [])
    ∧ (({ varCand 0 (1 / 2) (1 / 2) with dir := DownBranch } : BrCand).dir = DownBranch
      ↔ (3 / 2 : ℚ) > 1 / 2) := by
  have h : findBestCandidateAux (withCands 1 [varCand 0 (1 / 2) (1 / 2)] []) 0 .infinity
      rootNode [3] [1] 0
      = .ok (⟨some (7 / 10), some { varCand 0 (1 / 2) (1 / 2) with dir := DownBranch },
          3 / 2, 1 / 2⟩, withCands 1 [varCand 0 (1 / 2) (1 / 2)] []) := by
    norm_num [findBestCandidateAux, withCands, freshBrancher, initializeLedger,
      ParReliabilityBrancher.new, scoreByPCost, adopt, gtBest, getPCScore_, getScore_, vget,
      varCand]
  have t := findBestCandidate_direction _ _ _ _ _ _ _ _ _ _ h rfl
  exact ⟨t.1, t.2.1⟩

/-- C3 fails as stated: one reliable candidate with `Δ_up = Δ_down = 1/2`, so
that `Δ_up ≥ Δ_down`, is returned with direction `UpBranch`. -/
theorem findBestCandidate_direction_counterexample :
    findBestCandidate_ (withCands 1 [varCand 0 (1 / 2) (1 / 2)] []) 0 .infinity rootNode
        [1] [1] 0
      = .ok (some { varCand 0 (1 / 2) (1 / 2) with dir := UpBranch },
          withCands 1 [varCand 0 (1 / 2) (1 / 2)] [])
    ∧ (getPCScore_ (varCand 0 (1 / 2) (1 / 2)) [1] [1]).ch_up
      ≥ (getPCScore_ (varCand 0 (1 / 2) (1 / 2)) [1] [1]).ch_down
    ∧ ({ varCand 0 (1 / 2) (1 / 2) with dir := UpBranch } : BrCand).dir ≠ DownBranch := by
  refine ⟨?_, ?_, ?_⟩
  · norm_num [findBestCandidate_, findBestCandidateAux, withCands, freshBrancher,
      initializeLedger, ParReliabilityBrancher.new, scoreByPCost, adopt, gtBest, getPCScore_,
      getScore_, vget, varCand]
  · norm_num [getPCScore_, vget, varCand]
  · decide

/-- C4, as the code has it (scenario S1): with the reliable candidates for
variables 0 and 1 in that order, `pseudo_up = [2, 1]`, `pseudo_down = [1, 2]`,
both distances 0.5 for both and no unreliable candidate, both candidates score
0.6, `findBestCandidate_` returns the candidate for variable 0 with direction
`DownBranch`, and the status stays `NotModifiedByBrancher`. -/
theorem findBestCandidate_scenario_S1 :
    (getPCScore_ (varCand 0 (1 / 2) (1 / 2)) [2, 1] [1, 2]).score = 6 / 10
    ∧ (getPCScore_ (varCand 1 (1 / 2) (1 / 2)) [2, 1] [1, 2]).score = 6 / 10
    ∧ findBestCandidate_
        (withCands 2 [varCand 0 (1 / 2) (1 / 2), varCand 1 (1 / 2) (1 / 2)] []) 0 .infinity
        rootNode [2, 1] [1, 2] 0
      = .ok (some { varCand 0 (1 / 2) (1 / 2) with dir := DownBranch },
          withCands 2 [varCand 0 (1 / 2) (1 / 2), varCand 1 (1 / 2) (1 / 2)] [])
    ∧ (withCands 2 [varCand 0 (1 / 2) (1 / 2), varCand 1 (1 / 2) (1 / 2)] []).status_
      = NotModifiedByBrancher := by
  refine ⟨?_, ?_, ?_, rfl⟩
  · norm_num [getPCScore_, getScore_, vget, varCand]
  · norm_num [getPCScore_, getScore_, vget, varCand]
  · norm_num [findBestCandidate_, findBestCandidateAux, withCands, freshBrancher,
      initializeLedger, ParReliabilityBrancher.new, scoreByPCost, adopt, gtBest, getPCScore_,
      getScore_, vget, varCand]

/-- C4 fails as stated: in scenario S1 the candidate returned for variable 0
does not have direction `UpBranch`, because its up change 1 exceeds its down
change 1/2. -/
theorem findBestCandidate_scenario_S1_counterexample :
    ∃ (c : BrCand) (b1 : ParReliabilityBrancher),
      findBestCandidate_
          (withCands 2 [varCand 0 (1 / 2) (1 / 2), varCand 1 (1 / 2) (1 / 2)] []) 0 .infinity
          rootNode [2, 1] [1, 2] 0
        = .ok (some c, b1)
      ∧ c.pCostIndex = 0 ∧ c.dir ≠ UpBranch
      ∧ (getPCScore_ (varCand 0 (1 / 2) (1 / 2)) [2, 1] [1, 2]).ch_up = 1
      ∧ (getPCScore_ (varCand 0 (1 / 2) (1 / 2)) [2, 1] [1, 2]).ch_down = 1 / 2 := by
  refine ⟨{ varCand 0 (1 / 2) (1 / 2) with dir := DownBranch },
    withCands 2 [varCand 0 (1 / 2) (1 / 2), varCand 1 (1 / 2) (1 / 2)] [],
    ?_, rfl, by decide, ?_, ?_⟩
  · norm_num [findBestCandidate_, findBestCandidateAux, withCands, freshBrancher,
      initializeLedger, ParReliabilityBrancher.new, scoreByPCost, adopt, gtBest, getPCScore_,
      getScore_, vget, varCand]
  · norm_num [getPCScore_, vget, varCand]
  · norm_num [getPCScore_, vget, varCand]

/-! ## Status and modifications through strong branching -/

theorem strongBranch_eq (b : ParReliabilityBrancher) (cand : BrCand) (hd : Handler)
    (engine : Engine) (hh : getHandler b cand = some hd) (he : b.engine_ = some engine) :
    strongBranch_ b cand
      = .ok ({ obj_up := (engine.solve (b.stats_.strBrCalls + 1)
                (hd.getBrMod cand b.x_ UpBranch)).2
               obj_down := (engine.solve b.stats_.strBrCalls
                (hd.getBrMod cand b.x_ DownBranch)).2
               status_up := (engine.solve (b.stats_.strBrCalls + 1)
                (hd.getBrMod cand b.x_ UpBranch)).1
               status_down := (engine.solve b.stats_.strBrCalls
                (hd.getBrMod cand b.x_ DownBranch)).1 },
          { b with stats_ := { b.stats_ with strBrCalls := b.stats_.strBrCalls + 1 + 1 } }) := by
  simp only [strongBranch_, hh, he]

theorem strongBranch_state (b b1 : ParReliabilityBrancher) (cand : BrCand)
    (o : StrongBranchOut) (h : strongBranch_ b cand = .ok (o, b1)) :
    b1 = { b with stats_ := { b.stats_ with strBrCalls := b.stats_.strBrCalls + 1 + 1 } } := by
  unfold strongBranch_ at h
  split at h
  · exact absurd h (by simp)
  · split at h
    · exact absurd h (by simp)
    · simp only [Except.ok.injEq, Prod.mk.injEq] at h
      exact h.2.symm

theorem useStrongBranchInfo_outcome (b b3 : ParReliabilityBrancher) (cand : BrCand)
    (chcutoff : Cutoff) (change_up change_down up1 down1 : ℚ)
    (status_up status_down : EngineStatus)
    (h : useStrongBranchInfo_ b cand chcutoff change_up change_down status_up status_down
      = .ok (up1, down1, b3))
    (hs : b.status_ = NotModifiedByBrancher) (hm : b.mods_ = []) :
    StrongOutcome b3 ∧ b3.handlers_ = b.handlers_ ∧ b3.x_ = b.x_ := by
  obtain ⟨pd, r1, pu, r, b1, b2, h1, h2, hc⟩ := useStrongBranchInfo_cases _ _ _ _ _ _ _ _ _ _ h
  obtain ⟨n, e⟩ := shouldPrune_twice _ _ _ _ _ _ _ _ _ _ _ _ _ h1 h2
  subst e
  rcases hc with ⟨-, -, -, e⟩ | ⟨-, -, -, -, -, e⟩ | ⟨-, -, -, -, -, hd1, -, e⟩
    | ⟨-, -, -, -, -, hd1, -, e⟩ | ⟨-, -, -, -, -, e⟩
  · subst e; exact ⟨Or.inl ⟨hs, hm⟩, rfl, rfl⟩
  · subst e; exact ⟨Or.inr (Or.inr ⟨rfl, hm⟩), rfl, rfl⟩
  · subst e; exact ⟨Or.inr (Or.inl ⟨rfl, by simp⟩), rfl, rfl⟩
  · subst e; exact ⟨Or.inr (Or.inl ⟨rfl, by simp⟩), rfl, rfl⟩
  · subst e; exact ⟨Or.inl ⟨hs, hm⟩, rfl, rfl⟩

theorem strongLoop_outcome (objval : ℚ) (maxchange : Cutoff) (nodesProc maxcnt : Nat)
    (l : List BrCand) :
    ∀ (cnt : Nat) (s : BestSoFar) (b : ParReliabilityBrancher)
      (r : BestSoFar × ParReliabilityBrancher × List BrCand),
      strongLoop objval maxchange nodesProc maxcnt cnt l s b = .ok r →
      b.status_ = NotModifiedByBrancher → b.mods_ = [] →
      StrongOutcome r.2.1 ∧ r.2.1.handlers_ = b.handlers_ ∧ r.2.1.x_ = b.x_ := by
  induction l with
  | nil =>
    intro cnt s b r h hs hm
    simp only [strongLoop, Except.ok.injEq] at h
    rw [← h]; exact ⟨Or.inl ⟨hs, hm⟩, rfl, rfl⟩
  | cons cand rest ih =>
    intro cnt s b r h hs hm
    simp only [strongLoop] at h
    split at h
    · split at h
      · exact absurd h (by simp)
      · next o b1 hsb =>
        have e1 := strongBranch_state _ _ _ _ hsb
        split at h
        · exact absurd h (by simp)
        · next cu cd b2 hus =>
          obtain ⟨ho, hh, hx⟩ := useStrongBranchInfo_outcome _ _ _ _ _ _ _ _ _ _ hus
            (by rw [e1]; exact hs) (by rw [e1]; exact hm)
          have hh1 : b2.handlers_ = b.handlers_ := by rw [hh, e1]
          have hx1 : b2.x_ = b.x_ := by rw [hx, e1]
          split at h
          · simp only [Except.ok.injEq] at h
            rw [← h]
            exact ⟨ho, hh1, hx1⟩
          · next hst =>
            simp only [ne_eq, Decidable.not_not] at hst
            have hm2 : b2.mods_ = [] := by
              rcases ho with ⟨-, hm2⟩ | ⟨hs2, -⟩ | ⟨hs2, -⟩
              · exact hm2
              · rw [hs2] at hst; exact absurd hst (by decide)
              · rw [hs2] at hst; exact absurd hst (by decide)
            obtain ⟨a1, a2, a3⟩ := ih _ _ _ _ h hst hm2
            exact ⟨a1, a2.trans hh1, a3.trans hx1⟩
    · simp only [Except.ok.injEq] at h
      rw [← h]; exact ⟨Or.inl ⟨hs, hm⟩, rfl, rfl⟩

theorem findBestCandidateAux_outcome (b b1 : ParReliabilityBrancher) (objval : ℚ)
    (cutoff : Cutoff) (node : Node) (pseudoUp pseudoDown : List ℚ) (nodesProc : Nat)
    (s : BestSoFar)
    (h : findBestCandidateAux b objval cutoff node pseudoUp pseudoDown nodesProc = .ok (s, b1))
    (hs : b.status_ = NotModifiedByBrancher) (hm : b.mods_ = []) :
    StrongOutcome b1 ∧ b1.handlers_ = b.handlers_ ∧ b1.x_ = b.x_ := by
  unfold findBestCandidateAux at h
  simp only at h
  split at h
  · split at h
    · exact absurd h (by simp)
    · split at h
      · exact absurd h (by simp)
      · next s1 b2 rest hloop =>
        have h1 := strongLoop_outcome _ _ _ _ _ _ _ _ _ hloop hs hm
        split at h
        · simp only [Except.ok.injEq, Prod.mk.injEq] at h
          rw [← h.2]; exact h1
        · simp only [Except.ok.injEq, Prod.mk.injEq] at h
          rw [← h.2]; exact h1
  · simp only [Except.ok.injEq, Prod.mk.injEq] at h
    rw [← h.2]; exact ⟨Or.inl ⟨hs, hm⟩, rfl, rfl⟩

/-! ## Status and modifications through the collection of candidates -/

theorem collectLoop_outcome (x : List ℚ) (hs : List Handler) :
    ∀ (k : Nat) (mods : List Modification) (cands gencands : List BrCand), mods = [] →
      (collectLoop x hs k mods cands gencands).early = some PrunedByBrancher
      ∨ ((collectLoop x hs k mods cands gencands).early = some ModifiedByBrancher
        ∧ (collectLoop x hs k mods cands gencands).mods ≠ [])
      ∨ ((collectLoop x hs k mods cands gencands).early = none
        ∧ (collectLoop x hs k mods cands gencands).mods = []) := by
  induction hs with
  | nil =>
    intro k mods cands gencands hm
    exact Or.inr (Or.inr ⟨rfl, hm⟩)
  | cons h hs ih =>
    intro k mods cands gencands hm
    subst hm
    simp only [collectLoop, List.nil_append]
    by_cases hinf : (h.getBranchingCandidates x).is_inf = true
    · simp [hinf]
    · by_cases hmods : (h.getBranchingCandidates x).mods = []
      · have hcond : ((h.getBranchingCandidates x).is_inf
            || decide ((h.getBranchingCandidates x).mods.length > 0)) = false := by
          simp [hinf, hmods]
        rw [if_neg (by rw [hcond]; simp)]
        exact ih _ _ _ _ hmods
      · have hlen : (h.getBranchingCandidates x).mods.length > 0 :=
          List.length_pos.mpr hmods
        simp [hinf, hlen, hmods]

theorem beginCall_fields (b : ParReliabilityBrancher) (rel : Relaxation) (sol : Solution) :
    (beginCall b rel sol).status_ = NotModifiedByBrancher ∧ (beginCall b rel sol).mods_ = []
      ∧ (beginCall b rel sol).handlers_ = b.handlers_ := by
  unfold beginCall
  refine ⟨rfl, rfl, ?_⟩
  by_cases hi : b.init_ = true
  · simp [hi]
  · simp [hi, initializeLedger]

theorem findCandidates_outcome (b b3 : ParReliabilityBrancher) (w w1 : Snapshot)
    (nodesProc : Nat) (h : findCandidates_ b w nodesProc = .ok (w1, b3))
    (hs : b.status_ = NotModifiedByBrancher) (hm : b.mods_ = []) :
    b3.handlers_ = b.handlers_ ∧ b3.x_ = b.x_
      ∧ (b3.status_ = PrunedByBrancher
        ∨ (b3.status_ = ModifiedByBrancher ∧ b3.mods_ ≠ [])
        ∨ (b3.status_ = NotModifiedByBrancher ∧ b3.mods_ = [])) := by
  unfold findCandidates_ at h
  split at h
  · exact absurd h (by simp)
  · split at h
    · exact absurd h (by simp)
    · simp only at h
      have hc := collectLoop_outcome b.x_ b.handlers_ 0 b.mods_ [] [] hm
      split at h
      · next st hst =>
        simp only [Except.ok.injEq, Prod.mk.injEq] at h
        rw [← h.2]
        refine ⟨rfl, rfl, ?_⟩
        rcases hc with hc | ⟨hc, hne⟩ | ⟨hc, -⟩
        · rw [hc] at hst
          simp only [Option.some.injEq] at hst
          exact Or.inl hst.symm
        · rw [hc] at hst
          simp only [Option.some.injEq] at hst
          exact Or.inr (Or.inl ⟨hst.symm, hne⟩)
        · rw [hc] at hst; exact absurd hst (by simp)
      · next hst =>
        simp only [Except.ok.injEq, Prod.mk.injEq] at h
        rw [← h.2]
        refine ⟨rfl, rfl, ?_⟩
        rcases hc with hc | ⟨hc, -⟩ | ⟨-, hnil⟩
        · rw [hc] at hst; exact absurd hst (by simp)
        · rw [hc] at hst; exact absurd hst (by simp)
        · exact Or.inr (Or.inr ⟨hs, hnil⟩)

/-! ## The entry point -/

theorem getHandler_mem (b : ParReliabilityBrancher) (cand : BrCand) (hd : Handler)
    (h : getHandler b cand = some hd) : hd ∈ b.handlers_ := by
  unfold getHandler at h
  split at h
  · exact absurd h (by simp)
  · exact List.get?_mem h

/-- The shapes in which `findBranches` returns: branches from the handler of
the winning candidate under `NotModifiedByBrancher`, at least one appended
modification under `ModifiedByBrancher`, or no branches and untouched `mods`
under `PrunedByBrancher`. -/
theorem findBranches_shapes (b b1 : ParReliabilityBrancher) (rel : Relaxation) (node : Node)
    (sol : Solution) (s_pool : SolutionPool) (mods : List Modification) (w : Snapshot)
    (nodesProc : Nat) (r : FindBranchesOut)
    (hr : findBranches b rel node sol s_pool mods w nodesProc = .ok (r, b1)) :
    (r.br_status = NotModifiedByBrancher ∧ r.mods = mods
      ∧ ∃ (hd : Handler) (cand : BrCand) (x : List ℚ) (l : List Branch), hd ∈ b.handlers_
        ∧ hd.getBranches cand x = some l ∧ r.branches = some (l.map (Branch.setBrCand cand)))
    ∨ (r.br_status = ModifiedByBrancher ∧ r.branches = none
      ∧ ∃ ms : List Modification, ms ≠ [] ∧ r.mods = mods ++ ms)
    ∨ (r.br_status = PrunedByBrancher ∧ r.branches = none ∧ r.mods = mods) := by
  obtain ⟨i1, i2, i3⟩ := beginCall_fields b rel sol
  unfold findBranches at hr
  split at hr
  · exact absurd hr (by simp)
  · next w1 b3 hfc =>
    obtain ⟨f1, -, f3⟩ := findCandidates_outcome _ _ _ _ _ hfc i1 i2
    split at hr
    · next hp =>
      simp only [Except.ok.injEq, Prod.mk.injEq] at hr
      rw [← hr.1]
      exact Or.inr (Or.inr ⟨hp, rfl, rfl⟩)
    · next hnp =>
      simp only at hr
      split at hr
      · exact absurd hr (by simp)
      · next br_can b4 hfound =>
        have key : (b4.status_ = NotModifiedByBrancher ∨ (b4.status_ = ModifiedByBrancher
            ∧ b4.mods_ ≠ []) ∨ (b4.status_ = PrunedByBrancher ∧ b4.mods_ = []))
            ∧ b4.handlers_ = b.handlers_ := by
          split at hfound
          · next hnm =>
            have hm3 : b3.mods_ = [] := by
              rcases f3 with f3 | ⟨f3, -⟩ | ⟨-, f3⟩
              · exact absurd f3 hnp
              · rw [f3] at hnm; exact absurd hnm (by decide)
              · exact f3
            unfold findBestCandidate_ at hfound
            split at hfound
            · exact absurd hfound (by simp)
            · next s b5 haux =>
              simp only [Except.ok.injEq, Prod.mk.injEq] at hfound
              obtain ⟨o1, o2, -⟩ := findBestCandidateAux_outcome _ _ _ _ _ _ _ _ _ haux hnm hm3
              rw [← hfound.2]
              refine ⟨?_, by rw [o2, f1, i3]⟩
              rcases o1 with ⟨o1, -⟩ | o1 | o1
              · exact Or.inl o1
              · exact Or.inr (Or.inl o1)
              · exact Or.inr (Or.inr o1)
          · next hnm =>
            simp only [Except.ok.injEq, Prod.mk.injEq] at hfound
            rw [← hfound.2]
            refine ⟨?_, by rw [f1, i3]⟩
            rcases f3 with f3 | f3 | ⟨f3, -⟩
            · exact absurd f3 hnp
            · exact Or.inr (Or.inl f3)
            · exact absurd f3 hnm
        obtain ⟨k1, k2⟩ := key
        split at hr
        · split at hr
          · exact absurd hr (by simp)
          · next cand =>
            split at hr
            · exact absurd hr (by simp)
            · next hd hgh =>
              split at hr
              · exact absurd hr (by simp)
              · next branches hgb =>
                simp only [Except.ok.injEq, Prod.mk.injEq] at hr
                rw [← hr.1]
                refine Or.inl ⟨rfl, rfl, hd, cand, b4.x_, branches, ?_, hgb, rfl⟩
                rw [← k2]
                exact getHandler_mem _ _ _ hgh
        · next hnm4 =>
          simp only [Except.ok.injEq, Prod.mk.injEq] at hr
          rw [← hr.1]
          rcases k1 with k1 | ⟨k1, k3⟩ | ⟨k1, k3⟩
          · exact absurd k1 hnm4
          · refine Or.inr (Or.inl ⟨k1, rfl, b4.mods_, k3, ?_⟩)
            have hlen : b4.mods_.length > 0 := List.length_pos.mpr k3
            simp only [hlen, if_true]
          · refine Or.inr (Or.inr ⟨k1, rfl, ?_⟩)
            simp only [k3, List.length_nil, gt_iff_lt, lt_self_iff_false, if_false]

/-- C1, as the code has it: when every handler returns a non-empty set from
`getBranches`, on return of `findBranches` exactly one of the following holds:
(i) the status is `NotModifiedByBrancher` and a non-empty set of branches is
returned; (ii) the status is `ModifiedByBrancher` and at least one
modification has been appended to the `mods` output; (iii) the status is
`PrunedByBrancher` and no branches are returned. -/
theorem findBranches_exactly_one (b b1 : ParReliabilityBrancher) (rel : Relaxation)
    (node : Node) (sol : Solution) (s_pool : SolutionPool) (mods : List Modification)
    (w : Snapshot) (nodesProc : Nat) (r : FindBranchesOut)
    (hH : ∀ hd ∈ b.handlers_, ∀ (cand : BrCand) (x : List ℚ), hd.getBranches cand x ≠ some [])
    (hr : findBranches b rel node sol s_pool mods w nodesProc = .ok (r, b1)) :
    ((r.br_status = NotModifiedByBrancher ∧ ∃ l : List Branch, r.branches = some l ∧ l ≠ [])
      ∧ ¬ (r.br_status = ModifiedByBrancher
        ∧ ∃ ms : List Modification, ms ≠ [] ∧ r.mods = mods ++ ms)
      ∧ ¬ (r.br_status = PrunedByBrancher ∧ r.branches = none))
    ∨ (¬ (r.br_status = NotModifiedByBrancher
        ∧ ∃ l : List Branch, r.branches = some l ∧ l ≠ [])
      ∧ (r.br_status = ModifiedByBrancher
        ∧ ∃ ms : List Modification, ms ≠ [] ∧ r.mods = mods ++ ms)
      ∧ ¬ (r.br_status = PrunedByBrancher ∧ r.branches = none))
    ∨ (¬ (r.br_status = NotModifiedByBrancher
        ∧ ∃ l : List Branch, r.branches = some l ∧ l ≠ [])
      ∧ ¬ (r.br_status = ModifiedByBrancher
        ∧ ∃ ms : List Modification, ms ≠ [] ∧ r.mods = mods ++ ms)
      ∧ (r.br_status = PrunedByBrancher ∧ r.branches = none)) := by
  rcases findBranches_shapes _ _ _ _ _ _ _ _ _ _ hr with
    ⟨h1, -, hd, cand, x, l, hmem, hgb, hbr⟩ | ⟨h1, -, h3⟩ | ⟨h1, h2, -⟩
  · refine Or.inl ⟨⟨h1, _, hbr, ?_⟩, ?_, ?_⟩
    · intro hnil
      have : l = [] := by simpa using hnil
      rw [this] at hgb
      exact hH hd hmem cand x hgb
    · rintro ⟨h, -⟩; rw [h1] at h; exact absurd h (by decide)
    · rintro ⟨h, -⟩; rw [h1] at h; exact absurd h (by decide)
  · refine Or.inr (Or.inl ⟨?_, ⟨h1, h3⟩, ?_⟩)
    · rintro ⟨h, -⟩; rw [h1] at h; exact absurd h (by decide)
    · rintro ⟨h, -⟩; rw [h1] at h; exact absurd h (by decide)
  · refine Or.inr (Or.inr ⟨?_, ?_, ⟨h1, h2⟩⟩)
    · rintro ⟨h, -⟩; rw [h1] at h; exact absurd h (by decide)
    · rintro ⟨h, -⟩; rw [h1] at h; exact absurd h (by decide)

/-- Witness of C1 as amended: one handler with one generic candidate and two
branches; the call returns the two branches under `NotModifiedByBrancher`. -/
theorem findBranches_exactly_one_witness :
    ((((⟨some ((twoBranches (1 / 2)).map (Branch.setBrCand ((genCand 1).setHandler 0))),
          NotModifiedByBrancher, []⟩ : FindBranchesOut).br_status = NotModifiedByBrancher
        ∧ ∃ l : List Branch,
          (⟨some ((twoBranches (1 / 2)).map (Branch.setBrCand ((genCand 1).setHandler 0))),
            NotModifiedByBrancher, []⟩ : FindBranchesOut).branches = some l ∧ l ≠ [])))
    ∧ ∃ b1 : ParReliabilityBrancher,
      findBranches
          (ParReliabilityBrancher.new [simpleHandler [] [genCand 1] (some (twoBranches (1 / 2)))]
            false)
          ⟨1⟩ rootNode ⟨[1 / 2], 0⟩ ⟨.infinity⟩ [] (zeroSnapshot 1) 0
        = .ok (⟨some ((twoBranches (1 / 2)).map (Branch.setBrCand ((genCand 1).setHandler 0))),
            NotModifiedByBrancher, []⟩, b1) := by
  have hex : ∃ b1 : ParReliabilityBrancher,
      findBranches
          (ParReliabilityBrancher.new [simpleHandler [] [genCand 1] (some (twoBranches (1 / 2)))]
            false)
          ⟨1⟩ rootNode ⟨[1 / 2], 0⟩ ⟨.infinity⟩ [] (zeroSnapshot 1) 0
        = .ok (⟨some ((twoBranches (1 / 2)).map (Branch.setBrCand ((genCand 1).setHandler 0))),
            NotModifiedByBrancher, []⟩, b1) := by
    simp [findBranches, findCandidates_, beginCall, ParReliabilityBrancher.new, collectLoop,
      simpleHandler, genCand, classifyLoop, stdSort, BrVarCandSet.insert, initializeLedger,
      findBestCandidate_, findBestCandidateAux, scoreByPCost, adopt, gtBest, getPCScore_,
      BrCand.setHandler, getHandler, freeCandidates_, copyPrimal, twoBranches,
      Branch.setBrCand]
  obtain ⟨b1, hr⟩ := hex
  have hH : ∀ hd ∈ (ParReliabilityBrancher.new
      [simpleHandler [] [genCand 1] (some (twoBranches (1 / 2)))] false).handlers_,
      ∀ (cand : BrCand) (x : List ℚ), hd.getBranches cand x ≠ some [] := by
    intro hd hmem cand x
    simp only [ParReliabilityBrancher.new, List.mem_singleton] at hmem
    rw [hmem]
    simp [simpleHandler, twoBranches]
  rcases findBranches_exactly_one _ _ _ _ _ _ _ _ _ _ hH hr with h | h | h
  · exact ⟨h.1, b1, hr⟩
  · exact absurd h.2.1.1 (by decide)
  · exact absurd h.2.2.1 (by decide)

/-- C1 fails as stated: a handler whose `getBranches` returns an empty set
makes `findBranches` return with status `NotModifiedByBrancher`, an empty set
of branches and no modification, which is none of the three cases. -/
theorem findBranches_exactly_one_counterexample :
    (∃ b1 : ParReliabilityBrancher,
      findBranches (ParReliabilityBrancher.new [simpleHandler [] [genCand 1] (some [])] false)
          ⟨1⟩ rootNode ⟨[1 / 2], 0⟩ ⟨.infinity⟩ [] (zeroSnapshot 1) 0
        = .ok (⟨some [], NotModifiedByBrancher, []⟩, b1))
    ∧ ¬ ((⟨some [], NotModifiedByBrancher, []⟩ : FindBranchesOut).br_status
          = NotModifiedByBrancher
        ∧ ∃ l : List Branch,
          (⟨some [], NotModifiedByBrancher, []⟩ : FindBranchesOut).branches = some l ∧ l ≠ [])
    ∧ ¬ ((⟨some [], NotModifiedByBrancher, []⟩ : FindBranchesOut).br_status
          = ModifiedByBrancher
        ∧ ∃ ms : List Modification, ms ≠ []
          ∧ (⟨some [], NotModifiedByBrancher, []⟩ : FindBranchesOut).mods = [] ++ ms)
    ∧ ¬ ((⟨some [], NotModifiedByBrancher, []⟩ : FindBranchesOut).br_status
          = PrunedByBrancher
        ∧ (⟨some [], NotModifiedByBrancher, []⟩ : FindBranchesOut).branches = none) := by
  refine ⟨?_, ?_, ?_, ?_⟩
  · simp [findBranches, findCandidates_, beginCall, ParReliabilityBrancher.new, collectLoop,
      simpleHandler, genCand, classifyLoop, stdSort, BrVarCandSet.insert, initializeLedger,
      findBestCandidate_, findBestCandidateAux, scoreByPCost, adopt, gtBest, getPCScore_,
      BrCand.setHandler, getHandler, freeCandidates_, copyPrimal]
  · rintro ⟨-, l, h1, h2⟩
    simp only [Option.some.injEq] at h1
    exact h2 h1.symm
  · rintro ⟨h, -⟩; exact absurd h (by decide)
  · rintro ⟨h, -⟩; exact absurd h (by decide)

theorem collectLoop_nothing (x : List ℚ) (hs : List Handler) :
    ∀ k : Nat,
      (∀ hd ∈ hs, (hd.getBranchingCandidates x).mods = []
        ∧ (hd.getBranchingCandidates x).cands = []
        ∧ (hd.getBranchingCandidates x).gencands = []
        ∧ (hd.getBranchingCandidates x).is_inf = false) →
      collectLoop x hs k [] [] [] = ⟨[], [], [], none⟩ := by
  induction hs with
  | nil => intro k _; rfl
  | cons h hs ih =>
    intro k hall
    obtain ⟨h1, h2, h3, h4⟩ := hall h (List.mem_cons_self _ _)
    simp only [collectLoop, h1, h2, h3, h4, BrVarCandSet.insert, List.map_nil, List.append_nil,
      List.length_nil, gt_iff_lt, lt_self_iff_false, decide_False, Bool.or_self]
    exact ih _ (fun hd hmem => hall hd (List.mem_cons_of_mem _ hmem))

/-- C2, what the code does: when every handler returns no variable
candidate, no generic candidate and no modification and none reports
infeasibility, `findCandidates_` leaves the status `NotModifiedByBrancher` and
both candidate lists empty, `findBestCandidate_` returns the null candidate,
and `findBranches` dereferences it: the call does not return. -/
theorem findBranches_no_candidates (b : ParReliabilityBrancher) (rel : Relaxation)
    (node : Node) (sol : Solution) (s_pool : SolutionPool) (mods : List Modification)
    (w : Snapshot) (nodesProc : Nat) (hrel : b.relCands_ = []) (hunrel : b.unrelCands_ = [])
    (hH : ∀ hd ∈ b.handlers_,
      (hd.getBranchingCandidates (copyPrimal rel.numVars sol.primal)).mods = []
      ∧ (hd.getBranchingCandidates (copyPrimal rel.numVars sol.primal)).cands = []
      ∧ (hd.getBranchingCandidates (copyPrimal rel.numVars sol.primal)).gencands = []
      ∧ (hd.getBranchingCandidates (copyPrimal rel.numVars sol.primal)).is_inf = false) :
    (∃ b3 : ParReliabilityBrancher,
      findCandidates_ (beginCall b rel sol) w nodesProc = .ok (w, b3)
      ∧ b3.status_ = NotModifiedByBrancher ∧ b3.relCands_ = [] ∧ b3.unrelCands_ = []
      ∧ findBestCandidate_ b3 sol.objValue s_pool.bestSolutionValue node w.pseudoUp
          w.pseudoDown nodesProc = .ok (none, b3))
    ∧ findBranches b rel node sol s_pool mods w nodesProc = .error .nullDeref := by
  obtain ⟨i1, i2, i3⟩ := beginCall_fields b rel sol
  have i4 : (beginCall b rel sol).x_ = copyPrimal rel.numVars sol.primal := rfl
  have i5 : (beginCall b rel sol).relCands_ = [] := by
    unfold beginCall
    by_cases hi : b.init_ = true
    · simp [hi, hrel]
    · simp [hi, initializeLedger, hrel]
  have i6 : (beginCall b rel sol).unrelCands_ = [] := by
    unfold beginCall
    by_cases hi : b.init_ = true
    · simp [hi, hunrel]
    · simp [hi, initializeLedger, hunrel]
  have hc := collectLoop_nothing (copyPrimal rel.numVars sol.primal) b.handlers_ 0 hH
  have hfc : findCandidates_ (beginCall b rel sol) w nodesProc
      = .ok (w, { beginCall b rel sol with mods_ := [], relCands_ := [], unrelCands_ := [] }) := by
    simp [findCandidates_, i2, i3, i4, i5, i6, hc, classifyLoop, stdSort]
  have key : ∃ b3 : ParReliabilityBrancher,
      findCandidates_ (beginCall b rel sol) w nodesProc = .ok (w, b3)
      ∧ b3.status_ = NotModifiedByBrancher ∧ b3.relCands_ = [] ∧ b3.unrelCands_ = [] :=
    ⟨_, hfc, i1, rfl, rfl⟩
  obtain ⟨b3, k1, k2, k3, k4⟩ := key
  have hfb : findBestCandidate_ b3 sol.objValue s_pool.bestSolutionValue node w.pseudoUp
      w.pseudoDown nodesProc = .ok (none, b3) := by
    simp [findBestCandidate_, findBestCandidateAux, scoreByPCost, k3, k4]
  refine ⟨⟨b3, k1, k2, k3, k4, hfb⟩, ?_⟩
  simp [findBranches, k1, k2, hfb]

/-- Failing input of C2: one handler that reports nothing. -/
theorem findBranches_no_candidates_witness :
    findBranches
        (ParReliabilityBrancher.new [simpleHandler [] [] (some (twoBranches (1 / 2)))] false)
        ⟨1⟩ rootNode ⟨[1 / 2], 0⟩ ⟨.infinity⟩ [] (zeroSnapshot 1) 0
      = .error .nullDeref :=
  (findBranches_no_candidates _ _ _ _ _ _ _ _ rfl rfl (by
    intro hd hmem
    simp only [ParReliabilityBrancher.new, List.mem_singleton] at hmem
    rw [hmem]
    exact ⟨rfl, rfl, rfl, rfl⟩)).2

/-! ## Both sides pruned -/

theorem shouldPrune_true_transfer (b b1 b2 : ParReliabilityBrancher) (chcutoff : Cutoff)
    (change : ℚ) (status : EngineStatus) (is_rel r is_rel2 : Bool)
    (h : shouldPrune_ b chcutoff change status is_rel = .ok (true, r, b1))
    (ht : b2.trustCutoff_ = b.trustCutoff_) (he : b2.eTol_ = b.eTol_) :
    shouldPrune_ b2 chcutoff change status is_rel2 = .ok (true, is_rel2, b2) := by
  cases status <;> simp [shouldPrune_, ht, he] at h ⊢
  · split at h
    · next hc => simp [hc]
    · simp at h
  · split at h
    · next hc => simp [hc]
    · simp at h
  · split at h <;> simp at h

theorem useStrongBranchInfo_prune_both (b : ParReliabilityBrancher) (cand : BrCand)
    (chcutoff : Cutoff) (change_up change_down : ℚ) (status_up status_down : EngineStatus)
    (hdown : shouldPrune_ b chcutoff change_down status_down true = .ok (true, true, b))
    (hup : shouldPrune_ b chcutoff change_up status_up true = .ok (true, true, b)) :
    useStrongBranchInfo_ b cand chcutoff change_up change_down status_up status_down
      = .ok (change_up, change_down,
          { b with
            status_ := PrunedByBrancher
            stats_ := { b.stats_ with bndChange := b.stats_.bndChange + 2 } }) := by
  simp [useStrongBranchInfo_, hdown, hup]

/-- C10 (scenario S2 generalised): when the strong branch of a candidate finds
that the down side and the up side should both be pruned, the loop stops at
that candidate (no further candidate is strong-branched, `strBrCalls` grows by
the two solves of this candidate only), the status becomes
`PrunedByBrancher`, `bndChange` grows by exactly 2, `mods_` gets no
modification and the pseudo-cost ledger (the pseudo-costs and their counts) is
unchanged, the stamp `lastStrBranched_` of the candidate being set to
`nodesProc + 1`; and a call of `findBranches` whose strong branching ends in
that status returns no branches, with status `PrunedByBrancher` and `mods`
untouched. -/
theorem strongBranch_prunes_both (b : ParReliabilityBrancher) (cand : BrCand)
    (rest : List BrCand) (s : BestSoFar) (objval : ℚ) (maxchange : Cutoff)
    (nodesProc maxcnt cnt : Nat) (hd : Handler) (engine : Engine)
    (hcnt : cnt < maxcnt) (hh : getHandler b cand = some hd) (he : b.engine_ = some engine)
    (hdown : shouldPrune_ b maxchange
      (max ((engine.solve b.stats_.strBrCalls (hd.getBrMod cand b.x_ DownBranch)).2 - objval) 0)
      (engine.solve b.stats_.strBrCalls (hd.getBrMod cand b.x_ DownBranch)).1 true
      = .ok (true, true, b))
    (hup : shouldPrune_ b maxchange
      (max ((engine.solve (b.stats_.strBrCalls + 1) (hd.getBrMod cand b.x_ UpBranch)).2
        - objval) 0)
      (engine.solve (b.stats_.strBrCalls + 1) (hd.getBrMod cand b.x_ UpBranch)).1 true
      = .ok (true, true, b)) :
    (∃ b3 : ParReliabilityBrancher,
      strongLoop objval maxchange nodesProc maxcnt cnt (cand :: rest) s b
        = .ok (s, b3, cand :: rest)
      ∧ b3.status_ = PrunedByBrancher
      ∧ b3.stats_.bndChange = b.stats_.bndChange + 2
      ∧ b3.stats_.strBrCalls = b.stats_.strBrCalls + 2
      ∧ b3.mods_ = b.mods_
      ∧ b3.pseudoUp_ = b.pseudoUp_ ∧ b3.pseudoDown_ = b.pseudoDown_
      ∧ b3.timesUp_ = b.timesUp_ ∧ b3.timesDown_ = b.timesDown_
      ∧ b3.lastStrBranched_ = vset b.lastStrBranched_ cand.pCostIndex (nodesProc + 1))
    ∧ (∀ (b0 b4 b5 : ParReliabilityBrancher) (rel : Relaxation) (node : Node) (sol : Solution)
        (s_pool : SolutionPool) (mods : List Modification) (w w1 : Snapshot) (n : Nat)
        (c : Option BrCand),
        findCandidates_ (beginCall b0 rel sol) w n = .ok (w1, b4) →
        b4.status_ = NotModifiedByBrancher →
        findBestCandidate_ b4 sol.objValue s_pool.bestSolutionValue node w1.pseudoUp
          w1.pseudoDown n = .ok (c, b5) →
        b5.status_ = PrunedByBrancher →
        findBranches b0 rel node sol s_pool mods w n
          = .ok (⟨none, PrunedByBrancher, mods⟩, freeCandidates_ b5)) := by
  constructor
  · have hd1 := shouldPrune_true_transfer b b
      { b with stats_ := { b.stats_ with strBrCalls := b.stats_.strBrCalls + 1 + 1 } }
      _ _ _ true true true hdown rfl rfl
    have hu1 := shouldPrune_true_transfer b b
      { b with stats_ := { b.stats_ with strBrCalls := b.stats_.strBrCalls + 1 + 1 } }
      _ _ _ true true true hup rfl rfl
    have hus := useStrongBranchInfo_prune_both _ cand _ _ _ _ _ hd1 hu1
    refine ⟨{ b with
        status_ := PrunedByBrancher
        stats_ := { b.stats_ with
          strBrCalls := b.stats_.strBrCalls + 1 + 1
          bndChange := b.stats_.bndChange + 2 }
        lastStrBranched_ := vset b.lastStrBranched_ cand.pCostIndex (nodesProc + 1) },
      ?_, rfl, rfl, rfl, rfl, rfl, rfl, rfl, rfl, rfl⟩
    simp only [strongLoop, hcnt, if_true, strongBranch_eq b cand hd engine hh he, hus]
    simp
  · intro b0 b4 b5 rel node sol s_pool mods w w1 n c hfc hnm hfb hpr
    obtain ⟨i1, i2, -⟩ := beginCall_fields b0 rel sol
    obtain ⟨-, -, f3⟩ := findCandidates_outcome _ _ _ _ _ hfc i1 i2
    have hm4 : b4.mods_ = [] := by
      rcases f3 with f3 | ⟨f3, -⟩ | ⟨-, f3⟩
      · rw [f3] at hnm; exact absurd hnm (by decide)
      · rw [f3] at hnm; exact absurd hnm (by decide)
      · exact f3
    have hm5 : b5.mods_ = [] := by
      unfold findBestCandidate_ at hfb
      split at hfb
      · exact absurd hfb (by simp)
      · next s1 b6 haux =>
        simp only [Except.ok.injEq, Prod.mk.injEq] at hfb
        obtain ⟨o1, -, -⟩ := findBestCandidateAux_outcome _ _ _ _ _ _ _ _ _ haux hnm hm4
        rw [← hfb.2]
        rcases o1 with ⟨-, o1⟩ | ⟨o1, -⟩ | ⟨-, o1⟩
        · exact o1
        · rw [← hfb.2, o1] at hpr; exact absurd hpr (by decide)
        · exact o1
    simp [findBranches, hfc, hnm, hfb, hpr, hm5]

/-- Witness of C10, scenario S2: one unreliable variable and `ProvenInfeasible`
on both sides; the loop stops at once with status `PrunedByBrancher`,
`bndChange = 2` and two solves, and the whole call of `findBranches` returns no
branches and no modification. -/
theorem strongBranch_prunes_both_witness :
    (∃ b3 : ParReliabilityBrancher,
      strongLoop 0 .infinity 0 20 0 [(varCand 0 (1 / 2) (1 / 2)).setHandler 0]
          ⟨none, none, 0, 0⟩ s2Brancher
        = .ok (⟨none, none, 0, 0⟩, b3, [(varCand 0 (1 / 2) (1 / 2)).setHandler 0])
      ∧ b3.status_ = PrunedByBrancher ∧ b3.stats_.bndChange = 2 ∧ b3.stats_.strBrCalls = 2
      ∧ b3.mods_ = [] ∧ b3.pseudoUp_ = [0] ∧ b3.pseudoDown_ = [0]
      ∧ b3.timesUp_ = [0] ∧ b3.timesDown_ = [0] ∧ b3.lastStrBranched_ = [1])
    ∧ ∃ b1 : ParReliabilityBrancher,
      findBranches
          (setEngine
            (ParReliabilityBrancher.new
              [simpleHandler [varCand 0 (1 / 2) (1 / 2)] [] (some (twoBranches (1 / 2)))] false)
            (simpleEngine (ProvenInfeasible, 0) (ProvenInfeasible, 0)))
          ⟨1⟩ rootNode ⟨[1 / 2], 0⟩ ⟨.infinity⟩ [] (zeroSnapshot 1) 0
        = .ok (⟨none, PrunedByBrancher, []⟩, b1)
      ∧ b1.stats_.bndChange = 2 ∧ b1.stats_.strBrCalls = 2 ∧ b1.mods_ = []
      ∧ b1.pseudoUp_ = [0] ∧ b1.pseudoDown_ = [0] ∧ b1.timesUp_ = [0]
      ∧ b1.timesDown_ = [0] := by
  constructor
  · exact (strongBranch_prunes_both s2Brancher ((varCand 0 (1 / 2) (1 / 2)).setHandler 0) []
      ⟨none, none, 0, 0⟩ 0 .infinity 0 20 0
      (simpleHandler [varCand 0 (1 / 2) (1 / 2)] [] (some (twoBranches (1 / 2))))
      (simpleEngine (ProvenInfeasible, 0) (ProvenInfeasible, 0)) (by decide) rfl rfl rfl rfl).1
  · simp [findBranches, findCandidates_, beginCall, ParReliabilityBrancher.new, collectLoop,
      simpleHandler, varCand, classifyLoop, stdSort, BrVarCandSet.insert, initializeLedger,
      findBestCandidate_, findBestCandidateAux, scoreByPCost, adopt, gtBest, getPCScore_,
      BrCand.setHandler, getHandler, freeCandidates_, copyPrimal, setEngine, simpleEngine,
      strongLoop, strongBranch_, useStrongBranchInfo_, shouldPrune_, mergeAt, vget, vset,
      uintSub, zeroSnapshot, Node.getDepth, rootNode]

/-! ## One side pruned -/

/-- One pass of the strong-branching loop, given what `useStrongBranchInfo_`
returns for the candidate at the iterator. -/
theorem strongLoop_step (b b2 : ParReliabilityBrancher) (cand : BrCand) (rest : List BrCand)
    (s : BestSoFar) (objval : ℚ) (maxchange : Cutoff) (nodesProc maxcnt cnt : Nat)
    (hd : Handler) (engine : Engine) (change_up change_down : ℚ)
    (hcnt : cnt < maxcnt) (hh : getHandler b cand = some hd) (he : b.engine_ = some engine)
    (hus : useStrongBranchInfo_
      { b with stats_ := { b.stats_ with strBrCalls := b.stats_.strBrCalls + 1 + 1 } }
      cand maxchange
      (max ((engine.solve (b.stats_.strBrCalls + 1) (hd.getBrMod cand b.x_ UpBranch)).2
        - objval) 0)
      (max ((engine.solve b.stats_.strBrCalls (hd.getBrMod cand b.x_ DownBranch)).2 - objval) 0)
      (engine.solve (b.stats_.strBrCalls + 1) (hd.getBrMod cand b.x_ UpBranch)).1
      (engine.solve b.stats_.strBrCalls (hd.getBrMod cand b.x_ DownBranch)).1
      = .ok (change_up, change_down, b2)) :
    strongLoop objval maxchange nodesProc maxcnt cnt (cand :: rest) s b
      = if b2.status_ ≠ NotModifiedByBrancher then
          .ok (s, { b2 with
            lastStrBranched_ := vset b2.lastStrBranched_ cand.pCostIndex (nodesProc + 1) },
            cand :: rest)
        else strongLoop objval maxchange nodesProc maxcnt (cnt + 1) rest
          (adopt s cand (getScore_ change_up change_down) change_up change_down)
          { b2 with
            lastStrBranched_ := vset b2.lastStrBranched_ cand.pCostIndex (nodesProc + 1) } := by
  simp only [strongLoop, hcnt, if_true, strongBranch_eq b cand hd engine hh he, hus]

/-- C11, as the code has it (scenario S3): when the down solve of the
candidate at the iterator returns `ProvenInfeasible` and its up solve returns
`ProvenOptimal` with a change `Δ_up` that is not above `chcutoff − etol`, the
loop stops at that candidate with status `ModifiedByBrancher`, exactly one
modification, the up-direction one, is appended to `mods_`, `bndChange` grows
by 1, and no pseudo-cost and no count is changed: `times_up[idx]` is not
incremented. -/
theorem strongBranch_prunes_down (b : ParReliabilityBrancher) (cand : BrCand)
    (rest : List BrCand) (s : BestSoFar) (objval vd vu : ℚ) (maxchange : Cutoff)
    (nodesProc maxcnt cnt : Nat) (hd : Handler) (engine : Engine)
    (hcnt : cnt < maxcnt) (hh : getHandler b cand = some hd) (he : b.engine_ = some engine)
    (hdown : engine.solve b.stats_.strBrCalls (hd.getBrMod cand b.x_ DownBranch)
      = (ProvenInfeasible, vd))
    (hup : engine.solve (b.stats_.strBrCalls + 1) (hd.getBrMod cand b.x_ UpBranch)
      = (ProvenOptimal, vu))
    (hnp : (maxchange.sub b.eTol_).ltBy (max (vu - objval) 0) = false) :
    ∃ b3 : ParReliabilityBrancher,
      strongLoop objval maxchange nodesProc maxcnt cnt (cand :: rest) s b
        = .ok (s, b3, cand :: rest)
      ∧ b3.status_ = ModifiedByBrancher
      ∧ b3.mods_ = b.mods_ ++ [hd.getBrMod cand b.x_ UpBranch]
      ∧ b3.stats_.bndChange = b.stats_.bndChange + 1
      ∧ b3.pseudoUp_ = b.pseudoUp_ ∧ b3.pseudoDown_ = b.pseudoDown_
      ∧ b3.timesUp_ = b.timesUp_ ∧ b3.timesDown_ = b.timesDown_ := by
  have hgh : getHandler
      { b with stats_ := { b.stats_ with strBrCalls := b.stats_.strBrCalls + 1 + 1 } } cand
      = some hd := hh
  have hus : useStrongBranchInfo_
      { b with stats_ := { b.stats_ with strBrCalls := b.stats_.strBrCalls + 1 + 1 } }
      cand maxchange
      (max ((engine.solve (b.stats_.strBrCalls + 1) (hd.getBrMod cand b.x_ UpBranch)).2
        - objval) 0)
      (max ((engine.solve b.stats_.strBrCalls (hd.getBrMod cand b.x_ DownBranch)).2 - objval) 0)
      (engine.solve (b.stats_.strBrCalls + 1) (hd.getBrMod cand b.x_ UpBranch)).1
      (engine.solve b.stats_.strBrCalls (hd.getBrMod cand b.x_ DownBranch)).1
      = .ok (max (vu - objval) 0, max (vd - objval) 0,
        { b with
          status_ := ModifiedByBrancher
          mods_ := b.mods_ ++ [hd.getBrMod cand b.x_ UpBranch]
          stats_ := { b.stats_ with
            strBrCalls := b.stats_.strBrCalls + 1 + 1
            bndChange := b.stats_.bndChange + 1 } }) := by
    simp [useStrongBranchInfo_, shouldPrune_, hdown, hup, hnp, hgh]
  refine ⟨{ b with
      status_ := ModifiedByBrancher
      mods_ := b.mods_ ++ [hd.getBrMod cand b.x_ UpBranch]
      stats_ := { b.stats_ with
        strBrCalls := b.stats_.strBrCalls + 1 + 1
        bndChange := b.stats_.bndChange + 1 }
      lastStrBranched_ := vset b.lastStrBranched_ cand.pCostIndex (nodesProc + 1) },
    ?_, rfl, rfl, rfl, rfl, rfl, rfl, rfl⟩
  rw [strongLoop_step b _ cand rest s objval maxchange nodesProc maxcnt cnt hd engine _ _
    hcnt hh he hus]
  simp

/-- Witness of C11 as amended, scenario S3: down `ProvenInfeasible`, up
`ProvenOptimal` with `Δ_up = 1` and `chcutoff = 10`. -/
theorem strongBranch_prunes_down_witness :
    ∃ b3 : ParReliabilityBrancher,
      strongLoop 0 (.finite 10) 0 20 0 [(varCand 0 (1 / 2) (1 / 2)).setHandler 0]
          ⟨none, none, 0, 0⟩ (oneCandBrancher (ProvenInfeasible, 0) (ProvenOptimal, 1))
        = .ok (⟨none, none, 0, 0⟩, b3, [(varCand 0 (1 / 2) (1 / 2)).setHandler 0])
      ∧ b3.status_ = ModifiedByBrancher ∧ b3.mods_ = [⟨1⟩] ∧ b3.stats_.bndChange = 1
      ∧ b3.pseudoUp_ = [0] ∧ b3.pseudoDown_ = [0] ∧ b3.timesUp_ = [0]
      ∧ b3.timesDown_ = [0] :=
  strongBranch_prunes_down (oneCandBrancher (ProvenInfeasible, 0) (ProvenOptimal, 1))
    ((varCand 0 (1 / 2) (1 / 2)).setHandler 0) [] ⟨none, none, 0, 0⟩ 0 0 1 (.finite 10) 0 20 0
    (simpleHandler [varCand 0 (1 / 2) (1 / 2)] [] (some (twoBranches (1 / 2))))
    (simpleEngine (ProvenInfeasible, 0) (ProvenOptimal, 1)) (by decide) rfl rfl rfl rfl
    (by norm_num [Cutoff.sub, Cutoff.ltBy, oneCandBrancher, setEngine, initializeLedger,
      ParReliabilityBrancher.new])

/-- C11 fails as stated: in scenario S3 (down `ProvenInfeasible`, up
`ProvenOptimal` with `Δ_up = 1 < chcutoff = 10`) the call of `findBranches`
ends with status `ModifiedByBrancher` and the up modification, but
`times_up[idx]` is still 0, not 1; and with `Δ_up = 10 − 5e-7`, which is below
`chcutoff = 10` but above `chcutoff − etol`, the up side is pruned as well
and the status is `PrunedByBrancher`. -/
theorem strongBranch_prunes_down_counterexample :
    (∃ b1 : ParReliabilityBrancher,
      findBranches (oneCandStart (ProvenInfeasible, 0) (ProvenOptimal, 1))
          ⟨1⟩ rootNode ⟨[1 / 2], 0⟩ ⟨.finite 10⟩ [] (zeroSnapshot 1) 0
        = .ok (⟨none, ModifiedByBrancher, [⟨1⟩]⟩, b1)
      ∧ b1.timesUp_ = [0] ∧ b1.timesDown_ = [0])
    ∧ (∃ b1 : ParReliabilityBrancher,
      findBranches (oneCandStart (ProvenInfeasible, 0) (ProvenOptimal, 10 - 1 / 2000000))
          ⟨1⟩ rootNode ⟨[1 / 2], 0⟩ ⟨.finite 10⟩ [] (zeroSnapshot 1) 0
        = .ok (⟨none, PrunedByBrancher, []⟩, b1))
    ∧ (10 - 1 / 2000000 : ℚ) < 10 := by
  refine ⟨?_, ?_, by norm_num⟩
  · simp [findBranches, findCandidates_, beginCall, ParReliabilityBrancher.new, collectLoop,
      simpleHandler, varCand, classifyLoop, stdSort, BrVarCandSet.insert, initializeLedger,
      findBestCandidate_, findBestCandidateAux, scoreByPCost, adopt, gtBest, getPCScore_,
      BrCand.setHandler, getHandler, freeCandidates_, copyPrimal, setEngine, simpleEngine,
      strongLoop, strongBranch_, useStrongBranchInfo_, shouldPrune_, mergeAt, vget, vset,
      uintSub, zeroSnapshot, Node.getDepth, rootNode, oneCandStart, Cutoff.sub, Cutoff.ltBy]
    norm_num
    simp
  · simp [findBranches, findCandidates_, beginCall, ParReliabilityBrancher.new, collectLoop,
      simpleHandler, varCand, classifyLoop, stdSort, BrVarCandSet.insert, initializeLedger,
      findBestCandidate_, findBestCandidateAux, scoreByPCost, adopt, gtBest, getPCScore_,
      BrCand.setHandler, getHandler, freeCandidates_, copyPrimal, setEngine, simpleEngine,
      strongLoop, strongBranch_, useStrongBranchInfo_, shouldPrune_, mergeAt, vget, vset,
      uintSub, zeroSnapshot, Node.getDepth, rootNode, oneCandStart, Cutoff.sub, Cutoff.ltBy]
    norm_num
    simp

/-! ## Iteration limit on both sides -/

/-- C12 (scenario S4 generalised): when both strong-branch solves of the
candidate at the iterator end with `EngineIterationLimit`, no side is pruned,
the status stays `NotModifiedByBrancher`, no modification is emitted, and the
local ledger receives at the index of the candidate exactly one down
observation `Δ_down / (d_dist + etol)` and one up observation
`Δ_up / (u_dist + etol)`, both counts growing by 1; the candidate is then
offered as best candidate with the score `getScore_ Δ_up Δ_down`, which is
0.22 for `Δ_up = 0.3` and `Δ_down = 0.2`. -/
theorem strongBranch_iteration_limit (b : ParReliabilityBrancher) (cand : BrCand)
    (rest : List BrCand) (s : BestSoFar) (objval vd vu : ℚ) (maxchange : Cutoff)
    (nodesProc maxcnt cnt : Nat) (hd : Handler) (engine : Engine)
    (hcnt : cnt < maxcnt) (hh : getHandler b cand = some hd) (he : b.engine_ = some engine)
    (hdown : engine.solve b.stats_.strBrCalls (hd.getBrMod cand b.x_ DownBranch)
      = (EngineIterationLimit, vd))
    (hup : engine.solve (b.stats_.strBrCalls + 1) (hd.getBrMod cand b.x_ UpBranch)
      = (EngineIterationLimit, vu))
    (hdd : 0 ≤ cand.dDist) (hud : 0 ≤ cand.uDist) (hst : b.status_ = NotModifiedByBrancher) :
    (shouldPrune_ b maxchange (max (vd - objval) 0) EngineIterationLimit true
        = .ok (false, true, b)
      ∧ shouldPrune_ b maxchange (max (vu - objval) 0) EngineIterationLimit true
        = .ok (false, true, b))
    ∧ ∃ b3 : ParReliabilityBrancher,
      strongLoop objval maxchange nodesProc maxcnt cnt (cand :: rest) s b
        = strongLoop objval maxchange nodesProc maxcnt (cnt + 1) rest
            (adopt s cand (getScore_ (max (vu - objval) 0) (max (vd - objval) 0))
              (max (vu - objval) 0) (max (vd - objval) 0)) b3
      ∧ b3.status_ = NotModifiedByBrancher ∧ b3.mods_ = b.mods_
      ∧ b3.stats_.bndChange = b.stats_.bndChange
      ∧ b3.pseudoDown_ = (updatePCost_ cand.pCostIndex
          (max (vd - objval) 0 / (cand.dDist + b.eTol_)) b.pseudoDown_ b.timesDown_).1
      ∧ b3.timesDown_ = (updatePCost_ cand.pCostIndex
          (max (vd - objval) 0 / (cand.dDist + b.eTol_)) b.pseudoDown_ b.timesDown_).2
      ∧ b3.pseudoUp_ = (updatePCost_ cand.pCostIndex
          (max (vu - objval) 0 / (cand.uDist + b.eTol_)) b.pseudoUp_ b.timesUp_).1
      ∧ b3.timesUp_ = (updatePCost_ cand.pCostIndex
          (max (vu - objval) 0 / (cand.uDist + b.eTol_)) b.pseudoUp_ b.timesUp_).2
      ∧ (∀ i : Nat, cand.pCostIndex = (i : Int) → i < b.timesDown_.length →
          i < b.timesUp_.length →
          vget b3.timesDown_ i 0 = vget b.timesDown_ i 0 + 1
          ∧ vget b3.timesUp_ i 0 = vget b.timesUp_ i 0 + 1)
      ∧ getScore_ (3 / 10) (2 / 10) = 22 / 100 := by
  have hau : |max (vu - objval) 0| = max (vu - objval) 0 := abs_of_nonneg (le_max_right _ _)
  have had : |max (vd - objval) 0| = max (vd - objval) 0 := abs_of_nonneg (le_max_right _ _)
  have hus : useStrongBranchInfo_
      { b with stats_ := { b.stats_ with strBrCalls := b.stats_.strBrCalls + 1 + 1 } }
      cand maxchange
      (max ((engine.solve (b.stats_.strBrCalls + 1) (hd.getBrMod cand b.x_ UpBranch)).2
        - objval) 0)
      (max ((engine.solve b.stats_.strBrCalls (hd.getBrMod cand b.x_ DownBranch)).2 - objval) 0)
      (engine.solve (b.stats_.strBrCalls + 1) (hd.getBrMod cand b.x_ UpBranch)).1
      (engine.solve b.stats_.strBrCalls (hd.getBrMod cand b.x_ DownBranch)).1
      = .ok (max (vu - objval) 0, max (vd - objval) 0,
        { b with
          stats_ := { b.stats_ with strBrCalls := b.stats_.strBrCalls + 1 + 1 }
          pseudoDown_ := (updatePCost_ cand.pCostIndex
            (max (vd - objval) 0 / (cand.dDist + b.eTol_)) b.pseudoDown_ b.timesDown_).1
          timesDown_ := (updatePCost_ cand.pCostIndex
            (max (vd - objval) 0 / (cand.dDist + b.eTol_)) b.pseudoDown_ b.timesDown_).2
          pseudoUp_ := (updatePCost_ cand.pCostIndex
            (max (vu - objval) 0 / (cand.uDist + b.eTol_)) b.pseudoUp_ b.timesUp_).1
          timesUp_ := (updatePCost_ cand.pCostIndex
            (max (vu - objval) 0 / (cand.uDist + b.eTol_)) b.pseudoUp_ b.timesUp_).2 }) := by
    simp only [useStrongBranchInfo_, shouldPrune_, hdown, hup, hau, had, abs_of_nonneg hdd,
      abs_of_nonneg hud]
    rfl
  refine ⟨⟨rfl, rfl⟩, { b with
      stats_ := { b.stats_ with strBrCalls := b.stats_.strBrCalls + 1 + 1 }
      pseudoDown_ := (updatePCost_ cand.pCostIndex
        (max (vd - objval) 0 / (cand.dDist + b.eTol_)) b.pseudoDown_ b.timesDown_).1
      timesDown_ := (updatePCost_ cand.pCostIndex
        (max (vd - objval) 0 / (cand.dDist + b.eTol_)) b.pseudoDown_ b.timesDown_).2
      pseudoUp_ := (updatePCost_ cand.pCostIndex
        (max (vu - objval) 0 / (cand.uDist + b.eTol_)) b.pseudoUp_ b.timesUp_).1
      timesUp_ := (updatePCost_ cand.pCostIndex
        (max (vu - objval) 0 / (cand.uDist + b.eTol_)) b.pseudoUp_ b.timesUp_).2
      lastStrBranched_ := vset b.lastStrBranched_ cand.pCostIndex (nodesProc + 1) },
    ?_, hst, rfl, rfl, rfl, rfl, rfl, rfl, ?_, ?_⟩
  · rw [strongLoop_step b _ cand rest s objval maxchange nodesProc maxcnt cnt hd engine _ _
      hcnt hh he hus]
    simp [hst]
  · intro i hi h1 h2
    simp only [hi]
    exact ⟨vget_vset_same _ i _ _ h1, vget_vset_same _ i _ _ h2⟩
  · norm_num [getScore_]

/-- Witness of C12, scenario S4: both sides hit the iteration limit with
`Δ_up = 0.3` and `Δ_down = 0.2`, `chcutoff = 10`; the candidate becomes the
best candidate with score 0.22 and both counts at its index become 1. -/
theorem strongBranch_iteration_limit_witness :
    ∃ b3 : ParReliabilityBrancher,
      strongLoop 0 (.finite 10) 0 20 0 [(varCand 0 (1 / 2) (1 / 2)).setHandler 0]
          ⟨none, none, 0, 0⟩
          (oneCandBrancher (EngineIterationLimit, 2 / 10) (EngineIterationLimit, 3 / 10))
        = .ok (adopt ⟨none, none, 0, 0⟩ ((varCand 0 (1 / 2) (1 / 2)).setHandler 0)
            (getScore_ (max (3 / 10 - 0) 0) (max (2 / 10 - 0) 0))
            (max (3 / 10 - 0) 0) (max (2 / 10 - 0) 0), b3, [])
      ∧ getScore_ (max (3 / 10 - 0) 0) (max (2 / 10 - 0) 0) = 22 / 100
      ∧ b3.status_ = NotModifiedByBrancher ∧ b3.mods_ = []
      ∧ vget b3.timesDown_ 0 0 = 1 ∧ vget b3.timesUp_ 0 0 = 1 := by
  obtain ⟨-, b3, h1, h2, h3, -, -, -, -, -, h4, -⟩ := strongBranch_iteration_limit
    (oneCandBrancher (EngineIterationLimit, 2 / 10) (EngineIterationLimit, 3 / 10))
    ((varCand 0 (1 / 2) (1 / 2)).setHandler 0) [] ⟨none, none, 0, 0⟩ 0 (2 / 10) (3 / 10)
    (.finite 10) 0 20 0
    (simpleHandler [varCand 0 (1 / 2) (1 / 2)] [] (some (twoBranches (1 / 2))))
    (simpleEngine (EngineIterationLimit, 2 / 10) (EngineIterationLimit, 3 / 10))
    (by decide) rfl rfl rfl rfl (by norm_num [varCand, BrCand.setHandler])
    (by norm_num [varCand, BrCand.setHandler]) rfl
  obtain ⟨c1, c2⟩ := h4 0 rfl (by decide) (by decide)
  refine ⟨b3, ?_, by norm_num [getScore_], h2, h3, c1, c2⟩
  rw [h1]
  rfl

/-! ## The number of strong branchings -/

theorem useStrongBranchInfo_strBrCalls (b b3 : ParReliabilityBrancher) (cand : BrCand)
    (chcutoff : Cutoff) (change_up change_down up1 down1 : ℚ)
    (status_up status_down : EngineStatus)
    (h : useStrongBranchInfo_ b cand chcutoff change_up change_down status_up status_down
      = .ok (up1, down1, b3)) :
    b3.stats_.strBrCalls = b.stats_.strBrCalls := by
  obtain ⟨pd, r1, pu, r, b1, b2, h1, h2, hc⟩ := useStrongBranchInfo_cases _ _ _ _ _ _ _ _ _ _ h
  obtain ⟨n, e⟩ := shouldPrune_twice _ _ _ _ _ _ _ _ _ _ _ _ _ h1 h2
  subst e
  rcases hc with ⟨-, -, -, e⟩ | ⟨-, -, -, -, -, e⟩ | ⟨-, -, -, -, -, hd1, -, e⟩
    | ⟨-, -, -, -, -, hd1, -, e⟩ | ⟨-, -, -, -, -, e⟩ <;> subst e <;> rfl

/-- The strong-branching loop consumes a prefix of the list: `k` candidates
are strong-branched, two solves each, and the iterator is left behind the
`k`-th one, or on it when the loop was left by `break`. -/
theorem strongLoop_count (objval : ℚ) (maxchange : Cutoff) (nodesProc maxcnt : Nat)
    (l : List BrCand) :
    ∀ (cnt : Nat) (s : BestSoFar) (b : ParReliabilityBrancher)
      (r : BestSoFar × ParReliabilityBrancher × List BrCand),
      strongLoop objval maxchange nodesProc maxcnt cnt l s b = .ok r →
      b.status_ = NotModifiedByBrancher →
      ∃ k : Nat, k ≤ l.length ∧ k ≤ maxcnt - cnt
        ∧ r.2.1.stats_.strBrCalls = b.stats_.strBrCalls + 2 * k
        ∧ ((r.2.1.status_ = NotModifiedByBrancher ∧ r.2.2 = l.drop k)
          ∨ (r.2.1.status_ ≠ NotModifiedByBrancher ∧ 1 ≤ k ∧ r.2.2 = l.drop (k - 1)))
        ∧ (k = 0 → r.1 = s ∧ r.2.1 = b) := by
  induction l with
  | nil =>
    intro cnt s b r h hs
    simp only [strongLoop, Except.ok.injEq] at h
    subst h
    exact ⟨0, le_refl _, Nat.zero_le _, rfl, Or.inl ⟨hs, rfl⟩, fun _ => ⟨rfl, rfl⟩⟩
  | cons cand rest ih =>
    intro cnt s b r h hs
    simp only [strongLoop] at h
    split at h
    · next hcnt =>
      split at h
      · exact absurd h (by simp)
      · next o b1 hsb =>
        have e1 := strongBranch_state _ _ _ _ hsb
        split at h
        · exact absurd h (by simp)
        · next cu cd b2 hus =>
          have e2 := useStrongBranchInfo_strBrCalls _ _ _ _ _ _ _ _ _ _ hus
          have e3 : b2.stats_.strBrCalls = b.stats_.strBrCalls + 2 := by
            rw [e2, e1]
          split at h
          · next hst =>
            simp only [Except.ok.injEq] at h
            subst h
            refine ⟨1, by simp, by omega, by simpa using e3, Or.inr ⟨hst, le_refl _, rfl⟩, ?_⟩
            intro h0; exact absurd h0 (by decide)
          · next hst =>
            simp only [ne_eq, Decidable.not_not] at hst
            obtain ⟨k, k1, k2, k3, k4, -⟩ := ih _ _ _ _ h hst
            refine ⟨k + 1, by simpa using k1, by omega, ?_, ?_, ?_⟩
            · rw [k3]
              show b2.stats_.strBrCalls + 2 * k = b.stats_.strBrCalls + 2 * (k + 1)
              omega
            · rcases k4 with ⟨a1, a2⟩ | ⟨a1, a2, a3⟩
              · exact Or.inl ⟨a1, by simpa using a2⟩
              · refine Or.inr ⟨a1, by omega, ?_⟩
                obtain ⟨j, rfl⟩ : ∃ j, k = j + 1 := ⟨k - 1, by omega⟩
                simpa using a3
            · intro h0; exact absurd h0 (by omega)
    · simp only [Except.ok.injEq] at h
      subst h
      exact ⟨0, Nat.zero_le _, Nat.zero_le _, rfl, Or.inl ⟨hs, rfl⟩, fun _ => ⟨rfl, rfl⟩⟩

/-- C13: in one call of `findBestCandidate_` that starts with status
`NotModifiedByBrancher`, the number `k` of candidates that are strong-branched
(the loop consumes the first `k` unreliable candidates) is 0 when
`node.depth > maxDepth_` and at most `min(maxStrongCands_, number of
unreliable candidates)` in every case; `strBrCalls` grows by exactly `2k`; and
when `k = 0` the brancher, with its pseudo-cost ledger and `lastStrBranched_`,
is unchanged and every unreliable candidate is scored by its pseudo-cost
score only. -/
theorem findBestCandidate_strong_count (b b1 : ParReliabilityBrancher) (objval : ℚ)
    (cutoff : Cutoff) (node : Node) (pseudoUp pseudoDown : List ℚ) (nodesProc : Nat)
    (s : BestSoFar)
    (h : findBestCandidateAux b objval cutoff node pseudoUp pseudoDown nodesProc = .ok (s, b1))
    (hst : b.status_ = NotModifiedByBrancher) :
    findBestCandidate_ b objval cutoff node pseudoUp pseudoDown nodesProc
        = .ok (s.best_cand, b1)
    ∧ ∃ k : Nat,
      (node.getDepth > b.maxDepth_ → k = 0)
      ∧ k ≤ min b.maxStrongCands_ b.unrelCands_.length
      ∧ b1.stats_.strBrCalls = b.stats_.strBrCalls + 2 * k
      ∧ (k = 0 →
          b1 = b
          ∧ s = scoreByPCost pseudoUp pseudoDown b.unrelCands_
              (scoreByPCost pseudoUp pseudoDown b.relCands_ ⟨none, none, 0, 0⟩))
      ∧ (b.unrelCands_ ≠ [] →
          ∃ (s1 : BestSoFar) (rest : List BrCand),
            strongLoop objval (cutoff.sub objval) nodesProc
                (if node.getDepth > b.maxDepth_ then 0 else b.maxStrongCands_) 0
                b.unrelCands_ (scoreByPCost pseudoUp pseudoDown b.relCands_ ⟨none, none, 0, 0⟩) b
              = .ok (s1, b1, rest)
            ∧ ((b1.status_ = NotModifiedByBrancher ∧ rest = b.unrelCands_.drop k)
              ∨ (b1.status_ ≠ NotModifiedByBrancher ∧ 1 ≤ k
                ∧ rest = b.unrelCands_.drop (k - 1)))) := by
  refine ⟨by simp only [findBestCandidate_, h], ?_⟩
  unfold findBestCandidateAux at h
  simp only at h
  split at h
  · next hlen =>
    have hne : b.unrelCands_ ≠ [] := List.length_pos.mp hlen
    split at h
    · exact absurd h (by simp)
    · split at h
      · exact absurd h (by simp)
      · next s1 b2 rest hloop =>
        obtain ⟨k, k1, k2, k3, k4, k5⟩ := strongLoop_count _ _ _ _ _ _ _ _ _ hloop hst
        have hb : b1 = b2 := by
          split at h <;> simp only [Except.ok.injEq, Prod.mk.injEq] at h <;> exact h.2.symm
        subst hb
        refine ⟨k, ?_, ?_, k3, ?_, fun _ => ⟨s1, rest, hloop, k4⟩⟩
        · intro hdepth
          simp only [hdepth, if_true] at k2
          omega
        · refine le_min ?_ k1
          by_cases hdepth : node.getDepth > b.maxDepth_
          · simp only [hdepth, if_true] at k2
            omega
          · simp only [hdepth, if_false] at k2
            omega
        · intro h0
          obtain ⟨a1, a2⟩ := k5 h0
          simp only at a1 a2
          subst a2
          refine ⟨rfl, ?_⟩
          rcases k4 with ⟨-, a3⟩ | ⟨a3, -, -⟩
          · simp only [h0, List.drop_zero] at a3
            simp only [hst, if_true, Except.ok.injEq, Prod.mk.injEq] at h
            rw [← h.1, a3, a1]
          · exact absurd hst a3
  · next hlen =>
    have hnil : b.unrelCands_ = [] := by
      cases hl : b.unrelCands_ with
      | nil => rfl
      | cons c cs => rw [hl] at hlen; simp at hlen
    simp only [Except.ok.injEq, Prod.mk.injEq] at h
    refine ⟨0, fun _ => rfl, Nat.zero_le _, by rw [← h.2]; rfl, fun _ => ⟨h.2.symm, ?_⟩,
      fun hne => absurd hnil hne⟩
    rw [← h.1, hnil]
    rfl

/-- Witness of C13, scenario S5: a node at depth 1001 with `maxDepth_ = 1000`
and one unreliable candidate; no candidate is strong-branched, the brancher is
unchanged and the candidate is scored by pseudo-costs. -/
theorem findBestCandidate_strong_count_witness :
    findBestCandidateAux (oneCandBrancher (ProvenInfeasible, 0) (ProvenInfeasible, 0)) 0
        .infinity (nodeAtDepth 1001) [0] [0] 0
      = .ok (scoreByPCost [0] [0] [(varCand 0 (1 / 2) (1 / 2)).setHandler 0]
          ⟨none, none, 0, 0⟩, oneCandBrancher (ProvenInfeasible, 0) (ProvenInfeasible, 0))
    ∧ ∃ k : Nat, k = 0
      ∧ (oneCandBrancher (ProvenInfeasible, 0) (ProvenInfeasible, 0)).stats_.strBrCalls
        = (oneCandBrancher (ProvenInfeasible, 0) (ProvenInfeasible, 0)).stats_.strBrCalls
          + 2 * k := by
  have h : findBestCandidateAux (oneCandBrancher (ProvenInfeasible, 0) (ProvenInfeasible, 0)) 0
      .infinity (nodeAtDepth 1001) [0] [0] 0
      = .ok (scoreByPCost [0] [0] [(varCand 0 (1 / 2) (1 / 2)).setHandler 0]
          ⟨none, none, 0, 0⟩, oneCandBrancher (ProvenInfeasible, 0) (ProvenInfeasible, 0)) := by
    simp [findBestCandidateAux, oneCandBrancher, setEngine, initializeLedger,
      ParReliabilityBrancher.new, nodeAtDepth, Node.getDepth, strongLoop, scoreByPCost]
  obtain ⟨-, k, k1, -, k3, -, -⟩ := findBestCandidate_strong_count _ _ _ _ _ _ _ _ _ h rfl
  exact ⟨h, k, k1 (by decide), k3⟩

/-! ## The node stack -/

/-- C14: the node store is a LIFO stack: after `push(n)` the store is not
empty, `n` is its front element and `getDeepestLevel` returns the depth of
`n`; `push(n)` followed by `pop()` gives the store `s` back, the remaining
nodes in their order. -/
theorem NodeStack_push_pop (s : NodeStack) (n : Node) :
    (s.push n).isEmpty = false
      ∧ (s.push n).nodes_.head? = some n
      ∧ (s.push n).getDeepestLevel = some n.getDepth
      ∧ (s.push n).pop = some s
      ∧ (s.push n).nodes_.tail = s.nodes_ :=
  ⟨rfl, rfl, rfl, rfl, rfl⟩

theorem boundLe_refl (a : Bound) : a.le a = true := by
  cases a <;> simp [Bound.le, Bound.toDbl, Dbl.le]

theorem boundLe_trans (a b c : Bound) (h1 : a.le b = true) (h2 : b.le c = true) :
    a.le c = true := by
  cases a <;> cases b <;> cases c <;> simp [Bound.le, Bound.toDbl, Dbl.le] at h1 h2 ⊢
  exact le_trans h1 h2

theorem boundLe_of_lt (a b : Bound) (h : a.lt b = true) : a.le b = true := by
  cases a <;> cases b <;> simp [Bound.le, Bound.lt, Bound.toDbl, Dbl.le, Dbl.lt] at h ⊢
  exact le_of_lt h

theorem boundLe_of_not_lt (a b : Bound) (h : ¬ a.lt b = true) : b.le a = true := by
  cases a <;> cases b <;> simp [Bound.le, Bound.lt, Bound.toDbl, Dbl.le, Dbl.lt] at h ⊢
  exact h

theorem bound_posInf_le (a : Bound) (h : Bound.posInf.le a = true) : a = .posInf := by
  cases a <;> simp [Bound.le, Bound.toDbl, Dbl.le] at h ⊢

/-- The loop of `getBestLB` returns a value that is below the lower bound of
every node visited and below the start value, and that is the start value or
the lower bound of a node visited. -/
theorem getBestLBLoop_spec (l : List Node) :
    ∀ best : Bound,
      (∀ n ∈ l, (getBestLBLoop l best).le n.getLb = true)
      ∧ (getBestLBLoop l best).le best = true
      ∧ (getBestLBLoop l best = best ∨ ∃ n ∈ l, getBestLBLoop l best = n.getLb) := by
  induction l with
  | nil =>
    intro best
    exact ⟨fun n hn => absurd hn (List.not_mem_nil n), boundLe_refl best, Or.inl rfl⟩
  | cons m rest ih =>
    intro best
    simp only [getBestLBLoop]
    by_cases hlt : m.getLb.lt best = true
    · simp only [hlt, if_true]
      obtain ⟨i1, i2, i3⟩ := ih m.getLb
      refine ⟨?_, boundLe_trans _ _ _ i2 (boundLe_of_lt _ _ hlt), ?_⟩
      · intro n hn
        rcases List.mem_cons.mp hn with h | h
        · rw [h]; exact i2
        · exact i1 n h
      · rcases i3 with h | ⟨n, hn, h⟩
        · exact Or.inr ⟨m, List.mem_cons_self _ _, h⟩
        · exact Or.inr ⟨n, List.mem_cons_of_mem _ hn, h⟩
    · simp only [hlt, if_false]
      obtain ⟨i1, i2, i3⟩ := ih best
      refine ⟨?_, i2, ?_⟩
      · intro n hn
        rcases List.mem_cons.mp hn with h | h
        · rw [h]; exact boundLe_trans _ _ _ i2 (boundLe_of_not_lt _ _ hlt)
        · exact i1 n h
      · rcases i3 with h | ⟨n, hn, h⟩
        · exact Or.inl h
        · exact Or.inr ⟨n, List.mem_cons_of_mem _ hn, h⟩

/-- C15: `getBestLB` returns `+∞` for the empty store; for every other store
it returns the minimum of the lower bounds of the stored nodes, a value that
is at most the lower bound of every stored node and is the lower bound of one
of them. -/
theorem NodeStack_getBestLB (s : NodeStack) :
    (s.nodes_ = [] → s.getBestLB = .posInf)
    ∧ (s.nodes_ ≠ [] →
        (∀ n ∈ s.nodes_, s.getBestLB.le n.getLb = true)
          ∧ ∃ n ∈ s.nodes_, s.getBestLB = n.getLb) := by
  constructor
  · intro h
    simp only [NodeStack.getBestLB, h, getBestLBLoop]
  · intro hne
    obtain ⟨i1, -, i3⟩ := getBestLBLoop_spec s.nodes_ .posInf
    refine ⟨i1, ?_⟩
    rcases i3 with h | h
    · cases hl : s.nodes_ with
      | nil => exact absurd hl hne
      | cons m rest =>
        have hm : m ∈ s.nodes_ := by rw [hl]; exact List.mem_cons_self _ _
        have h1 := i1 m hm
        rw [h] at h1
        refine ⟨m, List.mem_cons_self _ _, ?_⟩
        rw [NodeStack.getBestLB, h, bound_posInf_le _ h1]
    · exact h

/-- Witness of C15: bounds 5, 2, 7 give 2. -/
theorem NodeStack_getBestLB_witness :
    NodeStack.getBestLB
      ⟨[.mk 3 (.fin 5) none none, .mk 2 (.fin 2) none none, .mk 1 (.fin 7) none none]⟩
      = .fin 2 := by
  obtain ⟨h1, n, hn, h2⟩ := (NodeStack_getBestLB
    ⟨[.mk 3 (.fin 5) none none, .mk 2 (.fin 2) none none, .mk 1 (.fin 7) none none]⟩).2
    (by simp)
  have hle := h1 (.mk 2 (.fin 2) none none) (by simp)
  simp only [List.mem_cons, List.mem_singleton, List.not_mem_nil, or_false] at hn
  rcases hn with h | h | h <;> rw [h] at h2 <;> simp only [Node.getLb] at h2
  · rw [h2] at hle
    simp [Node.getLb, Bound.le, Bound.toDbl, Dbl.le] at hle
    norm_num at hle
  · exact h2
  · rw [h2] at hle
    simp [Node.getLb, Bound.le, Bound.toDbl, Dbl.le] at hle
    norm_num at hle

/-! ## Interval utilities -/

theorem dblMin_fin (a b : ℚ) : Dbl.min (.fin a) (.fin b) = .fin (min a b) := by
  unfold Dbl.min Dbl.lt
  by_cases h : b < a
  · simp [h, min_eq_right h.le]
  · simp [h, min_eq_left (not_lt.mp h)]

theorem dblMax_fin (a b : ℚ) : Dbl.max (.fin a) (.fin b) = .fin (max a b) := by
  unfold Dbl.max Dbl.lt
  by_cases h : a < b
  · simp [h, max_eq_right h.le]
  · simp [h, max_eq_left (not_lt.mp h)]

/-- The product of two points lies between the least and the greatest of the
four corner products of their intervals. -/
theorem mul_corner_bounds (l0 u0 l1 u1 x y : ℚ) (hx1 : l0 ≤ x) (hx2 : x ≤ u0)
    (hy1 : l1 ≤ y) (hy2 : y ≤ u1) :
    min (min (min (l0 * l1) (u0 * l1)) (u0 * u1)) (l0 * u1) ≤ x * y
      ∧ x * y ≤ max (max (max (l0 * l1) (u0 * l1)) (u0 * u1)) (l0 * u1) := by
  constructor
  · have key : l0 * l1 ≤ x * y ∨ u0 * l1 ≤ x * y ∨ u0 * u1 ≤ x * y ∨ l0 * u1 ≤ x * y := by
      rcases le_total 0 y with hy | hy
      · rcases le_total 0 l0 with hl | hl
        · exact Or.inl (by nlinarith)
        · exact Or.inr (Or.inr (Or.inr (by nlinarith)))
      · rcases le_total 0 u0 with hu | hu
        · exact Or.inr (Or.inl (by nlinarith))
        · exact Or.inr (Or.inr (Or.inl (by nlinarith)))
    simp only [min_le_iff]
    tauto
  · have key : x * y ≤ l0 * l1 ∨ x * y ≤ u0 * l1 ∨ x * y ≤ u0 * u1 ∨ x * y ≤ l0 * u1 := by
      rcases le_total 0 y with hy | hy
      · rcases le_total 0 u0 with hu | hu
        · exact Or.inr (Or.inr (Or.inl (by nlinarith)))
        · exact Or.inr (Or.inl (by nlinarith))
      · rcases le_total 0 l0 with hl | hl
        · exact Or.inr (Or.inr (Or.inr (by nlinarith)))
        · exact Or.inl (by nlinarith)
    simp only [le_max_iff]
    tauto

/-- C16, as the code has it: for either value of the flag and all real
`l0 ≤ u0`, `l1 ≤ u1` in which an interval that lies within the tolerance
`[−1e-10, 1e-10]` is exactly `[0, 0]`, the bounds returned by
`BoundsOnProduct` are finite and satisfy `lb ≤ x·y ≤ ub` for every `x` in
`[l0, u0]` and `y` in `[l1, u1]`. -/
theorem BoundsOnProduct_sound (flag : Bool) (l0 u0 l1 u1 x y : ℚ)
    (hx1 : l0 ≤ x) (hx2 : x ≤ u0) (hy1 : l1 ≤ y) (hy2 : y ≤ u1)
    (hz0 : |l0| ≤ tol10 → |u0| ≤ tol10 → l0 = 0 ∧ u0 = 0)
    (hz1 : |l1| ≤ tol10 → |u1| ≤ tol10 → l1 = 0 ∧ u1 = 0) :
    ∃ lb ub : ℚ,
      BoundsOnProduct flag (.fin l0) (.fin u0) (.fin l1) (.fin u1) = (.fin lb, .fin ub)
      ∧ lb ≤ x * y ∧ x * y ≤ ub := by
  have htol : (0 : ℚ) ≤ tol10 := by norm_num [tol10]
  by_cases e1 : |l1| ≤ tol10 ∧ |u1| ≤ tol10
  · obtain ⟨z1, z2⟩ := hz1 e1.1 e1.2
    subst z1 z2
    have hy : y = 0 := le_antisymm hy2 hy1
    refine ⟨0, 0, ?_, by rw [hy]; simp, by rw [hy]; simp⟩
    cases flag <;> simp [BoundsOnProduct, Dbl.fabs, Dbl.le, Dbl.eq, htol]
  · by_cases e0 : |l0| ≤ tol10 ∧ |u0| ≤ tol10
    · obtain ⟨z1, z2⟩ := hz0 e0.1 e0.2
      subst z1 z2
      have hx : x = 0 := le_antisymm hx2 hx1
      refine ⟨0, 0, ?_, by rw [hx]; simp, by rw [hx]; simp⟩
      have e1' : ¬ (|l1| ≤ tol10 ∧ |u1| ≤ tol10) := e1
      cases flag <;> simp [BoundsOnProduct, Dbl.fabs, Dbl.le, Dbl.eq, htol, e1']
    · refine ⟨_, _, ?_, mul_corner_bounds l0 u0 l1 u1 x y hx1 hx2 hy1 hy2⟩
      have e1' : ¬ (|l1| ≤ tol10 ∧ |u1| ≤ tol10) := e1
      have e0' : ¬ (|l0| ≤ tol10 ∧ |u0| ≤ tol10) := e0
      simp only [BoundsOnProduct, Dbl.fabs, Dbl.le, Dbl.eq, Bool.and_eq_true,
        decide_eq_true_eq, e1', e0', if_false, Dbl.mul, Dbl.nanTo, Dbl.isnan,
        dblMin_fin, dblMax_fin, Bool.false_and, Bool.or_self, Bool.false_eq_true]

/-- Witness of C16 as amended: `[−1, 2]` times `[3, 4]` at the point
`(1, 3)`, with the flag off. -/
theorem BoundsOnProduct_sound_witness :
    ∃ lb ub : ℚ,
      BoundsOnProduct false (.fin (-1)) (.fin 2) (.fin 3) (.fin 4) = (.fin lb, .fin ub)
      ∧ lb ≤ 1 * 3 ∧ 1 * 3 ≤ ub :=
  BoundsOnProduct_sound false (-1) 2 3 4 1 3 (by norm_num) (by norm_num) (by norm_num)
    (by norm_num)
    (by
      intro h
      rw [abs_of_neg (by norm_num)] at h
      norm_num [tol10] at h)
    (by
      intro h
      rw [abs_of_pos (by norm_num)] at h
      norm_num [tol10] at h)

/-- C16 fails as stated: for the real intervals `[1e-11, 1e-11]` and `[1, 1]`
the bounds returned are `[0, 0]` for either value of the flag, but the product
of the points `1e-11` and `1` is positive. -/
theorem BoundsOnProduct_sound_counterexample :
    BoundsOnProduct true (.fin (1 / 100000000000)) (.fin (1 / 100000000000)) (.fin 1) (.fin 1)
        = (.fin 0, .fin 0)
      ∧ BoundsOnProduct false (.fin (1 / 100000000000)) (.fin (1 / 100000000000)) (.fin 1)
          (.fin 1)
        = (.fin 0, .fin 0)
      ∧ ¬ ((1 / 100000000000 : ℚ) * 1 ≤ 0) := by
  have h1 : |(1 : ℚ)| = 1 := abs_one
  have h2 : |(1 / 100000000000 : ℚ)| = 1 / 100000000000 := abs_of_pos (by norm_num)
  refine ⟨?_, ?_, by norm_num⟩
  · simp only [BoundsOnProduct, Dbl.fabs, Dbl.le, h1, h2, tol10]
    norm_num
    intro h
    rw [h2] at h
    norm_num at h
  · simp only [BoundsOnProduct, Dbl.fabs, Dbl.le, Dbl.eq, h1, h2, tol10]
    norm_num
    intro h
    rw [h2] at h
    norm_num at h

/-- The case distinction of `BoundsOnRecip` on a real interval. -/
theorem BoundsOnRecip_fin (l u : ℚ) :
    BoundsOnRecip (.fin l) (.fin u)
      = if |u| < tol10 ∧ |l| < tol10 then (.negInf, .posInf)
        else if l < -tol10 ∧ tol10 < u then (.negInf, .posInf)
        else if |u| < tol10 ∧ l < 0 then (.negInf, (Dbl.fin l).recip)
        else if |l| < tol10 ∧ 0 < u then ((Dbl.fin u).recip, .posInf)
        else ((Dbl.fin u).recip, (Dbl.fin l).recip) := by
  simp only [BoundsOnRecip, Dbl.fabs, Dbl.lt, Bool.and_eq_true, decide_eq_true_eq]

theorem recip_fin_of_ne (q : ℚ) (h : q ≠ 0) : (Dbl.fin q).recip = .fin (1 / q) := by
  simp only [Dbl.recip, h, if_false]

/-- In the last case of `BoundsOnRecip`, an interval whose bounds are zero or
beyond the tolerance lies on one side of zero. -/
theorem recip_last_case (l u : ℚ) (hlu : l ≤ u)
    (hzl : |l| ≤ tol10 → l = 0) (hzu : |u| ≤ tol10 → u = 0)
    (c1 : ¬ (|u| < tol10 ∧ |l| < tol10)) (c2 : ¬ (l < -tol10 ∧ tol10 < u))
    (c3 : ¬ (|u| < tol10 ∧ l < 0)) (c4 : ¬ (|l| < tol10 ∧ 0 < u)) :
    0 < l ∨ u < 0 := by
  have htol : (0 : ℚ) < tol10 := by norm_num [tol10]
  have hl0 : l ≠ 0 := by
    intro h
    subst h
    have hl : |(0 : ℚ)| < tol10 := by simpa using htol
    have hu : u = 0 := le_antisymm (not_lt.mp (fun hu => c4 ⟨hl, hu⟩)) hlu
    subst hu
    exact c1 ⟨hl, hl⟩
  have hu0 : u ≠ 0 := by
    intro h
    subst h
    have hu : |(0 : ℚ)| < tol10 := by simpa using htol
    exact hl0 (le_antisymm hlu (not_lt.mp (fun hl => c3 ⟨hu, hl⟩)))
  have hl1 : tol10 < |l| := not_le.mp (fun h => hl0 (hzl h))
  have hu1 : tol10 < |u| := not_le.mp (fun h => hu0 (hzu h))
  rcases lt_or_gt_of_ne hl0 with hl | hl
  · right
    rw [abs_of_neg hl] at hl1
    by_contra hu
    have hu2 : 0 < u := lt_of_le_of_ne (not_lt.mp hu) (Ne.symm hu0)
    rw [abs_of_pos hu2] at hu1
    exact c2 ⟨by linarith, hu1⟩
  · exact Or.inl hl

/-- C17, as the code has it: for all real `l ≤ u` whose bounds are zero or
beyond the tolerance (`|l| ≤ 1e-10` only for `l = 0`, and the same for `u`)
and every non-zero `x` with `l ≤ x ≤ u`, the bounds returned by
`BoundsOnRecip` satisfy `lb ≤ 1/x ≤ ub`, and so `lb ≤ ub`. -/
theorem BoundsOnRecip_sound (l u x : ℚ) (hx1 : l ≤ x) (hx2 : x ≤ u) (hx : x ≠ 0)
    (hzl : |l| ≤ tol10 → l = 0) (hzu : |u| ≤ tol10 → u = 0) :
    (BoundsOnRecip (.fin l) (.fin u)).1.le (.fin (1 / x)) = true
      ∧ (Dbl.fin (1 / x)).le (BoundsOnRecip (.fin l) (.fin u)).2 = true
      ∧ (BoundsOnRecip (.fin l) (.fin u)).1.le (BoundsOnRecip (.fin l) (.fin u)).2 = true := by
  rw [BoundsOnRecip_fin]
  split_ifs with c1 c2 c3 c4
  · exact ⟨rfl, rfl, rfl⟩
  · exact ⟨rfl, rfl, rfl⟩
  · have hu : u = 0 := hzu c3.1.le
    subst hu
    have hxneg : x < 0 := lt_of_le_of_ne hx2 hx
    rw [recip_fin_of_ne l (ne_of_lt c3.2)]
    refine ⟨rfl, ?_, rfl⟩
    simp only [Dbl.le, decide_eq_true_eq]
    exact (one_div_le_one_div_of_neg hxneg c3.2).mpr hx1
  · have hl : l = 0 := hzl c4.1.le
    subst hl
    have hxpos : 0 < x := lt_of_le_of_ne hx1 (Ne.symm hx)
    rw [recip_fin_of_ne u (ne_of_gt c4.2)]
    refine ⟨?_, rfl, rfl⟩
    simp only [Dbl.le, decide_eq_true_eq]
    exact one_div_le_one_div_of_le hxpos hx2
  · rcases recip_last_case l u (le_trans hx1 hx2) hzl hzu c1 c2 c3 c4 with hl | hu
    · have hxpos : 0 < x := lt_of_lt_of_le hl hx1
      have hupos : 0 < u := lt_of_lt_of_le hxpos hx2
      rw [recip_fin_of_ne l (ne_of_gt hl), recip_fin_of_ne u (ne_of_gt hupos)]
      simp only [Dbl.le, decide_eq_true_eq]
      exact ⟨one_div_le_one_div_of_le hxpos hx2, one_div_le_one_div_of_le hl hx1,
        one_div_le_one_div_of_le hl (le_trans hx1 hx2)⟩
    · have hxneg : x < 0 := lt_of_le_of_lt hx2 hu
      have hlneg : l < 0 := lt_of_le_of_lt hx1 hxneg
      rw [recip_fin_of_ne l (ne_of_lt hlneg), recip_fin_of_ne u (ne_of_lt hu)]
      simp only [Dbl.le, decide_eq_true_eq]
      exact ⟨(one_div_le_one_div_of_neg hu hxneg).mpr hx2,
        (one_div_le_one_div_of_neg hxneg hlneg).mpr hx1,
        (one_div_le_one_div_of_neg hu hlneg).mpr (le_trans hx1 hx2)⟩

/-- Witness of C17 as amended: the interval `[2, 4]` at the point 3. -/
theorem BoundsOnRecip_sound_witness :
    (BoundsOnRecip (.fin 2) (.fin 4)).1.le (.fin (1 / 3)) = true
      ∧ (Dbl.fin (1 / 3)).le (BoundsOnRecip (.fin 2) (.fin 4)).2 = true
      ∧ (BoundsOnRecip (.fin 2) (.fin 4)).1.le (BoundsOnRecip (.fin 2) (.fin 4)).2 = true :=
  BoundsOnRecip_sound 2 4 3 (by norm_num) (by norm_num) (by norm_num)
    (by
      intro h
      rw [abs_of_pos (by norm_num)] at h
      norm_num [tol10] at h)
    (by
      intro h
      rw [abs_of_pos (by norm_num)] at h
      norm_num [tol10] at h)

/-- C17 fails as stated: for the real interval `[−5, 1e-11]` the bounds
returned are `(−∞, −1/5]`, but the non-zero point `x = 1e-11` of the interval
has `1/x = 1e11`, which is not below `−1/5`. -/
theorem BoundsOnRecip_sound_counterexample :
    BoundsOnRecip (.fin (-5)) (.fin (1 / 100000000000)) = (.negInf, .fin (-1 / 5))
      ∧ (-5 : ℚ) ≤ 1 / 100000000000
      ∧ (1 / 100000000000 : ℚ) ≠ 0
      ∧ (Dbl.fin (1 / (1 / 100000000000))).le (.fin (-1 / 5)) = false := by
  have h1 : |(-5 : ℚ)| = 5 := by rw [abs_of_neg (by norm_num)]; norm_num
  have h2 : |(1 / 100000000000 : ℚ)| = 1 / 100000000000 := abs_of_pos (by norm_num)
  refine ⟨?_, by norm_num, by norm_num, ?_⟩
  · rw [BoundsOnRecip_fin]
    simp only [h1, h2, tol10, Dbl.recip]
    norm_num
  · simp only [Dbl.le]
    norm_num

/-- C18, as the code has it: `BoundsOnRecip` tests "spanning zero" with the
tolerance, `l < −1e-10` and `u > 1e-10`.  On every real interval `l ≤ u` that,
if it strictly spans zero (`l < 0 < u`), is a zero interval or spans zero
beyond the tolerance on both sides, `BoundsOnRecip` follows the case table
with tolerance `1e-10`: a zero interval and an interval spanning zero give
`(−∞, +∞)`; an interval touching zero from below gives `(−∞, 1/l]`; one
touching zero from above gives `[1/u, +∞)`; every other interval gives
`[1/u, 1/l]`. -/
theorem BoundsOnRecip_table (l u : ℚ) (hlu : l ≤ u)
    (hspan : l < 0 → 0 < u → (|l| < tol10 ∧ |u| < tol10) ∨ (l < -tol10 ∧ tol10 < u)) :
    BoundsOnRecip (.fin l) (.fin u) = recipTableSpec l u := by
  have htol : (0 : ℚ) < tol10 := by norm_num [tol10]
  rw [BoundsOnRecip_fin]
  unfold recipTableSpec
  by_cases c1 : |u| < tol10 ∧ |l| < tol10
  · have c1' : |l| < tol10 ∧ |u| < tol10 := ⟨c1.2, c1.1⟩
    simp only [c1, c1', and_self, if_true]
  · have c1' : ¬ (|l| < tol10 ∧ |u| < tol10) := fun h => c1 ⟨h.2, h.1⟩
    simp only [c1, c1', if_false]
    by_cases c2s : l < 0 ∧ 0 < u
    · have c2 : l < -tol10 ∧ tol10 < u := by
        rcases hspan c2s.1 c2s.2 with h | h
        · exact absurd h c1'
        · exact h
      simp only [c2, c2s, and_self, if_true]
    · have c2 : ¬ (l < -tol10 ∧ tol10 < u) :=
        fun h => c2s ⟨lt_trans h.1 (by linarith), lt_trans htol h.2⟩
      simp only [c2, c2s, if_false]
      by_cases c3 : |u| < tol10 ∧ l < 0
      · simp only [c3, and_self, if_true, recip_fin_of_ne l (ne_of_lt c3.2)]
      · simp only [c3, if_false]
        by_cases c4 : |l| < tol10 ∧ 0 < u
        · simp only [c4, and_self, if_true, recip_fin_of_ne u (ne_of_gt c4.2)]
        · simp only [c4, if_false]
          have hl0 : l ≠ 0 := by
            intro h
            subst h
            have hl : |(0 : ℚ)| < tol10 := by simpa using htol
            have hu : u = 0 := le_antisymm (not_lt.mp (fun hu => c4 ⟨hl, hu⟩)) hlu
            subst hu
            exact c1 ⟨hl, hl⟩
          have hu0 : u ≠ 0 := by
            intro h
            subst h
            have hu : |(0 : ℚ)| < tol10 := by simpa using htol
            exact hl0 (le_antisymm hlu (not_lt.mp (fun hl => c3 ⟨hu, hl⟩)))
          rw [recip_fin_of_ne l hl0, recip_fin_of_ne u hu0]

/-- Witness of C18 as amended: `[−5, 5]` spans zero beyond the tolerance and
gets `(−∞, +∞)`; `[−5, 0]` touches zero from below and gets `(−∞, 1/(−5)]`. -/
theorem BoundsOnRecip_table_witness :
    BoundsOnRecip (.fin (-5)) (.fin 5) = (.negInf, .posInf)
      ∧ BoundsOnRecip (.fin (-5)) (.fin 0) = (.negInf, .fin (1 / (-5))) := by
  have h1 : |(-5 : ℚ)| = 5 := by rw [abs_of_neg (by norm_num)]; norm_num
  have h2 : |(5 : ℚ)| = 5 := abs_of_pos (by norm_num)
  constructor
  · rw [BoundsOnRecip_table (-5) 5 (by norm_num)
      (fun _ _ => Or.inr ⟨by norm_num [tol10], by norm_num [tol10]⟩)]
    simp only [recipTableSpec, h1, h2, tol10]
    norm_num
  · rw [BoundsOnRecip_table (-5) 0 (by norm_num) (fun _ h => absurd h (lt_irrefl _))]
    simp only [recipTableSpec, h1, abs_zero, tol10]
    norm_num

/-- C18 fails as stated: `[−5, 1e-11]` strictly spans zero, but `1e-11` is
within the tolerance, so `BoundsOnRecip` takes it as touching zero from below
and returns `(−∞, −1/5]` where the table has `(−∞, +∞)`; and on
`[−1e-10, 8]`, which strictly spans zero with `l` exactly at the tolerance, it
returns the pair `(1/8, −1e10)`. -/
theorem BoundsOnRecip_table_counterexample :
    ((-5 : ℚ) < 0 ∧ (0 : ℚ) < 1 / 100000000000)
    ∧ BoundsOnRecip (.fin (-5)) (.fin (1 / 100000000000)) = (.negInf, .fin (1 / (-5)))
    ∧ recipTableSpec (-5) (1 / 100000000000) = (.negInf, .posInf)
    ∧ BoundsOnRecip (.fin (-tol10)) (.fin 8) = (.fin (1 / 8), .fin (-10000000000))
    ∧ recipTableSpec (-tol10) 8 = (.negInf, .posInf) := by
  have h1 : |(-5 : ℚ)| = 5 := by rw [abs_of_neg (by norm_num)]; norm_num
  have h2 : |(1 / 100000000000 : ℚ)| = 1 / 100000000000 := abs_of_pos (by norm_num)
  have h3 : |(-(1 / 10000000000) : ℚ)| = 1 / 10000000000 := by
    rw [abs_of_neg (by norm_num)]; norm_num
  have h4 : |(8 : ℚ)| = 8 := abs_of_pos (by norm_num)
  refine ⟨⟨by norm_num, by norm_num⟩, ?_, ?_, ?_, ?_⟩
  · rw [BoundsOnRecip_fin]
    simp only [h1, h2, tol10, Dbl.recip]
    norm_num
  · simp only [recipTableSpec, h1, h2, tol10]
    norm_num
  · rw [BoundsOnRecip_fin]
    simp only [tol10, h3, h4, Dbl.recip]
    norm_num
  · simp only [recipTableSpec, tol10, h3, h4]
    norm_num

/-- C19: for all real `l ≤ u`, `BoundsOnSquare` returns `[u², l²]` if `u < 0`,
`[l², u²]` if `l > 0` and `[0, max(l², u²)]` otherwise, and this is the exact
range of the square on `[l, u]`: every `x` in `[l, u]` has `lb ≤ x² ≤ ub`, and
`lb` and `ub` are both the square of a point of `[l, u]`. -/
theorem BoundsOnSquare_exact (l u : ℚ) (hlu : l ≤ u) :
    ∃ lb ub : ℚ,
      BoundsOnSquare (.fin l) (.fin u) = (.fin lb, .fin ub)
      ∧ (lb, ub) = (if u < 0 then (u * u, l * l)
          else if 0 < l then (l * l, u * u) else (0, max (l * l) (u * u)))
      ∧ (∀ x : ℚ, l ≤ x → x ≤ u → lb ≤ x * x ∧ x * x ≤ ub)
      ∧ (∃ x : ℚ, l ≤ x ∧ x ≤ u ∧ x * x = lb)
      ∧ (∃ x : ℚ, l ≤ x ∧ x ≤ u ∧ x * x = ub) := by
  by_cases hu : u < 0
  · refine ⟨u * u, l * l, ?_, ?_, ?_, ⟨u, hlu, le_refl _, rfl⟩, ⟨l, le_refl _, hlu, rfl⟩⟩
    · simp only [BoundsOnSquare, Dbl.lt, hu, decide_True, if_true, Dbl.mul]
    · simp only [hu, if_true]
    · intro x h1 h2
      constructor <;> nlinarith
  · by_cases hl : 0 < l
    · refine ⟨l * l, u * u, ?_, ?_, ?_, ⟨l, le_refl _, hlu, rfl⟩, ⟨u, hlu, le_refl _, rfl⟩⟩
      · simp only [BoundsOnSquare, Dbl.lt, hu, hl, decide_True, decide_False, if_true,
          if_false, Dbl.mul, Bool.false_eq_true]
      · simp only [hu, hl, if_true, if_false]
      · intro x h1 h2
        constructor <;> nlinarith
    · have hl' : l ≤ 0 := not_lt.mp hl
      have hu' : 0 ≤ u := not_lt.mp hu
      refine ⟨0, max (l * l) (u * u), ?_, ?_, ?_, ⟨0, hl', hu', by simp⟩, ?_⟩
      · simp only [BoundsOnSquare, Dbl.lt, hu, hl, decide_False, if_false, Dbl.mul,
          dblMax_fin, Bool.false_eq_true]
      · simp only [hu, hl, if_false]
      · intro x h1 h2
        refine ⟨mul_self_nonneg x, ?_⟩
        rcases le_total 0 x with hx | hx
        · exact le_trans (by nlinarith) (le_max_right _ _)
        · exact le_trans (by nlinarith) (le_max_left _ _)
      · rcases le_total (l * l) (u * u) with h | h
        · exact ⟨u, hlu, le_refl _, by rw [max_eq_right h]⟩
        · exact ⟨l, le_refl _, hlu, by rw [max_eq_left h]⟩

/-- Witness of C19: the interval `[−3, 2]` has the squares `[0, 9]`. -/
theorem BoundsOnSquare_exact_witness :
    BoundsOnSquare (.fin (-3)) (.fin 2) = (.fin 0, .fin 9) := by
  obtain ⟨lb, ub, h1, h2, -⟩ := BoundsOnSquare_exact (-3) 2 (by norm_num)
  rw [h1]
  norm_num at h2
  rw [h2.1, h2.2]

/-! ## Clock time -/

theorem setw2_length_small : ∀ k : Fin 100, (setw2 ((k : Nat) : Int)).length = 2 := by
  decide

theorem setw2_length_of_lt (n : Int) (h0 : 0 ≤ n) (h1 : n < 100) : (setw2 n).length = 2 := by
  obtain ⟨k, rfl⟩ := Int.eq_ofNat_of_zero_le h0
  have hk : k < 100 := by omega
  exact setw2_length_small ⟨k, hk⟩

theorem setw2_length_ge (n : Int) : 2 ≤ (setw2 n).length := by
  unfold setw2
  simp only [String.length_append, String.length_pushn]
  have : ("" : String).length = 0 := rfl
  omega

theorem intOfDouble_floor (q : ℚ) (hq : 0 ≤ q) (hc : ⌊q⌋ ≤ 2147483647) :
    intOfDouble q = some ⌊q⌋ := by
  have hnum : 0 ≤ q.num := Rat.num_nonneg.mpr hq
  have hden : (0 : Int) ≤ (q.den : Int) := Int.ofNat_nonneg _
  have hfl : Int.tdiv q.num q.den = ⌊q⌋ := by
    rw [Int.tdiv_eq_ediv hnum hden, Rat.floor_def]
  have h0 : 0 ≤ ⌊q⌋ := Int.floor_nonneg.mpr hq
  unfold intOfDouble
  simp only [hfl]
  rw [if_pos ⟨by omega, hc⟩]

theorem roundEven_nonneg (m : ℚ) (hm : 0 ≤ m) : 0 ≤ roundEven m := by
  have hf : 0 ≤ ⌊m⌋ := Int.floor_nonneg.mpr hm
  unfold roundEven
  simp only
  split_ifs <;> omega

theorem roundDouble_nonneg (q : ℚ) (hq : 0 ≤ q) : 0 ≤ roundDouble q := by
  unfold roundDouble
  split_ifs with h0
  · exact le_refl _
  · simp only
    have hu : (0 : ℚ) < 2 ^ (max (Int.log 2 |q|) (-1022) - 52) := by positivity
    have hm : 0 ≤ roundEven (q / 2 ^ (max (Int.log 2 |q|) (-1022) - 52)) :=
      roundEven_nonneg _ (div_nonneg hq hu.le)
    have : (0 : ℚ) ≤ ((roundEven (q / 2 ^ (max (Int.log 2 |q|) (-1022) - 52)) : Int) : ℚ) := by
      exact_mod_cast hm
    exact mul_nonneg this hu.le

/-- Rounding a positive number of a known binade. -/
theorem roundDouble_binade (q : ℚ) (e : Int) (h1 : (2 : ℚ) ^ e ≤ q) (h2 : q < 2 ^ (e + 1))
    (he : -1022 ≤ e) : roundDouble q = roundEven (q / 2 ^ (e - 52)) * 2 ^ (e - 52) := by
  have hpos : 0 < q := lt_of_lt_of_le (by positivity) h1
  have habs : |q| = q := abs_of_pos hpos
  have hlog : Int.log 2 q = e := by
    apply le_antisymm
    · have := (Int.lt_zpow_iff_log_lt (b := 2) (by norm_num) hpos).mp h2
      omega
    · exact (Int.zpow_le_iff_le_log (b := 2) (by norm_num) hpos).mp h1
  unfold roundDouble
  rw [if_neg (ne_of_gt hpos), habs, hlog, max_eq_left he]

/-- The nearest integer when the fractional part is below one half. -/
theorem roundEven_down (m : ℚ) (f : Int) (h1 : (f : ℚ) ≤ m) (h2 : m < f + 1 / 2) :
    roundEven m = f := by
  have hf : ⌊m⌋ = f := Int.floor_eq_iff.mpr ⟨h1, by linarith⟩
  unfold roundEven
  simp only [hf]
  rw [if_pos (by linarith)]

/-- The nearest integer when the fractional part is above one half. -/
theorem roundEven_up (m : ℚ) (f : Int) (h1 : (f : ℚ) + 1 / 2 < m) (h2 : m < f + 1) :
    roundEven m = f + 1 := by
  have hf : ⌊m⌋ = f := Int.floor_eq_iff.mpr ⟨by linarith, h2⟩
  unfold roundEven
  simp only [hf]
  rw [if_neg (by linarith), if_pos (by linarith)]

/-- The number `t003` is a double, the one that 0.03 rounds to. -/
theorem roundDouble_t003 : roundDouble (3 / 100) = t003 ∧ roundDouble t003 = t003 := by
  constructor
  · rw [roundDouble_binade (3 / 100) (-6) (by norm_num) (by norm_num) (by norm_num)]
    rw [roundEven_down _ 8646911284551352 (by norm_num) (by norm_num)]
    norm_num [t003]
  · rw [roundDouble_binade t003 (-6) (by norm_num [t003]) (by norm_num [t003]) (by norm_num)]
    rw [roundEven_down _ 8646911284551352 (by norm_num [t003]) (by norm_num [t003])]
    norm_num [t003]

/-- The double product `t003 * 100` is exactly 3. -/
theorem roundDouble_t003_mul : roundDouble (t003 * 100) = 3 := by
  rw [roundDouble_binade (t003 * 100) 1 (by norm_num [t003]) (by norm_num [t003]) (by norm_num)]
  rw [roundEven_up _ 6755399441055743 (by norm_num [t003]) (by norm_num [t003])]
  norm_num

/-- The number `t372345` is a double, and the double product `t372345 * 100` is
exactly 372345. -/
theorem roundDouble_t372345 :
    roundDouble t372345 = t372345 ∧ roundDouble (t372345 * 100) = 372345 := by
  constructor
  · rw [roundDouble_binade t372345 11 (by norm_num [t372345]) (by norm_num [t372345])
      (by norm_num)]
    rw [roundEven_down _ 8187953140885094 (by norm_num [t372345]) (by norm_num [t372345])]
    norm_num [t372345]
  · rw [roundDouble_binade (t372345 * 100) 18 (by norm_num [t372345]) (by norm_num [t372345])
      (by norm_num)]
    rw [roundEven_up _ 6396838391316479 (by norm_num [t372345]) (by norm_num [t372345])]
    norm_num

/-- C20, as the code has it: the centiseconds are taken from the product
`t * 100` as a `double`, the exact product rounded to the nearest double, not
from the exact product.  For every `t ≥ 0` with `c = ⌊fl(t·100)⌋`
representable as an `int`, `toClockTime(t)` is the string `HH:MM:SS:CC` with
`HH = c div 360000` (not reduced any further), `MM = (c mod 360000) div 6000`,
`SS = (c mod 6000) div 100` and `CC = c mod 100`, each field written in
decimal and filled with zeros to width 2; `MM < 60`, `SS < 60`, `CC < 100` and
`360000·HH + 6000·MM + 100·SS + CC = c`. -/
theorem toClockTime_fields (t : ℚ) (ht : 0 ≤ t) (hc : ⌊roundDouble (t * 100)⌋ ≤ 2147483647) :
    toClockTime t
        = some (setw2 (⌊roundDouble (t * 100)⌋ / 360000) ++ ":" ++ setw2 (⌊roundDouble (t * 100)⌋ % 360000 / 6000) ++ ":"
          ++ setw2 (⌊roundDouble (t * 100)⌋ % 6000 / 100) ++ ":" ++ setw2 (⌊roundDouble (t * 100)⌋ % 100))
      ∧ 0 ≤ ⌊roundDouble (t * 100)⌋ / 360000
      ∧ (0 ≤ ⌊roundDouble (t * 100)⌋ % 360000 / 6000 ∧ ⌊roundDouble (t * 100)⌋ % 360000 / 6000 < 60)
      ∧ (0 ≤ ⌊roundDouble (t * 100)⌋ % 6000 / 100 ∧ ⌊roundDouble (t * 100)⌋ % 6000 / 100 < 60)
      ∧ (0 ≤ ⌊roundDouble (t * 100)⌋ % 100 ∧ ⌊roundDouble (t * 100)⌋ % 100 < 100)
      ∧ 360000 * (⌊roundDouble (t * 100)⌋ / 360000) + 6000 * (⌊roundDouble (t * 100)⌋ % 360000 / 6000)
          + 100 * (⌊roundDouble (t * 100)⌋ % 6000 / 100) + ⌊roundDouble (t * 100)⌋ % 100 = ⌊roundDouble (t * 100)⌋
      ∧ 2 ≤ (setw2 (⌊roundDouble (t * 100)⌋ / 360000)).length
      ∧ (setw2 (⌊roundDouble (t * 100)⌋ % 360000 / 6000)).length = 2
      ∧ (setw2 (⌊roundDouble (t * 100)⌋ % 6000 / 100)).length = 2
      ∧ (setw2 (⌊roundDouble (t * 100)⌋ % 100)).length = 2 := by
  have hq : (0 : ℚ) ≤ roundDouble (t * 100) := roundDouble_nonneg _ (by positivity)
  have hint : intOfDouble (roundDouble (t * 100)) = some ⌊roundDouble (t * 100)⌋ :=
    intOfDouble_floor _ hq hc
  have h0 : 0 ≤ ⌊roundDouble (t * 100)⌋ := Int.floor_nonneg.mpr hq
  generalize ⌊roundDouble (t * 100)⌋ = c at *
  have m1 : 0 ≤ c % 360000 := Int.emod_nonneg _ (by norm_num)
  have m2 : 0 ≤ c % 360000 % 6000 := Int.emod_nonneg _ (by norm_num)
  have e1 : Int.tmod c 360000 = c % 360000 := Int.tmod_eq_emod h0 (by norm_num)
  have e2 : Int.tmod (c % 360000) 6000 = c % 6000 := by
    rw [Int.tmod_eq_emod m1 (by norm_num)]
    omega
  have m3 : 0 ≤ c % 6000 := Int.emod_nonneg _ (by norm_num)
  have e3 : Int.tmod (c % 6000) 100 = c % 100 := by
    rw [Int.tmod_eq_emod m3 (by norm_num)]
    omega
  have d1 : Int.tdiv c 360000 = c / 360000 := Int.tdiv_eq_ediv h0 (by norm_num)
  have d2 : Int.tdiv (c % 360000) 6000 = c % 360000 / 6000 :=
    Int.tdiv_eq_ediv m1 (by norm_num)
  have d3 : Int.tdiv (c % 6000) 100 = c % 6000 / 100 := Int.tdiv_eq_ediv m3 (by norm_num)
  have b2 : 0 ≤ c % 360000 / 6000 ∧ c % 360000 / 6000 < 60 := by omega
  have b3 : 0 ≤ c % 6000 / 100 ∧ c % 6000 / 100 < 60 := by omega
  have b4 : 0 ≤ c % 100 ∧ c % 100 < 100 := by omega
  refine ⟨?_, by omega, b2, b3, b4, by omega, setw2_length_ge _,
    setw2_length_of_lt _ b2.1 (by omega), setw2_length_of_lt _ b3.1 (by omega),
    setw2_length_of_lt _ b4.1 b4.2⟩
  simp only [toClockTime, hint, e1, e2, e3, d1, d2, d3]

/-- Witness of C20 as amended: the double nearest to 3723.45 lies below it,
its exact hundredfold has floor 372344, the double product is 372345 and the
string is `01:02:03:45`. -/
theorem toClockTime_fields_witness :
    ⌊100 * t372345⌋ = 372344 ∧ toClockTime t372345 = some "01:02:03:45" := by
  have hfl : ⌊roundDouble (t372345 * 100)⌋ = 372345 := by
    rw [roundDouble_t372345.2]
    exact Int.floor_intCast 372345
  have h := (toClockTime_fields t372345 (by norm_num [t372345]) (by rw [hfl]; norm_num)).1
  rw [hfl] at h
  refine ⟨?_, ?_⟩
  · rw [Int.floor_eq_iff]
    norm_num [t372345]
  · rw [h]
    decide

/-- C20 fails as stated: for the double `t003` nearest to 0.03 the exact
product `100·t` lies just below 3, so `c = ⌊100·t⌋ = 2` and the claim has the
field `CC = 02`; the double product is exactly 3 and `toClockTime` returns
`00:00:00:03`. -/
theorem toClockTime_fields_counterexample :
    roundDouble t003 = t003
    ∧ 0 ≤ t003
    ∧ ⌊100 * t003⌋ = 2
    ∧ setw2 (⌊100 * t003⌋ % 100) = "02"
    ∧ toClockTime t003 = some "00:00:00:03" := by
  have hfl : ⌊100 * t003⌋ = 2 := by
    rw [Int.floor_eq_iff]
    norm_num [t003]
  refine ⟨roundDouble_t003.2, by norm_num [t003], hfl, ?_, ?_⟩
  · rw [hfl]
    decide
  · unfold toClockTime
    rw [roundDouble_t003_mul]
    decide

/-! ## The score functions -/

/-- C24: `getScore_(a, b) = 0.8·min(a, b) + 0.2·max(a, b)`, symmetric in its
arguments; `getPCScore_` scores a variable candidate (index `> -1`) by
`getScore_(u_dist·pseudo_up[idx], d_dist·pseudo_down[idx])`, so that
`d_dist = 0` gives a down change of 0, and gives a generic candidate (index
`-1`) its own stored score with both changes 0. -/
theorem getScore_getPCScore (a c : ℚ) (cand : BrCand) (pseudoUp pseudoDown : List ℚ) :
    getScore_ a c = 8 / 10 * min a c + 2 / 10 * max a c
    ∧ getScore_ a c = getScore_ c a
    ∧ (cand.pCostIndex > -1 →
        (getPCScore_ cand pseudoUp pseudoDown).ch_up
            = cand.uDist * vget pseudoUp cand.pCostIndex 0
        ∧ (getPCScore_ cand pseudoUp pseudoDown).ch_down
            = cand.dDist * vget pseudoDown cand.pCostIndex 0
        ∧ (getPCScore_ cand pseudoUp pseudoDown).score
            = getScore_ (cand.uDist * vget pseudoUp cand.pCostIndex 0)
                (cand.dDist * vget pseudoDown cand.pCostIndex 0)
        ∧ (cand.dDist = 0 → (getPCScore_ cand pseudoUp pseudoDown).ch_down = 0))
    ∧ (cand.pCostIndex = -1 →
        (getPCScore_ cand pseudoUp pseudoDown).score = cand.score
        ∧ (getPCScore_ cand pseudoUp pseudoDown).ch_up = 0
        ∧ (getPCScore_ cand pseudoUp pseudoDown).ch_down = 0) := by
  have hmin : getScore_ a c = 8 / 10 * min a c + 2 / 10 * max a c := by
    unfold getScore_
    split
    · next h => rw [min_eq_right (le_of_lt h), max_eq_left (le_of_lt h)]; ring
    · next h =>
      have h1 : a ≤ c := not_lt.mp h
      rw [min_eq_left h1, max_eq_right h1]; ring
  have hmin1 : getScore_ c a = 8 / 10 * min c a + 2 / 10 * max c a := by
    unfold getScore_
    split
    · next h => rw [min_eq_right (le_of_lt h), max_eq_left (le_of_lt h)]; ring
    · next h =>
      have h1 : c ≤ a := not_lt.mp h
      rw [min_eq_left h1, max_eq_right h1]; ring
  refine ⟨hmin, ?_, ?_, ?_⟩
  · rw [hmin, hmin1, min_comm, max_comm]
  · intro hidx
    have e : getPCScore_ cand pseudoUp pseudoDown
        = ⟨cand.dDist * vget pseudoDown cand.pCostIndex 0,
            cand.uDist * vget pseudoUp cand.pCostIndex 0,
            getScore_ (cand.uDist * vget pseudoUp cand.pCostIndex 0)
              (cand.dDist * vget pseudoDown cand.pCostIndex 0)⟩ := by
      simp only [getPCScore_, hidx, if_true]
    rw [e]
    exact ⟨rfl, rfl, rfl, fun h0 => by rw [h0, zero_mul]⟩
  · intro hidx
    have hn : ¬ cand.pCostIndex > -1 := by rw [hidx]; decide
    have e : getPCScore_ cand pseudoUp pseudoDown = ⟨0, 0, cand.score⟩ := by
      simp only [getPCScore_, hn, if_false]
    rw [e]
    exact ⟨rfl, rfl, rfl⟩

/-- Witness of C24: a variable candidate on variable 0 with `d_dist = 0`,
`u_dist = 1/2` and `pseudo_up[0] = 2` has down change 0 and score
`0.8·0 + 0.2·1`; a generic candidate with score 7 keeps the score 7. -/
theorem getScore_getPCScore_witness :
    (getPCScore_ (varCand 0 0 (1 / 2)) [2] [3]).ch_down = 0
    ∧ (getPCScore_ (varCand 0 0 (1 / 2)) [2] [3]).score = 1 / 5
    ∧ (getPCScore_ (genCand 7) [2] [3]).score = 7 := by
  have h1 := getScore_getPCScore (1 / 2 * 2) 0 (varCand 0 0 (1 / 2)) [2] [3]
  have h2 := getScore_getPCScore 0 0 (genCand 7) [2] [3]
  refine ⟨(h1.2.2.1 (by decide)).2.2.2 rfl, ?_, (h2.2.2.2 rfl).1⟩
  rw [(h1.2.2.1 (by decide)).2.2.1]
  have e : getScore_ ((varCand 0 0 (1 / 2)).uDist * vget [2] (varCand 0 0 (1 / 2)).pCostIndex 0)
      ((varCand 0 0 (1 / 2)).dDist * vget [3] (varCand 0 0 (1 / 2)).pCostIndex 0)
      = getScore_ (1 / 2 * 2) 0 := by
    simp [varCand, vget]
  rw [e, h1.1]
  norm_num

/-! ## The pruning test, status by status -/

/-- C27: `shouldPrune_(chcutoff, Δ, status)` returns true if and only if the
status is `ProvenLocalInfeasible`, `ProvenInfeasible` or
`ProvenObjectiveCutOff`, or the status is `ProvenOptimal` or
`ProvenLocalOptimal`, `trustCutoff_` is true and `Δ > chcutoff − etol` (which
needs a finite `chcutoff`); for `EngineIterationLimit` it returns false and
leaves the reliability flag as it was; and with `cutoff = +∞`, where
`chcutoff = cutoff − objval` is infinite, an optimal status does not prune. -/
theorem shouldPrune_iff (b : ParReliabilityBrancher) (chcutoff : Cutoff) (change objval : ℚ)
    (status : EngineStatus) (is_rel : Bool) :
    ((∃ (r : Bool) (b1 : ParReliabilityBrancher),
        shouldPrune_ b chcutoff change status is_rel = .ok (true, r, b1))
      ↔ (status = ProvenLocalInfeasible ∨ status = ProvenInfeasible
          ∨ status = ProvenObjectiveCutOff
          ∨ ((status = ProvenOptimal ∨ status = ProvenLocalOptimal) ∧ b.trustCutoff_ = true
            ∧ ∃ c : ℚ, chcutoff = .finite c ∧ change > c - b.eTol_)))
    ∧ shouldPrune_ b chcutoff change EngineIterationLimit is_rel = .ok (false, is_rel, b)
    ∧ shouldPrune_ b (Cutoff.infinity.sub objval) change ProvenOptimal is_rel
        = .ok (false, is_rel, b)
    ∧ shouldPrune_ b (Cutoff.infinity.sub objval) change ProvenLocalOptimal is_rel
        = .ok (false, is_rel, b) := by
  have hlt : (chcutoff.sub b.eTol_).ltBy change = true
      ↔ ∃ c : ℚ, chcutoff = .finite c ∧ change > c - b.eTol_ := by
    cases chcutoff with
    | finite c => simp [Cutoff.sub, Cutoff.ltBy]
    | infinity => simp [Cutoff.sub, Cutoff.ltBy]
  refine ⟨?_, rfl, ?_, ?_⟩
  · rw [← hlt]
    cases status <;> simp [shouldPrune_]
    · cases ht : b.trustCutoff_ <;> cases hl : (chcutoff.sub b.eTol_).ltBy change
        <;> cases is_rel <;> simp
    · cases ht : b.trustCutoff_ <;> cases hl : (chcutoff.sub b.eTol_).ltBy change
        <;> cases is_rel <;> simp
    · cases hn : b.ndebug <;> simp
  · simp [shouldPrune_, Cutoff.sub, Cutoff.ltBy]
  · simp [shouldPrune_, Cutoff.sub, Cutoff.ltBy]

/-! ## Failed constraint qualification and unknown statuses -/

/-- Once the reliability flag is false, no call of `shouldPrune_` that returns
sets it again. -/
theorem shouldPrune_flag_false (b b1 : ParReliabilityBrancher) (chcutoff : Cutoff) (change : ℚ)
    (status : EngineStatus) (p r : Bool)
    (h : shouldPrune_ b chcutoff change status false = .ok (p, r, b1)) : r = false := by
  cases status <;> simp [shouldPrune_] at h
  all_goals first
    | exact h.2.1
    | (split at h <;> simp at h <;> exact h.2.1)

/-- A call of `shouldPrune_` returns unless it meets `EngineUnknownStatus`
with assertions on; a failed constraint qualification and an unrecognised
status leave the reliability flag false. -/
theorem shouldPrune_returns (b : ParReliabilityBrancher) (chcutoff : Cutoff) (change : ℚ)
    (status : EngineStatus) (is_rel : Bool)
    (h : status = EngineUnknownStatus → b.ndebug = true) :
    ∃ (p r : Bool) (b1 : ParReliabilityBrancher),
      shouldPrune_ b chcutoff change status is_rel = .ok (p, r, b1)
      ∧ b1.ndebug = b.ndebug
      ∧ ((status = ProvenFailedCQFeas ∨ status = ProvenFailedCQInfeas
          ∨ ∃ c : Nat, status = otherStatus c) → r = false) := by
  cases status
  case EngineUnknownStatus =>
    exact ⟨false, is_rel, b, by simp [shouldPrune_, h rfl], rfl, by simp⟩
  case ProvenOptimal =>
    simp only [shouldPrune_]
    split
    · exact ⟨_, _, _, rfl, rfl, by simp⟩
    · exact ⟨_, _, _, rfl, rfl, by simp⟩
  case ProvenLocalOptimal =>
    simp only [shouldPrune_]
    split
    · exact ⟨_, _, _, rfl, rfl, by simp⟩
    · exact ⟨_, _, _, rfl, rfl, by simp⟩
  all_goals exact ⟨_, _, _, rfl, rfl, by simp⟩

/-- C28, as the code has it: for a failed constraint qualification
(`ProvenFailedCQFeas`, `ProvenFailedCQInfeas`) `shouldPrune_` returns false
and marks the observation unreliable, and `engProbs` is not changed; for an
unrecognised status it returns false, marks the observation unreliable and
increments `engProbs` by 1; for `EngineUnknownStatus` the assertion fails,
and when assertions are compiled out it returns false with the flag and the
counter as they were.  When one of the two statuses of a strong branch is a
failed constraint qualification or unrecognised (and no assertion fails),
`useStrongBranchInfo_` reports both changes as 0 and changes neither the
ledger nor `status_` nor `mods_` nor `bndChange`: the pseudo-cost update is
skipped and the loop goes on. -/
theorem shouldPrune_engine_problem (b : ParReliabilityBrancher) (chcutoff : Cutoff)
    (change change_up change_down : ℚ) (is_rel : Bool) (code : Nat) (cand : BrCand)
    (status_up status_down : EngineStatus) :
    shouldPrune_ b chcutoff change ProvenFailedCQFeas is_rel = .ok (false, false, b)
    ∧ shouldPrune_ b chcutoff change ProvenFailedCQInfeas is_rel = .ok (false, false, b)
    ∧ shouldPrune_ b chcutoff change (otherStatus code) is_rel
        = .ok (false, false,
            { b with stats_ := { b.stats_ with engProbs := b.stats_.engProbs + 1 } })
    ∧ shouldPrune_ b chcutoff change EngineUnknownStatus is_rel
        = (if b.ndebug then .ok (false, is_rel, b) else .error .assertFailed)
    ∧ (((status_down = ProvenFailedCQFeas ∨ status_down = ProvenFailedCQInfeas
            ∨ ∃ c : Nat, status_down = otherStatus c)
          ∨ (status_up = ProvenFailedCQFeas ∨ status_up = ProvenFailedCQInfeas
            ∨ ∃ c : Nat, status_up = otherStatus c)) →
        (status_up = EngineUnknownStatus ∨ status_down = EngineUnknownStatus →
          b.ndebug = true) →
        ∃ b3 : ParReliabilityBrancher,
          useStrongBranchInfo_ b cand chcutoff change_up change_down status_up status_down
            = .ok (0, 0, b3)
          ∧ b3.pseudoUp_ = b.pseudoUp_ ∧ b3.pseudoDown_ = b.pseudoDown_
          ∧ b3.timesUp_ = b.timesUp_ ∧ b3.timesDown_ = b.timesDown_
          ∧ b3.status_ = b.status_ ∧ b3.mods_ = b.mods_
          ∧ b3.stats_.bndChange = b.stats_.bndChange) := by
  refine ⟨rfl, rfl, rfl, rfl, ?_⟩
  intro hprob hass
  obtain ⟨pd, r1, b1, h1, e1, f1⟩ := shouldPrune_returns b chcutoff change_down status_down true
    (fun h => hass (Or.inr h))
  obtain ⟨pu, r, b2, h2, -, f2⟩ := shouldPrune_returns b1 chcutoff change_up status_up r1
    (fun h => by rw [e1]; exact hass (Or.inl h))
  have hr : r = false := by
    rcases hprob with hp | hp
    · have : r1 = false := f1 hp
      subst this
      exact shouldPrune_flag_false _ _ _ _ _ _ _ h2
    · exact f2 hp
  subst hr
  obtain ⟨n, e⟩ := shouldPrune_twice _ _ _ _ _ _ _ _ _ _ _ _ _ h1 h2
  refine ⟨b2, ?_, ?_⟩
  · simp [useStrongBranchInfo_, h1, h2]
  · subst e
    exact ⟨rfl, rfl, rfl, rfl, rfl, rfl, rfl⟩

/-- Witness of C28 as amended: down side `ProvenFailedCQFeas`, up side
`ProvenInfeasible`: both changes are reported as 0 and nothing is pruned. -/
theorem shouldPrune_engine_problem_witness :
    ∃ b3 : ParReliabilityBrancher,
      useStrongBranchInfo_ (freshBrancher 1) (varCand 0 (1 / 2) (1 / 2)) (.finite 10) 3 2
          ProvenInfeasible ProvenFailedCQFeas = .ok (0, 0, b3)
      ∧ b3.pseudoUp_ = [0] ∧ b3.pseudoDown_ = [0] ∧ b3.timesUp_ = [0] ∧ b3.timesDown_ = [0]
      ∧ b3.status_ = NotModifiedByBrancher ∧ b3.mods_ = [] ∧ b3.stats_.bndChange = 0 :=
  (shouldPrune_engine_problem (freshBrancher 1) (.finite 10) 0 3 2 true 0
    (varCand 0 (1 / 2) (1 / 2)) ProvenInfeasible ProvenFailedCQFeas).2.2.2.2
    (Or.inl (Or.inl rfl)) (fun h => absurd h (by decide))

/-- C28 fails as stated: for `ProvenFailedCQFeas` the counter `engProbs` stays
at 0; for `EngineUnknownStatus` the call ends in the failed assertion, and
when assertions are compiled out it returns with the reliability flag still
true and the counter still 0. -/
theorem shouldPrune_engine_problem_counterexample :
    (∃ b1 : ParReliabilityBrancher,
      shouldPrune_ (freshBrancher 1) (.finite 10) 0 ProvenFailedCQFeas true
        = .ok (false, false, b1)
      ∧ b1.stats_.engProbs = 0 ∧ (freshBrancher 1).stats_.engProbs = 0)
    ∧ shouldPrune_ (freshBrancher 1) (.finite 10) 0 EngineUnknownStatus true
        = .error .assertFailed
    ∧ (∃ b1 : ParReliabilityBrancher,
      shouldPrune_ { freshBrancher 1 with ndebug := true } (.finite 10) 0 EngineUnknownStatus
          true
        = .ok (false, true, b1)
      ∧ b1.stats_.engProbs = 0) :=
  ⟨⟨_, rfl, rfl, rfl⟩, rfl, ⟨_, rfl, rfl⟩⟩

/-! ## Exactly one side pruned -/

/-- A call of `shouldPrune_` that returns with the reliability flag true has
not changed the brancher, and the flag was true before. -/
theorem shouldPrune_flag_true (b b1 : ParReliabilityBrancher) (chcutoff : Cutoff) (change : ℚ)
    (status : EngineStatus) (is_rel p : Bool)
    (h : shouldPrune_ b chcutoff change status is_rel = .ok (p, true, b1)) :
    is_rel = true ∧ b1 = b := by
  cases status <;> simp [shouldPrune_] at h
  all_goals first
    | exact ⟨h.2.1, h.2.2.symm⟩
    | (split at h <;> simp at h <;> exact ⟨h.2.1, h.2.2.symm⟩)

/-- C29, as the code has it: when the observation is reliable (no status is a
failed constraint qualification or unrecognised) and `shouldPrune_` holds for
exactly one side, `useStrongBranchInfo_` sets the status to
`ModifiedByBrancher`, appends exactly one modification to `mods_` (the down
modification when only the up side is pruned, the up modification when only
the down side is pruned) and adds 1 to `bndChange`; the strong-branching loop
then stops at this candidate, without touching the best candidate so far. -/
theorem useStrongBranchInfo_one_side (b b1 b2 : ParReliabilityBrancher) (cand : BrCand)
    (chcutoff : Cutoff) (change_up change_down : ℚ) (status_up status_down : EngineStatus)
    (pd pu r1 : Bool) (hd : Handler)
    (h1 : shouldPrune_ b chcutoff change_down status_down true = .ok (pd, r1, b1))
    (h2 : shouldPrune_ b1 chcutoff change_up status_up r1 = .ok (pu, true, b2))
    (hone : pd ≠ pu) (hh : getHandler b cand = some hd) :
    ∃ b3 : ParReliabilityBrancher,
      useStrongBranchInfo_ b cand chcutoff change_up change_down status_up status_down
        = .ok (change_up, change_down, b3)
      ∧ b3.status_ = ModifiedByBrancher
      ∧ b3.mods_ = b.mods_
          ++ [hd.getBrMod cand b.x_ (if pu = true then DownBranch else UpBranch)]
      ∧ b3.stats_.bndChange = b.stats_.bndChange + 1
      ∧ ∀ (rest : List BrCand) (s : BestSoFar) (objval : ℚ) (nodesProc maxcnt cnt : Nat)
          (bs : ParReliabilityBrancher) (o : StrongBranchOut),
          cnt < maxcnt → strongBranch_ bs cand = .ok (o, b) →
          change_up = max (o.obj_up - objval) 0 → change_down = max (o.obj_down - objval) 0 →
          status_up = o.status_up → status_down = o.status_down →
          strongLoop objval chcutoff nodesProc maxcnt cnt (cand :: rest) s bs
            = .ok (s, { b3 with
                lastStrBranched_ := vset b3.lastStrBranched_ cand.pCostIndex (nodesProc + 1) },
              cand :: rest) := by
  obtain ⟨hr1, e2⟩ := shouldPrune_flag_true _ _ _ _ _ _ _ h2
  subst hr1
  obtain ⟨-, e1⟩ := shouldPrune_flag_true _ _ _ _ _ _ _ h1
  subst e2
  subst e1
  cases pu <;> cases pd
  · exact absurd rfl hone
  · refine ⟨{ b2 with
        status_ := ModifiedByBrancher
        mods_ := b2.mods_ ++ [hd.getBrMod cand b2.x_ UpBranch]
        stats_ := { b2.stats_ with bndChange := b2.stats_.bndChange + 1 } }, ?_, rfl, rfl, rfl, ?_⟩
    · simp [useStrongBranchInfo_, h1, h2, hh]
    · intro rest s objval nodesProc maxcnt cnt bs o hcnt hsb e3 e4 e5 e6
      subst e3 e4 e5 e6
      simp [strongLoop, hcnt, hsb, useStrongBranchInfo_, h1, h2, hh]
  · refine ⟨{ b2 with
        status_ := ModifiedByBrancher
        mods_ := b2.mods_ ++ [hd.getBrMod cand b2.x_ DownBranch]
        stats_ := { b2.stats_ with bndChange := b2.stats_.bndChange + 1 } }, ?_, rfl, rfl, rfl, ?_⟩
    · simp [useStrongBranchInfo_, h1, h2, hh]
    · intro rest s objval nodesProc maxcnt cnt bs o hcnt hsb e3 e4 e5 e6
      subst e3 e4 e5 e6
      simp [strongLoop, hcnt, hsb, useStrongBranchInfo_, h1, h2, hh]
  · exact absurd rfl hone

/-- Witness of C29 as amended: up side `ProvenInfeasible`, down side
`EngineIterationLimit`: the down modification (id 0) is emitted. -/
theorem useStrongBranchInfo_one_side_witness :
    ∃ b3 : ParReliabilityBrancher,
      useStrongBranchInfo_ (oneCandBrancher (EngineIterationLimit, 0) (ProvenInfeasible, 0))
          ((varCand 0 (1 / 2) (1 / 2)).setHandler 0) (.finite 10) 0 0
          ProvenInfeasible EngineIterationLimit
        = .ok (0, 0, b3)
      ∧ b3.status_ = ModifiedByBrancher ∧ b3.mods_ = [⟨0⟩] ∧ b3.stats_.bndChange = 1 := by
  obtain ⟨b3, e1, e2, e3, e4, -⟩ := useStrongBranchInfo_one_side
    (oneCandBrancher (EngineIterationLimit, 0) (ProvenInfeasible, 0)) _ _
    ((varCand 0 (1 / 2) (1 / 2)).setHandler 0) (.finite 10) 0 0
    ProvenInfeasible EngineIterationLimit false true true
    (simpleHandler [varCand 0 (1 / 2) (1 / 2)] [] (some (twoBranches (1 / 2))))
    rfl rfl (by decide) rfl
  exact ⟨b3, e1, e2, e3, e4⟩

/-- C29 fails as stated: with down side `ProvenInfeasible` (to be pruned) and
up side `ProvenFailedCQFeas` (not to be pruned) exactly one side should be
pruned according to `shouldPrune_`, but `useStrongBranchInfo_` leaves the
status at `NotModifiedByBrancher`, appends no modification and does not
change `bndChange`. -/
theorem useStrongBranchInfo_one_side_counterexample :
    shouldPrune_ (oneCandBrancher (ProvenInfeasible, 0) (ProvenFailedCQFeas, 0)) (.finite 10) 0
        ProvenInfeasible true
      = .ok (true, true, oneCandBrancher (ProvenInfeasible, 0) (ProvenFailedCQFeas, 0))
    ∧ shouldPrune_ (oneCandBrancher (ProvenInfeasible, 0) (ProvenFailedCQFeas, 0)) (.finite 10) 0
        ProvenFailedCQFeas true
      = .ok (false, false, oneCandBrancher (ProvenInfeasible, 0) (ProvenFailedCQFeas, 0))
    ∧ ∃ b3 : ParReliabilityBrancher,
      useStrongBranchInfo_ (oneCandBrancher (ProvenInfeasible, 0) (ProvenFailedCQFeas, 0))
          ((varCand 0 (1 / 2) (1 / 2)).setHandler 0) (.finite 10) 0 0
          ProvenFailedCQFeas ProvenInfeasible
        = .ok (0, 0, b3)
      ∧ b3.status_ = NotModifiedByBrancher ∧ b3.mods_ = [] ∧ b3.stats_.bndChange = 0 :=
  ⟨rfl, rfl, _, rfl, rfl, rfl, rfl⟩

/-! ## Merge and classification of the candidates -/

/-- A merge at index `j` leaves the entries at every other index alone. -/
theorem mergeAt_other (b : ParReliabilityBrancher) (w : Snapshot) (i j : Int) (h : j ≠ i) :
    (∀ d, vget (mergeAt b w j).timesUp i d = vget w.timesUp i d)
    ∧ (∀ d, vget (mergeAt b w j).timesDown i d = vget w.timesDown i d)
    ∧ (∀ d, vget (mergeAt b w j).pseudoUp i d = vget w.pseudoUp i d)
    ∧ (∀ d, vget (mergeAt b w j).pseudoDown i d = vget w.pseudoDown i d) := by
  refine ⟨fun d => ?_, fun d => ?_, fun d => ?_, fun d => ?_⟩
  · simp only [mergeAt]; exact vget_vset_ne _ _ _ _ _ h
  · simp only [mergeAt]; exact vget_vset_ne _ _ _ _ _ h
  · simp only [mergeAt]
    split
    · exact vget_vset_ne _ _ _ _ _ h
    · rfl
  · simp only [mergeAt]
    split
    · exact vget_vset_ne _ _ _ _ _ h
    · rfl

/-- A merge keeps the lengths of the four vectors. -/
theorem mergeAt_length (b : ParReliabilityBrancher) (w : Snapshot) (j : Int) :
    (mergeAt b w j).timesUp.length = w.timesUp.length
    ∧ (mergeAt b w j).timesDown.length = w.timesDown.length
    ∧ (mergeAt b w j).pseudoUp.length = w.pseudoUp.length
    ∧ (mergeAt b w j).pseudoDown.length = w.pseudoDown.length := by
  refine ⟨?_, ?_, ?_, ?_⟩
  · simp only [mergeAt]; exact length_vset _ _ _
  · simp only [mergeAt]; exact length_vset _ _ _
  · simp only [mergeAt]
    split
    · exact length_vset _ _ _
    · rfl
  · simp only [mergeAt]
    split
    · exact length_vset _ _ _
    · rfl

/-- The loop of merges leaves the entries at the index of no candidate alone. -/
theorem mergeLoop_other (b : ParReliabilityBrancher) (i : Int) (cands : List BrCand) :
    ∀ w : Snapshot, (∀ c ∈ cands, c.pCostIndex ≠ i) →
      (∀ d, vget (mergeLoop b cands w).timesUp i d = vget w.timesUp i d)
      ∧ (∀ d, vget (mergeLoop b cands w).timesDown i d = vget w.timesDown i d)
      ∧ (∀ d, vget (mergeLoop b cands w).pseudoUp i d = vget w.pseudoUp i d)
      ∧ (∀ d, vget (mergeLoop b cands w).pseudoDown i d = vget w.pseudoDown i d) := by
  induction cands with
  | nil => intro w _; exact ⟨fun _ => rfl, fun _ => rfl, fun _ => rfl, fun _ => rfl⟩
  | cons c rest ih =>
    intro w h
    obtain ⟨a1, a2, a3, a4⟩ := ih (mergeAt b w c.pCostIndex)
      (fun c1 hc1 => h c1 (List.mem_cons_of_mem _ hc1))
    obtain ⟨m1, m2, m3, m4⟩ := mergeAt_other b w i c.pCostIndex (h c (List.mem_cons_self _ _))
    refine ⟨fun d => ?_, fun d => ?_, fun d => ?_, fun d => ?_⟩
    · show vget (mergeLoop b rest (mergeAt b w c.pCostIndex)).timesUp i d = _
      rw [a1, m1]
    · show vget (mergeLoop b rest (mergeAt b w c.pCostIndex)).timesDown i d = _
      rw [a2, m2]
    · show vget (mergeLoop b rest (mergeAt b w c.pCostIndex)).pseudoUp i d = _
      rw [a3, m3]
    · show vget (mergeLoop b rest (mergeAt b w c.pCostIndex)).pseudoDown i d = _
      rw [a4, m4]

/-- The loop of merges keeps the lengths of the four vectors. -/
theorem mergeLoop_length (b : ParReliabilityBrancher) (cands : List BrCand) :
    ∀ w : Snapshot,
      (mergeLoop b cands w).timesUp.length = w.timesUp.length
      ∧ (mergeLoop b cands w).timesDown.length = w.timesDown.length
      ∧ (mergeLoop b cands w).pseudoUp.length = w.pseudoUp.length
      ∧ (mergeLoop b cands w).pseudoDown.length = w.pseudoDown.length := by
  induction cands with
  | nil => intro w; exact ⟨rfl, rfl, rfl, rfl⟩
  | cons c rest ih =>
    intro w
    obtain ⟨a1, a2, a3, a4⟩ := ih (mergeAt b w c.pCostIndex)
    obtain ⟨m1, m2, m3, m4⟩ := mergeAt_length b w c.pCostIndex
    exact ⟨a1.trans m1, a2.trans m2, a3.trans m3, a4.trans m4⟩

/-- With pairwise different indices, the reliability test and the score of a
candidate read the same values right after its merge and at the end of the
loop. -/
theorem mergeLoop_head (b : ParReliabilityBrancher) (nodesProc : Nat) (c : BrCand)
    (rest : List BrCand) (w : Snapshot) (h : DistinctIndices (c :: rest)) :
    reliableAt b nodesProc (mergeLoop b (c :: rest) w) c.pCostIndex
        = reliableAt b nodesProc (mergeAt b w c.pCostIndex) c.pCostIndex
    ∧ unrelScore (mergeLoop b (c :: rest) w) c = unrelScore (mergeAt b w c.pCostIndex) c := by
  have hne : ∀ c1 ∈ rest, c1.pCostIndex ≠ c.pCostIndex :=
    fun c1 hc1 => Ne.symm ((List.pairwise_cons.mp h).1 c1 hc1)
  obtain ⟨a1, a2, a3, a4⟩ := mergeLoop_other b c.pCostIndex rest (mergeAt b w c.pCostIndex) hne
  constructor
  · simp only [reliableAt, mergeLoop, a1, a2]
  · simp only [unrelScore, mergeLoop, a1, a2, a3, a4]

/-- The loop over `cands` in `findCandidates_`, in one formula: the snapshot
is merged at every index, the candidates that pass the reliability test go to
`relCands_` in their order, the others go to `unrelCands_` with their score. -/
theorem classifyLoop_eq (b : ParReliabilityBrancher) (nodesProc : Nat) (cands : List BrCand) :
    ∀ (w : Snapshot) (rel unrel : List BrCand), DistinctIndices cands →
      classifyLoop b nodesProc cands w rel unrel
        = (mergeLoop b cands w,
            rel ++ cands.filter
              (fun c => reliableAt b nodesProc (mergeLoop b cands w) c.pCostIndex),
            unrel ++ (cands.filter
              (fun c => !reliableAt b nodesProc (mergeLoop b cands w) c.pCostIndex)).map
                (fun c => { c with score := unrelScore (mergeLoop b cands w) c })) := by
  induction cands with
  | nil => intro w rel unrel _; simp [classifyLoop, mergeLoop]
  | cons c rest ih =>
    intro w rel unrel h
    have hrest : DistinctIndices rest := (List.pairwise_cons.mp h).2
    obtain ⟨e1, e2⟩ := mergeLoop_head b nodesProc c rest w h
    have e2a : unrelScore (mergeLoop b rest (mergeAt b w c.pCostIndex)) c
        = unrelScore (mergeAt b w c.pCostIndex) c := e2
    simp only [classifyLoop]
    split
    · next hr =>
      have hr1 : reliableAt b nodesProc (mergeLoop b rest (mergeAt b w c.pCostIndex))
          c.pCostIndex = true := by
        have := e1
        simp only [mergeLoop] at this
        rw [this]; simpa [reliableAt] using hr
      rw [ih _ _ _ hrest]
      simp [mergeLoop, List.filter_cons, hr1]
    · next hr =>
      have hr1 : reliableAt b nodesProc (mergeLoop b rest (mergeAt b w c.pCostIndex))
          c.pCostIndex = false := by
        have := e1
        simp only [mergeLoop] at this
        rw [this]; simpa [reliableAt] using hr
      rw [ih _ _ _ hrest]
      simp [mergeLoop, List.filter_cons, hr1]
      rw [e2a]
      simp [unrelScore]

/-- The call `findCandidates_` when no handler reports infeasibility or
modifications, in one formula; `col` is what the loop over the handlers
collects. -/
theorem findCandidates_eq (b : ParReliabilityBrancher) (w : Snapshot) (nodesProc : Nat)
    (col : Collected) (hcol : collectLoop b.x_ b.handlers_ 0 b.mods_ [] [] = col)
    (hrel : b.relCands_ = []) (hunrel : b.unrelCands_ = [])
    (hearly : col.early = none) (hdist : DistinctIndices col.cands) :
    findCandidates_ b w nodesProc
      = .ok (mergeLoop b col.cands w,
          { b with
            mods_ := col.mods
            relCands_ := col.cands.filter
                (fun c => reliableAt b nodesProc (mergeLoop b col.cands w) c.pCostIndex)
              ++ col.gencands
            unrelCands_ := stdSort CompareScore
              ((col.cands.filter
                (fun c => !reliableAt b nodesProc (mergeLoop b col.cands w) c.pCostIndex)).map
                (fun c => { c with score := unrelScore (mergeLoop b col.cands w) c })) }) := by
  subst hcol
  simp only [findCandidates_, hrel, hunrel, List.isEmpty_nil, Bool.not_true, Bool.and_false,
    Bool.false_eq_true, if_false, hearly, classifyLoop_eq b nodesProc _ w [] [] hdist,
    List.nil_append]

/-- The unsigned difference of a smaller and a larger counter wraps around. -/
theorem uintSub_wrap (a c : Nat) (h : a < c) (h32 : c < 2 ^ 32) :
    uintSub a c = 2 ^ 32 - (c - a) := by
  unfold uintSub
  norm_num
  omega

/-- C21 does not hold on the code: when `nodesProc` is below
`lastStrBranched_[idx]`, the unsigned difference `nodesProc -
lastStrBranched_[idx]` wraps around before `fabs` is taken, so a variable
candidate whose absolute counter difference is below `minNodeDist_` and whose
merged counts are below `thresh_` is placed in the unreliable list and not in
the reliable one. -/
theorem findCandidates_recent_wraps (b : ParReliabilityBrancher) (w : Snapshot)
    (nodesProc : Nat) (col : Collected) (cand : BrCand)
    (hcol : collectLoop b.x_ b.handlers_ 0 b.mods_ [] [] = col)
    (hrel : b.relCands_ = []) (hunrel : b.unrelCands_ = [])
    (hearly : col.early = none) (hdist : DistinctIndices col.cands)
    (hmem : cand ∈ col.cands) (hgen : cand ∉ col.gencands)
    (hlt : nodesProc < vget b.lastStrBranched_ cand.pCostIndex 0)
    (h32 : vget b.lastStrBranched_ cand.pCostIndex 0 < 2 ^ 32)
    (hmin : b.minNodeDist_ ≤ 2 ^ 31)
    (hnear : |(nodesProc : Int) - ((vget b.lastStrBranched_ cand.pCostIndex 0 : Nat) : Int)|
      < (b.minNodeDist_ : Int)) :
    ∃ (w1 : Snapshot) (b1 : ParReliabilityBrancher),
      findCandidates_ b w nodesProc = .ok (w1, b1)
      ∧ (¬ (vget w1.timesUp cand.pCostIndex 0 ≥ b.thresh_
            ∧ vget w1.timesDown cand.pCostIndex 0 ≥ b.thresh_) →
          cand ∉ b1.relCands_
          ∧ { cand with score := unrelScore w1 cand } ∈ b1.unrelCands_) := by
  refine ⟨_, _, findCandidates_eq b w nodesProc col hcol hrel hunrel hearly hdist, ?_⟩
  intro hcount
  have hwrap := uintSub_wrap _ _ hlt h32
  have habs : |(nodesProc : Int) - ((vget b.lastStrBranched_ cand.pCostIndex 0 : Nat) : Int)|
      = ((vget b.lastStrBranched_ cand.pCostIndex 0 : Nat) : Int) - (nodesProc : Int) := by
    rw [abs_of_neg (by omega)]; ring
  rw [habs] at hnear
  have hfar : ¬ b.minNodeDist_ > uintSub nodesProc (vget b.lastStrBranched_ cand.pCostIndex 0) := by
    rw [hwrap]
    have : (2 : Nat) ^ 32 = 2 ^ 31 + 2 ^ 31 := by norm_num
    omega
  have hnot : reliableAt b nodesProc (mergeLoop b col.cands w) cand.pCostIndex = false := by
    simp only [reliableAt, decide_eq_false_iff_not, not_or]
    exact ⟨hfar, hcount⟩
  constructor
  · simp only [List.mem_append, List.mem_filter, hnot, not_or]
    exact ⟨fun h => absurd h.2 (by simp), hgen⟩
  · show _ ∈ stdSort CompareScore _
    rw [stdSort, (List.perm_insertionSort _ _).mem_iff]
    exact List.mem_map.mpr ⟨cand, List.mem_filter.mpr ⟨hmem, by simp [hnot]⟩, rfl⟩

/-- The failing input of C21: a fresh brancher (so `lastStrBranched_[0] =
20000`) called with `nodesProc = 19990`.  The absolute counter difference is
10, below `minNodeDist_ = 50`, but the candidate for variable 0 is placed in
the unreliable list. -/
theorem findCandidates_recent_wraps_witness :
    |((19990 : Nat) : Int) - ((20000 : Nat) : Int)| < ((50 : Nat) : Int)
    ∧ ∃ (w1 : Snapshot) (b1 : ParReliabilityBrancher),
      findCandidates_
          (beginCall (oneCandStart (EngineIterationLimit, 0) (EngineIterationLimit, 0)) ⟨1⟩
            ⟨[1 / 2], 0⟩)
          (zeroSnapshot 1) 19990
        = .ok (w1, b1)
      ∧ (varCand 0 (1 / 2) (1 / 2)).setHandler 0 ∉ b1.relCands_
      ∧ { (varCand 0 (1 / 2) (1 / 2)).setHandler 0 with
            score := unrelScore w1 ((varCand 0 (1 / 2) (1 / 2)).setHandler 0) }
          ∈ b1.unrelCands_ := by
  have hb : (beginCall (oneCandStart (EngineIterationLimit, 0) (EngineIterationLimit, 0)) ⟨1⟩
      ⟨[1 / 2], 0⟩).lastStrBranched_ = [20000] := rfl
  have hm : (beginCall (oneCandStart (EngineIterationLimit, 0) (EngineIterationLimit, 0)) ⟨1⟩
      ⟨[1 / 2], 0⟩).minNodeDist_ = 50 := rfl
  have hnear : |((19990 : Nat) : Int) - ((20000 : Nat) : Int)| < ((50 : Nat) : Int) := by
    norm_num [abs_lt]
  obtain ⟨w1, b1, e, himp⟩ := findCandidates_recent_wraps
    (beginCall (oneCandStart (EngineIterationLimit, 0) (EngineIterationLimit, 0)) ⟨1⟩
      ⟨[1 / 2], 0⟩)
    (zeroSnapshot 1) 19990 ⟨[], [(varCand 0 (1 / 2) (1 / 2)).setHandler 0], [], none⟩
    ((varCand 0 (1 / 2) (1 / 2)).setHandler 0) rfl rfl rfl rfl
    (by simp [DistinctIndices]) (by simp) (by simp)
    (by rw [hb]; decide) (by rw [hb]; decide) (by rw [hm]; decide)
    (by rw [hb, hm]; exact hnear)
  refine ⟨hnear, w1, b1, e, himp ?_⟩
  have e1 := findCandidates_eq
    (beginCall (oneCandStart (EngineIterationLimit, 0) (EngineIterationLimit, 0)) ⟨1⟩
      ⟨[1 / 2], 0⟩)
    (zeroSnapshot 1) 19990 ⟨[], [(varCand 0 (1 / 2) (1 / 2)).setHandler 0], [], none⟩
    rfl rfl rfl rfl (by simp [DistinctIndices])
  rw [e1] at e
  simp only [Except.ok.injEq, Prod.mk.injEq] at e
  rw [← e.1]
  decide

/-- The entries at the index `n` of a merge at `n`, for an index within the
four vectors. -/
theorem mergeAt_same (b : ParReliabilityBrancher) (w : Snapshot) (n : Nat)
    (h1 : n < w.timesUp.length) (h2 : n < w.timesDown.length)
    (h3 : n < w.pseudoUp.length) (h4 : n < w.pseudoDown.length) :
    vget (mergeAt b w n).timesUp n 0 = vget w.timesUp n 0 + vget b.timesUp_ n 0
    ∧ vget (mergeAt b w n).timesDown n 0 = vget w.timesDown n 0 + vget b.timesDown_ n 0
    ∧ vget (mergeAt b w n).pseudoUp n 0
        = (if vget w.timesUp n 0 + vget b.timesUp_ n 0 ≠ 0 then
            (vget w.pseudoUp n 0 + vget b.pseudoUp_ n 0 * ((vget b.timesUp_ n 0 : Nat) : ℚ))
              / ((vget w.timesUp n 0 + vget b.timesUp_ n 0 : Nat) : ℚ)
          else vget w.pseudoUp n 0)
    ∧ vget (mergeAt b w n).pseudoDown n 0
        = (if vget w.timesDown n 0 + vget b.timesDown_ n 0 ≠ 0 then
            (vget w.pseudoDown n 0 + vget b.pseudoDown_ n 0 * ((vget b.timesDown_ n 0 : Nat) : ℚ))
              / ((vget w.timesDown n 0 + vget b.timesDown_ n 0 : Nat) : ℚ)
          else vget w.pseudoDown n 0) := by
  have e1 : vget (vset w.timesUp n (vget w.timesUp n 0 + vget b.timesUp_ n 0)) n 0
      = vget w.timesUp n 0 + vget b.timesUp_ n 0 := vget_vset_same _ _ _ _ h1
  have e2 : vget (vset w.timesDown n (vget w.timesDown n 0 + vget b.timesDown_ n 0)) n 0
      = vget w.timesDown n 0 + vget b.timesDown_ n 0 := vget_vset_same _ _ _ _ h2
  refine ⟨e1, e2, ?_, ?_⟩
  · simp only [mergeAt, e1]
    split
    · rw [vget_vset_same _ _ _ _ h3]
    · rfl
  · simp only [mergeAt, e2]
    split
    · rw [vget_vset_same _ _ _ _ h4]
    · rfl

/-- With pairwise different indices within the vectors, the entries of the
merged snapshot at the index of a candidate are those of the one merge at that
index, computed from the entries of the snapshot before the loop. -/
theorem mergeLoop_at (b : ParReliabilityBrancher) (cands : List BrCand) :
    ∀ (w : Snapshot), DistinctIndices cands →
      ∀ (c : BrCand) (n : Nat), c ∈ cands → c.pCostIndex = n →
        n < w.timesUp.length → n < w.timesDown.length →
        n < w.pseudoUp.length → n < w.pseudoDown.length →
        vget (mergeLoop b cands w).timesUp n 0 = vget (mergeAt b w n).timesUp n 0
        ∧ vget (mergeLoop b cands w).timesDown n 0 = vget (mergeAt b w n).timesDown n 0
        ∧ vget (mergeLoop b cands w).pseudoUp n 0 = vget (mergeAt b w n).pseudoUp n 0
        ∧ vget (mergeLoop b cands w).pseudoDown n 0 = vget (mergeAt b w n).pseudoDown n 0 := by
  induction cands with
  | nil => intro w _ c n hc; exact absurd hc (List.not_mem_nil _)
  | cons c0 rest ih =>
    intro w hd c n hc hn h1 h2 h3 h4
    have hne : ∀ c1 ∈ rest, c1.pCostIndex ≠ c0.pCostIndex :=
      fun c1 hc1 => Ne.symm ((List.pairwise_cons.mp hd).1 c1 hc1)
    rcases List.mem_cons.mp hc with hc | hc
    · subst hc
      obtain ⟨a1, a2, a3, a4⟩ := mergeLoop_other b c.pCostIndex rest (mergeAt b w c.pCostIndex) hne
      rw [hn] at a1 a2 a3 a4
      have hml : mergeLoop b (c :: rest) w = mergeLoop b rest (mergeAt b w n) := by
        rw [← hn]; rfl
      rw [hml]
      exact ⟨a1 0, a2 0, a3 0, a4 0⟩
    · have hne0 : c0.pCostIndex ≠ (n : Int) := by
        rw [← hn]; exact Ne.symm (hne c hc)
      obtain ⟨m1, m2, m3, m4⟩ := mergeAt_other b w n c0.pCostIndex hne0
      obtain ⟨l1, l2, l3, l4⟩ := mergeAt_length b w c0.pCostIndex
      obtain ⟨a1, a2, a3, a4⟩ := ih (mergeAt b w c0.pCostIndex) (List.pairwise_cons.mp hd).2 c n
        hc hn (by rw [l1]; exact h1) (by rw [l2]; exact h2) (by rw [l3]; exact h3)
        (by rw [l4]; exact h4)
      obtain ⟨s1, s2, s3, s4⟩ := mergeAt_same b (mergeAt b w c0.pCostIndex) n
        (by rw [l1]; exact h1) (by rw [l2]; exact h2) (by rw [l3]; exact h3)
        (by rw [l4]; exact h4)
      obtain ⟨t1, t2, t3, t4⟩ := mergeAt_same b w n h1 h2 h3 h4
      refine ⟨?_, ?_, ?_, ?_⟩
      · show vget (mergeLoop b rest (mergeAt b w c0.pCostIndex)).timesUp n 0 = _
        rw [a1, s1, t1, m1]
      · show vget (mergeLoop b rest (mergeAt b w c0.pCostIndex)).timesDown n 0 = _
        rw [a2, s2, t2, m2]
      · show vget (mergeLoop b rest (mergeAt b w c0.pCostIndex)).pseudoUp n 0 = _
        rw [a3, s3, t3, m1, m3]
      · show vget (mergeLoop b rest (mergeAt b w c0.pCostIndex)).pseudoDown n 0 = _
        rw [a4, s4, t4, m2, m4]

/-- C22: when no handler reports infeasibility or modifications and the
candidates have pairwise different indices within the vectors,
`findCandidates_` merges the local ledger into the working snapshot at the
index of every variable candidate: `times_up[idx]` becomes `times_up[idx] +
timesUp_[idx]`; if the new count is positive, `pseudo_up[idx]` becomes
`(pseudo_up[idx] + pseudoUp_[idx]·timesUp_[idx]) / times_up[idx]` with the
new count, otherwise it is unchanged; likewise for down.  The entries at the
index of no candidate, the lengths of the vectors and the local ledger of the
brancher are unchanged. -/
theorem findCandidates_merge (b : ParReliabilityBrancher) (w : Snapshot) (nodesProc : Nat)
    (col : Collected) (hcol : collectLoop b.x_ b.handlers_ 0 b.mods_ [] [] = col)
    (hrel : b.relCands_ = []) (hunrel : b.unrelCands_ = [])
    (hearly : col.early = none) (hdist : DistinctIndices col.cands)
    (hrange : ∀ c ∈ col.cands, ∃ n : Nat, c.pCostIndex = n
      ∧ n < w.timesUp.length ∧ n < w.timesDown.length
      ∧ n < w.pseudoUp.length ∧ n < w.pseudoDown.length) :
    ∃ (w1 : Snapshot) (b1 : ParReliabilityBrancher),
      findCandidates_ b w nodesProc = .ok (w1, b1)
      ∧ (∀ c ∈ col.cands,
          vget w1.timesUp c.pCostIndex 0
            = vget w.timesUp c.pCostIndex 0 + vget b.timesUp_ c.pCostIndex 0
          ∧ (vget w1.timesUp c.pCostIndex 0 > 0 →
              vget w1.pseudoUp c.pCostIndex 0
                = (vget w.pseudoUp c.pCostIndex 0
                    + vget b.pseudoUp_ c.pCostIndex 0
                      * ((vget b.timesUp_ c.pCostIndex 0 : Nat) : ℚ))
                  / ((vget w1.timesUp c.pCostIndex 0 : Nat) : ℚ))
          ∧ (vget w1.timesUp c.pCostIndex 0 = 0 →
              vget w1.pseudoUp c.pCostIndex 0 = vget w.pseudoUp c.pCostIndex 0)
          ∧ vget w1.timesDown c.pCostIndex 0
            = vget w.timesDown c.pCostIndex 0 + vget b.timesDown_ c.pCostIndex 0
          ∧ (vget w1.timesDown c.pCostIndex 0 > 0 →
              vget w1.pseudoDown c.pCostIndex 0
                = (vget w.pseudoDown c.pCostIndex 0
                    + vget b.pseudoDown_ c.pCostIndex 0
                      * ((vget b.timesDown_ c.pCostIndex 0 : Nat) : ℚ))
                  / ((vget w1.timesDown c.pCostIndex 0 : Nat) : ℚ))
          ∧ (vget w1.timesDown c.pCostIndex 0 = 0 →
              vget w1.pseudoDown c.pCostIndex 0 = vget w.pseudoDown c.pCostIndex 0))
      ∧ (∀ i : Int, (∀ c ∈ col.cands, c.pCostIndex ≠ i) →
          (∀ d, vget w1.timesUp i d = vget w.timesUp i d)
          ∧ (∀ d, vget w1.timesDown i d = vget w.timesDown i d)
          ∧ (∀ d, vget w1.pseudoUp i d = vget w.pseudoUp i d)
          ∧ (∀ d, vget w1.pseudoDown i d = vget w.pseudoDown i d))
      ∧ (w1.timesUp.length = w.timesUp.length ∧ w1.timesDown.length = w.timesDown.length
          ∧ w1.pseudoUp.length = w.pseudoUp.length
          ∧ w1.pseudoDown.length = w.pseudoDown.length)
      ∧ b1.pseudoUp_ = b.pseudoUp_ ∧ b1.pseudoDown_ = b.pseudoDown_
      ∧ b1.timesUp_ = b.timesUp_ ∧ b1.timesDown_ = b.timesDown_
      ∧ b1.lastStrBranched_ = b.lastStrBranched_ := by
  refine ⟨_, _, findCandidates_eq b w nodesProc col hcol hrel hunrel hearly hdist, ?_,
    fun i hi => mergeLoop_other b i col.cands w hi, mergeLoop_length b col.cands w,
    rfl, rfl, rfl, rfl, rfl⟩
  intro c hc
  obtain ⟨n, hn, h1, h2, h3, h4⟩ := hrange c hc
  obtain ⟨a1, a2, a3, a4⟩ := mergeLoop_at b col.cands w hdist c n hc hn h1 h2 h3 h4
  obtain ⟨t1, t2, t3, t4⟩ := mergeAt_same b w n h1 h2 h3 h4
  rw [hn, a1, a2, a3, a4, t1, t2, t3, t4]
  refine ⟨rfl, fun h => ?_, fun h => ?_, rfl, fun h => ?_, fun h => ?_⟩
  · rw [if_pos (Nat.pos_iff_ne_zero.mp h)]
  · rw [if_neg (by simp only [ne_eq, Decidable.not_not]; exact h)]
  · rw [if_pos (Nat.pos_iff_ne_zero.mp h)]
  · rw [if_neg (by simp only [ne_eq, Decidable.not_not]; exact h)]

/-- Witness of C22: with `timesUp_[0] = 3`, `pseudoUp_[0] = 2` in the local
ledger and `times_up[0] = 1`, `pseudo_up[0] = 4` in the snapshot, the merged
count is 4 and the merged pseudo-cost is `(4 + 2·3) / 4`; the down entries of
variable 0, whose merged count is 0, are unchanged. -/
theorem findCandidates_merge_witness :
    ∃ (w1 : Snapshot) (b1 : ParReliabilityBrancher),
      findCandidates_ twoCandBrancher twoCandSnapshot 0 = .ok (w1, b1)
      ∧ vget w1.timesUp 0 0 = 4 ∧ vget w1.pseudoUp 0 0 = (4 + 2 * 3) / 4
      ∧ vget w1.timesDown 0 0 = 0 ∧ vget w1.pseudoDown 0 0 = 0
      ∧ b1.pseudoUp_ = [2, 0] ∧ b1.timesUp_ = [3, 0] := by
  obtain ⟨w1, b1, e, hc, -, -, e1, -, e3, -, -⟩ := findCandidates_merge twoCandBrancher
    twoCandSnapshot 0
    ⟨[], [(varCand 0 (1 / 2) (1 / 2)).setHandler 0, (varCand 1 (1 / 4) (3 / 4)).setHandler 0],
      [], none⟩
    rfl rfl rfl rfl (by simp [DistinctIndices, varCand, BrCand.setHandler])
    (by
      intro c hc
      simp only [List.mem_cons, List.mem_singleton, List.not_mem_nil, or_false] at hc
      rcases hc with hc | hc <;> subst hc
      · exact ⟨0, rfl, by decide, by decide, by decide, by decide⟩
      · exact ⟨1, rfl, by decide, by decide, by decide, by decide⟩)
  obtain ⟨c1, c2, -, c4, -, c6⟩ := hc ((varCand 0 (1 / 2) (1 / 2)).setHandler 0) (by simp)
  have hu : vget w1.timesUp 0 0 = 4 := c1
  have hd : vget w1.timesDown 0 0 = 0 := c4
  refine ⟨w1, b1, e, hu, ?_, hd, ?_, e1, e3⟩
  · have h := c2 (by rw [c1]; decide)
    rw [c1] at h
    rw [show vget w1.pseudoUp 0 0
        = vget w1.pseudoUp ((varCand 0 (1 / 2) (1 / 2)).setHandler 0).pCostIndex 0 from rfl, h]
    norm_num [vget, twoCandSnapshot, twoCandBrancher, varCand, BrCand.setHandler]
  · exact c6 c4

/-- The call `std::sort(..., CompareScore)` returns a permutation of its input
in non-decreasing order of the scores. -/
theorem stdSort_CompareScore (l : List BrCand) :
    (stdSort CompareScore l).Perm l
    ∧ (stdSort CompareScore l).Pairwise (fun a c => a.score ≤ c.score) := by
  have hrel : ∀ a c : BrCand, (CompareScore c a = false) ↔ a.score ≤ c.score := by
    intro a c
    simp [CompareScore]
  refine ⟨List.perm_insertionSort _ _, ?_⟩
  have htot : IsTotal BrCand (fun a c => CompareScore c a = false) :=
    ⟨fun a c => by rw [hrel, hrel]; exact le_total _ _⟩
  have htrans : IsTrans BrCand (fun a c => CompareScore c a = false) :=
    ⟨fun a c d h1 h2 => by rw [hrel] at *; exact le_trans h1 h2⟩
  have hs := List.sorted_insertionSort (fun a c : BrCand => CompareScore c a = false) l
  exact List.Pairwise.imp (fun {a c} h => (hrel a c).mp h) hs

/-- C23: when no handler reports infeasibility or modifications (and the
candidates have pairwise different indices), after `findCandidates_` every
candidate in the unreliable list carries the score `times_up + times_down −
1e-5·(pseudo_up + pseudo_down) − 1e-6·max(d_dist, u_dist)` computed from the
merged snapshot at its index, and the unreliable list is a permutation of the
candidates that fail the reliability test, with these scores, in
non-decreasing order of the score. -/
theorem findCandidates_unrel_sorted (b : ParReliabilityBrancher) (w : Snapshot)
    (nodesProc : Nat) (col : Collected)
    (hcol : collectLoop b.x_ b.handlers_ 0 b.mods_ [] [] = col)
    (hrel : b.relCands_ = []) (hunrel : b.unrelCands_ = [])
    (hearly : col.early = none) (hdist : DistinctIndices col.cands) :
    ∃ (w1 : Snapshot) (b1 : ParReliabilityBrancher),
      findCandidates_ b w nodesProc = .ok (w1, b1)
      ∧ (∀ c ∈ b1.unrelCands_,
          c.score
            = ((vget w1.timesUp c.pCostIndex 0 + vget w1.timesDown c.pCostIndex 0 : Nat) : ℚ)
              - (1 / 100000) * (vget w1.pseudoUp c.pCostIndex 0 + vget w1.pseudoDown c.pCostIndex 0)
              - (1 / 1000000) * max c.dDist c.uDist)
      ∧ b1.unrelCands_.Perm
          ((col.cands.filter (fun c => !reliableAt b nodesProc w1 c.pCostIndex)).map
            (fun c => { c with score := unrelScore w1 c }))
      ∧ b1.unrelCands_.Pairwise (fun a c => a.score ≤ c.score) := by
  obtain ⟨hperm, hsorted⟩ := stdSort_CompareScore
    ((col.cands.filter
      (fun c => !reliableAt b nodesProc (mergeLoop b col.cands w) c.pCostIndex)).map
      (fun c => { c with score := unrelScore (mergeLoop b col.cands w) c }))
  refine ⟨_, _, findCandidates_eq b w nodesProc col hcol hrel hunrel hearly hdist, ?_, hperm,
    hsorted⟩
  intro c hc
  obtain ⟨c0, -, e⟩ := List.mem_map.mp (hperm.mem_iff.mp hc)
  rw [← e]
  rfl

/-- Witness of C23: variable 0 has merged counts `(4, 0)` and variable 1 has
`(0, 0)`, both are unreliable, and the sort puts variable 1, whose score is
lower, first. -/
theorem findCandidates_unrel_sorted_witness :
    ∃ (w1 : Snapshot) (b1 : ParReliabilityBrancher),
      findCandidates_ twoCandBrancher twoCandSnapshot 0 = .ok (w1, b1)
      ∧ (∀ c ∈ b1.unrelCands_,
          c.score
            = ((vget w1.timesUp c.pCostIndex 0 + vget w1.timesDown c.pCostIndex 0 : Nat) : ℚ)
              - (1 / 100000) * (vget w1.pseudoUp c.pCostIndex 0 + vget w1.pseudoDown c.pCostIndex 0)
              - (1 / 1000000) * max c.dDist c.uDist)
      ∧ b1.unrelCands_.Pairwise (fun a c => a.score ≤ c.score)
      ∧ b1.unrelCands_.map (fun c => c.pCostIndex) = [1, 0] := by
  obtain ⟨w1, b1, e, h1, -, h3⟩ := findCandidates_unrel_sorted twoCandBrancher twoCandSnapshot 0
    ⟨[], [(varCand 0 (1 / 2) (1 / 2)).setHandler 0, (varCand 1 (1 / 4) (3 / 4)).setHandler 0],
      [], none⟩
    rfl rfl rfl rfl (by simp [DistinctIndices, varCand, BrCand.setHandler])
  refine ⟨w1, b1, e, h1, h3, ?_⟩
  have e1 : findCandidates_ twoCandBrancher twoCandSnapshot 0 = .ok (w1, b1) := e
  simp [findCandidates_, twoCandBrancher, twoCandSnapshot, collectLoop, simpleHandler, varCand,
    classifyLoop, stdSort, BrVarCandSet.insert, initializeLedger, ParReliabilityBrancher.new,
    BrCand.setHandler, mergeAt, vget, vset, uintSub, CompareScore] at e1
  norm_num at e1
  rw [← e1.2]
  simp

/-! ## The best candidate: first maximum of the traversal -/

theorem adoptAll_append (l1 l2 : List Scored) (s : BestSoFar) :
    adoptAll (l1 ++ l2) s = adoptAll l2 (adoptAll l1 s) := by
  simp only [adoptAll, List.foldl_append]

/-- A loop that scores by pseudo-costs is the block `adopt` along its
scorings. -/
theorem scoreByPCost_adoptAll (pseudoUp pseudoDown : List ℚ) (l : List BrCand) :
    ∀ s : BestSoFar,
      scoreByPCost pseudoUp pseudoDown l s = adoptAll (pcScored pseudoUp pseudoDown l) s := by
  induction l with
  | nil => intro s; rfl
  | cons c rest ih => intro s; simp only [scoreByPCost, ih]; rfl

/-- The strong-branching loop is the block `adopt` along its scorings, and
its iterator is left behind the candidates scored. -/
theorem strongLoop_adoptAll (objval : ℚ) (maxchange : Cutoff) (nodesProc maxcnt : Nat)
    (l : List BrCand) :
    ∀ (cnt : Nat) (s : BestSoFar) (b : ParReliabilityBrancher)
      (r : BestSoFar × ParReliabilityBrancher × List BrCand),
      strongLoop objval maxchange nodesProc maxcnt cnt l s b = .ok r →
      r.1 = adoptAll (strongScored objval maxchange nodesProc maxcnt cnt l b) s
      ∧ r.2.2 = l.drop (strongScored objval maxchange nodesProc maxcnt cnt l b).length
      ∧ (strongScored objval maxchange nodesProc maxcnt cnt l b).map (fun t => t.cand)
          = l.take (strongScored objval maxchange nodesProc maxcnt cnt l b).length := by
  induction l with
  | nil =>
    intro cnt s b r h
    simp only [strongLoop, Except.ok.injEq] at h
    subst h
    simp [strongScored, adoptAll]
  | cons cand rest ih =>
    intro cnt s b r h
    simp only [strongLoop] at h
    simp only [strongScored]
    split at h
    · next hcnt =>
      simp only [hcnt, if_true]
      split at h
      · exact absurd h (by simp)
      · next o b1 hsb =>
        try simp only [hsb]
        split at h
        · exact absurd h (by simp)
        · next cu cd b2 hus =>
          try simp only [hus]
          split at h
          · next hst =>
            simp only [Except.ok.injEq] at h
            subst h
            simp [hst, adoptAll]
          · next hst =>
            obtain ⟨a1, a2, a3⟩ := ih _ _ _ _ h
            simp only [hst, if_false]
            refine ⟨by rw [a1]; rfl, by simpa using a2, by simpa using a3⟩
    · next hcnt =>
      simp only [Except.ok.injEq] at h
      subst h
      simp [hcnt, adoptAll]

/-- A call of `findBestCandidate_` is the block `adopt` along the scorings
made: all of the traversal when the call ends with status
`NotModifiedByBrancher`, and the scorings before the loop was left
otherwise. -/
theorem findBestCandidateAux_adoptAll (b b1 : ParReliabilityBrancher) (objval : ℚ)
    (cutoff : Cutoff) (node : Node) (pseudoUp pseudoDown : List ℚ) (nodesProc : Nat)
    (s : BestSoFar)
    (h : findBestCandidateAux b objval cutoff node pseudoUp pseudoDown nodesProc = .ok (s, b1)) :
    ∃ tr : List Scored,
      s = adoptAll tr ⟨none, none, 0, 0⟩
      ∧ tr <+: traversal b objval cutoff node pseudoUp pseudoDown nodesProc
      ∧ (b1.status_ = NotModifiedByBrancher →
          tr = traversal b objval cutoff node pseudoUp pseudoDown nodesProc)
      ∧ (traversal b objval cutoff node pseudoUp pseudoDown nodesProc).map (fun t => t.cand)
          = b.relCands_ ++ b.unrelCands_ := by
  unfold findBestCandidateAux at h
  simp only at h
  split at h
  · split at h
    · exact absurd h (by simp)
    · split at h
      · exact absurd h (by simp)
      · next s1 b2 rest hloop =>
        obtain ⟨a1, a2, a3⟩ := strongLoop_adoptAll _ _ _ _ _ _ _ _ _ hloop
        simp only at a1 a2 a3
        have hmap : (traversal b objval cutoff node pseudoUp pseudoDown nodesProc).map
            (fun t => t.cand) = b.relCands_ ++ b.unrelCands_ := by
          simp only [traversal, List.map_append, a3]
          simp [pcScored, List.map_map, Function.comp_def]
        split at h
        · next hst =>
          simp only [Except.ok.injEq, Prod.mk.injEq] at h
          refine ⟨traversal b objval cutoff node pseudoUp pseudoDown nodesProc, ?_,
            List.prefix_refl _, fun _ => rfl, hmap⟩
          rw [← h.1, scoreByPCost_adoptAll, a1, a2, scoreByPCost_adoptAll]
          simp only [traversal, adoptAll_append]
        · next hst =>
          simp only [Except.ok.injEq, Prod.mk.injEq] at h
          refine ⟨pcScored pseudoUp pseudoDown b.relCands_
            ++ strongScored objval (cutoff.sub objval) nodesProc
              (if node.getDepth > b.maxDepth_ then 0 else b.maxStrongCands_) 0 b.unrelCands_ b,
            ?_, ?_, ?_, hmap⟩
          · rw [← h.1, a1, scoreByPCost_adoptAll, adoptAll_append]
          · simp only [traversal]
            exact List.prefix_append _ _
          · intro hn
            rw [← h.2] at hn
            exact absurd hn.symm hst
  · next hlen =>
    have hnil : b.unrelCands_ = [] := by
      cases hl : b.unrelCands_ with
      | nil => rfl
      | cons c cs => rw [hl] at hlen; simp at hlen
    simp only [Except.ok.injEq, Prod.mk.injEq] at h
    have htr : traversal b objval cutoff node pseudoUp pseudoDown nodesProc
        = pcScored pseudoUp pseudoDown b.relCands_ := by
      simp [traversal, hnil, strongScored, pcScored]
    refine ⟨traversal b objval cutoff node pseudoUp pseudoDown nodesProc, ?_,
      List.prefix_refl _, fun _ => rfl, ?_⟩
    · rw [← h.1, scoreByPCost_adoptAll, htr]
    · rw [htr, hnil]
      simp [pcScored, List.map_map, Function.comp_def]

/-- Every scoring of a loop that scores by pseudo-costs has its score computed
from its two changes, or belongs to a generic candidate, whose changes are
reported as 0 and whose score is its own. -/
theorem pcScored_scores (pseudoUp pseudoDown : List ℚ) (l : List BrCand) :
    ∀ t ∈ pcScored pseudoUp pseudoDown l,
      t.score = getScore_ t.change_up t.change_down
      ∨ (¬ t.cand.pCostIndex > -1 ∧ t.change_up = 0 ∧ t.change_down = 0
        ∧ t.score = t.cand.score) := by
  intro t ht
  obtain ⟨c, -, e⟩ := List.mem_map.mp ht
  subst e
  by_cases hidx : c.pCostIndex > -1
  · left
    simp only [getPCScore_, hidx, if_true]
  · right
    refine ⟨hidx, ?_, ?_, ?_⟩ <;> simp only [getPCScore_, hidx, if_false]

/-- Every scoring of the strong-branching loop has its score computed from
its two changes. -/
theorem strongScored_scores (objval : ℚ) (maxchange : Cutoff) (nodesProc maxcnt : Nat)
    (l : List BrCand) :
    ∀ (cnt : Nat) (b : ParReliabilityBrancher),
      ∀ t ∈ strongScored objval maxchange nodesProc maxcnt cnt l b,
        t.score = getScore_ t.change_up t.change_down := by
  induction l with
  | nil => intro cnt b t ht; simp [strongScored] at ht
  | cons cand rest ih =>
    intro cnt b t ht
    simp only [strongScored] at ht
    split at ht
    · split at ht
      · simp at ht
      · split at ht
        · simp at ht
        · split at ht
          · simp at ht
          · rcases List.mem_cons.mp ht with e | hm
            · rw [e]
            · exact ih _ _ t hm
    · simp at ht

/-- C26: every time `findBestCandidate_` adopts a candidate as the current
best (the scoring `t` at position `n` of the traversal has a score above the
best one so far), the candidate stored gets direction `DownBranch` if
`Δ_up > Δ_down` and `UpBranch` otherwise, a tie included, where `Δ_up` and
`Δ_down` are the changes of that scoring: the ones its score was computed
from, or 0 and 0 for a generic candidate, which is scored by its own score.
A scoring that is not above the best so far changes nothing. -/
theorem findBestCandidate_adopts (b b1 : ParReliabilityBrancher) (objval : ℚ)
    (cutoff : Cutoff) (node : Node) (pseudoUp pseudoDown : List ℚ) (nodesProc : Nat)
    (s : BestSoFar)
    (h : findBestCandidateAux b objval cutoff node pseudoUp pseudoDown nodesProc = .ok (s, b1)) :
    ∃ tr : List Scored,
      s = adoptAll tr ⟨none, none, 0, 0⟩
      ∧ tr <+: traversal b objval cutoff node pseudoUp pseudoDown nodesProc
      ∧ (b1.status_ = NotModifiedByBrancher →
          tr = traversal b objval cutoff node pseudoUp pseudoDown nodesProc)
      ∧ ∀ (n : Nat) (t : Scored), tr[n]? = some t →
          (t.score = getScore_ t.change_up t.change_down
            ∨ (¬ t.cand.pCostIndex > -1 ∧ t.change_up = 0 ∧ t.change_down = 0
              ∧ t.score = t.cand.score))
          ∧ (gtBest t.score (adoptAll (tr.take n) ⟨none, none, 0, 0⟩).best_score = true →
              (adoptAll (tr.take (n + 1)) ⟨none, none, 0, 0⟩).best_cand
                = some { t.cand with
                    dir := if t.change_up > t.change_down then DownBranch else UpBranch }
              ∧ (t.change_up = t.change_down →
                  (adoptAll (tr.take (n + 1)) ⟨none, none, 0, 0⟩).best_cand
                    = some { t.cand with dir := UpBranch }))
          ∧ (gtBest t.score (adoptAll (tr.take n) ⟨none, none, 0, 0⟩).best_score = false →
              adoptAll (tr.take (n + 1)) ⟨none, none, 0, 0⟩
                = adoptAll (tr.take n) ⟨none, none, 0, 0⟩) := by
  obtain ⟨tr, e1, e2, e3, -⟩ := findBestCandidateAux_adoptAll _ _ _ _ _ _ _ _ _ h
  refine ⟨tr, e1, e2, e3, ?_⟩
  intro n t hn
  have hstep : adoptAll (tr.take (n + 1)) ⟨none, none, 0, 0⟩
      = adopt (adoptAll (tr.take n) ⟨none, none, 0, 0⟩) t.cand t.score t.change_up
          t.change_down := by
    rw [List.take_succ, hn, adoptAll_append]
    rfl
  refine ⟨?_, ?_, ?_⟩
  · have hmem : t ∈ traversal b objval cutoff node pseudoUp pseudoDown nodesProc :=
      e2.subset (List.getElem?_mem hn)
    simp only [traversal, List.mem_append] at hmem
    rcases hmem with (hm | hm) | hm
    · exact pcScored_scores _ _ _ t hm
    · exact Or.inl (strongScored_scores _ _ _ _ _ _ _ t hm)
    · exact pcScored_scores _ _ _ t hm
  · intro hg
    rw [hstep]
    simp only [adopt, hg, if_true, true_and]
    intro htie
    simp [htie]
  · intro hg
    rw [hstep]
    simp [adopt, hg]

/-- Witness of C26: one reliable candidate with `Δ_up = Δ_down = 1/2` is
adopted with direction `UpBranch`. -/
theorem findBestCandidate_adopts_witness :
    traversal (withCands 1 [varCand 0 (1 / 2) (1 / 2)] []) 0 .infinity rootNode [1] [1] 0
      = [⟨varCand 0 (1 / 2) (1 / 2), 1 / 2, 1 / 2, 1 / 2⟩]
    ∧ (adoptAll
        ((traversal (withCands 1 [varCand 0 (1 / 2) (1 / 2)] []) 0 .infinity rootNode [1] [1]
          0).take 1)
        ⟨none, none, 0, 0⟩).best_cand
      = some { varCand 0 (1 / 2) (1 / 2) with dir := UpBranch } := by
  have h : findBestCandidateAux (withCands 1 [varCand 0 (1 / 2) (1 / 2)] []) 0 .infinity
      rootNode [1] [1] 0
      = .ok (⟨some (1 / 2), some { varCand 0 (1 / 2) (1 / 2) with dir := UpBranch },
          1 / 2, 1 / 2⟩, withCands 1 [varCand 0 (1 / 2) (1 / 2)] []) := by
    norm_num [findBestCandidateAux, withCands, freshBrancher, initializeLedger,
      ParReliabilityBrancher.new, scoreByPCost, adopt, gtBest, getPCScore_, getScore_, vget,
      varCand]
  have htr : traversal (withCands 1 [varCand 0 (1 / 2) (1 / 2)] []) 0 .infinity rootNode
      [1] [1] 0 = [⟨varCand 0 (1 / 2) (1 / 2), 1 / 2, 1 / 2, 1 / 2⟩] := by
    norm_num [traversal, withCands, freshBrancher, initializeLedger,
      ParReliabilityBrancher.new, pcScored, strongScored, getPCScore_, getScore_, vget, varCand]
  obtain ⟨tr, -, -, e3, e4⟩ := findBestCandidate_adopts _ _ _ _ _ _ _ _ _ h
  have e5 := e3 rfl
  subst e5
  refine ⟨htr, ?_⟩
  have hn : (traversal (withCands 1 [varCand 0 (1 / 2) (1 / 2)] []) 0 .infinity rootNode
      [1] [1] 0)[0]? = some ⟨varCand 0 (1 / 2) (1 / 2), 1 / 2, 1 / 2, 1 / 2⟩ := by
    rw [htr]; rfl
  exact ((e4 0 _ hn).2.1 rfl).2 rfl

/-! ## Sorting -/

theorem length_swapAt {α : Type} (v : List α) (i j : Nat) :
    (swapAt v i j).length = v.length := by
  unfold swapAt
  split <;> simp

theorem getElem?_swapAt {α : Type} (v : List α) (i j k : Nat) (hi : i < v.length)
    (hj : j < v.length) :
    (swapAt v i j)[k]? = if k = j then v[i]? else if k = i then v[j]? else v[k]? := by
  have e1 : v[i]? = some v[i] := List.getElem?_eq_getElem hi
  have e2 : v[j]? = some v[j] := List.getElem?_eq_getElem hj
  simp only [swapAt, e1, e2]
  by_cases hkj : k = j
  · subst hkj
    simp [List.getElem?_set, hj]
  · by_cases hki : k = i
    · subst hki
      simp [List.getElem?_set, hkj, Ne.symm hkj, hi]
    · simp [List.getElem?_set, hkj, hki, Ne.symm hkj, Ne.symm hki]

theorem swapAt_map {α β : Type} (f : α → β) (v : List α) (i j : Nat) :
    swapAt (v.map f) i j = (swapAt v i j).map f := by
  unfold swapAt
  cases h1 : v[i]? <;> cases h2 : v[j]? <;> simp [h1, h2, List.map_set]

theorem swapAt_cons_succ {α : Type} (h : α) (t : List α) (i j : Nat) :
    swapAt (h :: t) (i + 1) (j + 1) = h :: swapAt t i j := by
  unfold swapAt
  cases h1 : t[i]? <;> cases h2 : t[j]? <;> simp [h1, h2]

theorem perm_cons_set {α : Type} (h c : α) (t : List α) :
    ∀ j : Nat, t[j]? = some c → (c :: t.set j h).Perm (h :: t) := by
  induction t with
  | nil => intro j hj; simp at hj
  | cons d t ih =>
    intro j hj
    cases j with
    | zero =>
      simp only [List.getElem?_cons_zero, Option.some.injEq] at hj
      subst hj
      simpa using List.Perm.swap h d t
    | succ j =>
      simp only [List.getElem?_cons_succ] at hj
      have h1 : (d :: c :: t.set j h).Perm (d :: h :: t) := List.Perm.cons d (ih j hj)
      exact ((List.Perm.swap d c (t.set j h)).trans h1).trans (List.Perm.swap h d t)

/-- An exchange of two entries is a permutation. -/
theorem swapAt_perm {α : Type} (p : List α) : ∀ i j : Nat, (swapAt p i j).Perm p := by
  induction p with
  | nil => intro i j; simp [swapAt]
  | cons h t ih =>
    intro i j
    cases i with
    | zero =>
      cases j with
      | zero => simp [swapAt]
      | succ j =>
        cases hj : t[j]? with
        | none => simp [swapAt, hj]
        | some c =>
          have : swapAt (h :: t) 0 (j + 1) = c :: t.set j h := by simp [swapAt, hj]
          rw [this]
          exact perm_cons_set h c t j hj
    | succ i =>
      cases j with
      | zero =>
        cases hi : t[i]? with
        | none => simp [swapAt, hi]
        | some a =>
          have : swapAt (h :: t) (i + 1) 0 = a :: t.set i h := by simp [swapAt, hi]
          rw [this]
          exact perm_cons_set h a t i hi
      | succ j =>
        rw [swapAt_cons_succ]
        exact List.Perm.cons h (ih i j)

theorem valAt_congr {α : Type} (p p1 : List (α × Dbl)) (k k1 : Nat) (h : p1[k]? = p[k1]?) :
    valAt p1 k = valAt p k1 := by
  simp only [valAt, List.getD_eq_getElem?_getD, List.getElem?_map, h]

theorem RangePerm.refl {β : Type} (l r : Nat) (p : List β) : RangePerm l r p p :=
  ⟨List.Perm.refl p, fun _ _ => rfl, fun k h1 h2 => ⟨k, h1, h2, rfl⟩⟩

theorem RangePerm.trans {β : Type} {l r : Nat} {p p1 p2 : List β}
    (h1 : RangePerm l r p p1) (h2 : RangePerm l r p1 p2) : RangePerm l r p p2 := by
  refine ⟨h2.1.trans h1.1, fun k hk => (h2.2.1 k hk).trans (h1.2.1 k hk), ?_⟩
  intro k hl hr
  obtain ⟨k1, a1, a2, a3⟩ := h2.2.2 k hl hr
  obtain ⟨k2, c1, c2, c3⟩ := h1.2.2 k1 a1 a2
  exact ⟨k2, c1, c2, a3.trans c3⟩

theorem RangePerm.mono {β : Type} {l r l1 r1 : Nat} {p p1 : List β}
    (h : RangePerm l1 r1 p p1) (hl : l ≤ l1) (hr : r1 ≤ r) : RangePerm l r p p1 := by
  refine ⟨h.1, fun k hk => h.2.1 k (by omega), ?_⟩
  intro k h1 h2
  by_cases hin : l1 ≤ k ∧ k ≤ r1
  · obtain ⟨k1, a1, a2, a3⟩ := h.2.2 k hin.1 hin.2
    exact ⟨k1, by omega, by omega, a3⟩
  · exact ⟨k, h1, h2, h.2.1 k (by omega)⟩

theorem RangePerm.length {β : Type} {l r : Nat} {p p1 : List β} (h : RangePerm l r p p1) :
    p1.length = p.length := h.1.length_eq

/-- An exchange of two entries within `l..r` moves entries within `l..r`. -/
theorem RangePerm.swap {β : Type} (l r : Nat) (p : List β) (i j : Nat)
    (hi1 : l ≤ i) (hi2 : i ≤ r) (hj1 : l ≤ j) (hj2 : j ≤ r)
    (hi : i < p.length) (hj : j < p.length) : RangePerm l r p (swapAt p i j) := by
  refine ⟨swapAt_perm p i j, ?_, ?_⟩
  · intro k hk
    rw [getElem?_swapAt p i j k hi hj, if_neg (by omega), if_neg (by omega)]
  · intro k h1 h2
    rw [getElem?_swapAt p i j k hi hj]
    by_cases hkj : k = j
    · exact ⟨i, hi1, hi2, by rw [if_pos hkj]⟩
    · by_cases hki : k = i
      · exact ⟨j, hj1, hj2, by rw [if_neg hkj, if_pos hki]⟩
      · exact ⟨k, h1, h2, by rw [if_neg hkj, if_neg hki]⟩

theorem valAt_swapAt {α : Type} (p : List (α × Dbl)) (i j k : Nat) (hi : i < p.length)
    (hj : j < p.length) :
    valAt (swapAt p i j) k
      = if k = j then valAt p i else if k = i then valAt p j else valAt p k := by
  by_cases hkj : k = j
  · rw [if_pos hkj]
    exact valAt_congr _ _ _ _ (by rw [getElem?_swapAt p i j k hi hj, if_pos hkj])
  · by_cases hki : k = i
    · rw [if_neg hkj, if_pos hki]
      exact valAt_congr _ _ _ _ (by rw [getElem?_swapAt p i j k hi hj, if_neg hkj, if_pos hki])
    · rw [if_neg hkj, if_neg hki]
      exact valAt_congr _ _ _ _ (by rw [getElem?_swapAt p i j k hi hj, if_neg hkj, if_neg hki])

/-- The test `a <= a` holds for every double but NaN. -/
theorem dblLe_refl (a : Dbl) (ha : a.isnan = false) : a.le a = true := by
  cases a <;> simp [Dbl.le, Dbl.isnan] at ha ⊢

/-- Of two doubles other than NaN, one is `<=` the other. -/
theorem dblLe_total (a c : Dbl) (ha : a.isnan = false) (hc : c.isnan = false)
    (h : a.le c = false) : c.le a = true := by
  cases a <;> cases c <;> simp [Dbl.le, Dbl.isnan] at ha hc h ⊢
  exact le_of_lt h

theorem dblLe_trans (a b c : Dbl) (h1 : a.le b = true) (h2 : b.le c = true) :
    a.le c = true := by
  cases a <;> cases b <;> cases c <;> simp [Dbl.le] at h1 h2 ⊢
  exact le_trans h1 h2

/-- The product with `-1`, case by case. -/
theorem mul_neg_one_cases :
    Dbl.nan.mul (.fin (-1)) = .nan ∧ Dbl.negInf.mul (.fin (-1)) = .posInf
      ∧ Dbl.posInf.mul (.fin (-1)) = .negInf
      ∧ ∀ q : ℚ, (Dbl.fin q).mul (.fin (-1)) = .fin (-q) := by
  refine ⟨rfl, ?_, ?_, ?_⟩
  · have h : Dbl.negInf.mul (.fin (-1)) = Dbl.infTimes (-(-1)) := rfl
    rw [h]
    norm_num [Dbl.infTimes]
  · have h : Dbl.posInf.mul (.fin (-1)) = Dbl.infTimes (-1) := rfl
    rw [h]
    norm_num [Dbl.infTimes]
  · intro q
    have h : (Dbl.fin q).mul (.fin (-1)) = .fin (q * -1) := rfl
    rw [h, mul_neg_one]

/-- The product with `-1` of a double other than NaN is not NaN. -/
theorem isnan_mul_neg_one (a : Dbl) (ha : a.isnan = false) :
    (a.mul (.fin (-1))).isnan = false := by
  obtain ⟨-, h2, h3, h4⟩ := mul_neg_one_cases
  cases a with
  | nan => simp [Dbl.isnan] at ha
  | negInf => rw [h2]; rfl
  | fin q => rw [h4]; rfl
  | posInf => rw [h3]; rfl

/-- Two products with `-1` give the double back. -/
theorem mul_neg_one_mul_neg_one (a : Dbl) : (a.mul (.fin (-1))).mul (.fin (-1)) = a := by
  obtain ⟨h1, h2, h3, h4⟩ := mul_neg_one_cases
  cases a with
  | nan => rw [h1, h1]
  | negInf => rw [h2, h3]
  | fin q => rw [h4, h4, neg_neg]
  | posInf => rw [h3, h2]

/-- The product with `-1` turns the order round. -/
theorem dblLe_mul_neg_one (a c : Dbl) (h : a.le c = true) :
    (c.mul (.fin (-1))).le (a.mul (.fin (-1))) = true := by
  obtain ⟨h1, h2, h3, h4⟩ := mul_neg_one_cases
  cases a <;> cases c <;> simp only [h1, h2, h3, h4] <;> simp [Dbl.le] at h ⊢
  exact h

/-- Entries moved within an array without NaN leave it without NaN. -/
theorem RangePerm.valAt_isnan {α : Type} {l r : Nat} {p p1 : List (α × Dbl)}
    (h : RangePerm l r p p1) (hnan : ∀ k : Nat, (valAt p k).isnan = false) :
    ∀ k : Nat, (valAt p1 k).isnan = false := by
  intro k
  by_cases hin : l ≤ k ∧ k ≤ r
  · obtain ⟨k1, -, -, e⟩ := h.2.2 k hin.1 hin.2
    rw [valAt_congr _ _ _ _ e]
    exact hnan k1
  · rw [valAt_congr _ _ _ _ (h.2.1 k (by omega))]
    exact hnan k

/-- The loop of `sortRec`: on leaving it, the values at `left..sind-1` passed
the test `x[i] <= pval`, the values at `sind..right-1` failed it, and the
entries from `right` on were not touched. -/
theorem partitionLoop_spec {α : Type} (pval : Dbl) (left right : Nat) :
    ∀ (n i sind : Nat) (p : List (α × Dbl)),
      left ≤ sind → sind ≤ i → i + n = right → right < p.length →
      (∀ k : Nat, left ≤ k → k < sind → (valAt p k).le pval = true) →
      (∀ k : Nat, sind ≤ k → k < i → (valAt p k).le pval = false) →
      ∃ (p2 : List (α × Dbl)) (s : Nat),
        partitionLoop pval n i sind (p.map Prod.fst) (p.map Prod.snd)
          = (p2.map Prod.fst, p2.map Prod.snd, s)
        ∧ sind ≤ s ∧ s ≤ right
        ∧ RangePerm left right p p2
        ∧ (∀ k : Nat, right ≤ k → p2[k]? = p[k]?)
        ∧ (∀ k : Nat, left ≤ k → k < s → (valAt p2 k).le pval = true)
        ∧ (∀ k : Nat, s ≤ k → k < right → (valAt p2 k).le pval = false)
        ∧ ((∃ k : Nat, i ≤ k ∧ k < right ∧ (valAt p k).le pval = true) → sind < s) := by
  intro n
  induction n with
  | zero =>
    intro i sind p h1 h2 h3 h4 h5 h6
    have hi : i = right := by omega
    subst hi
    refine ⟨p, sind, rfl, le_refl _, h2, RangePerm.refl _ _ _, fun _ _ => rfl, h5, h6, ?_⟩
    rintro ⟨k, a1, a2, -⟩
    omega
  | succ n ih =>
    intro i sind p h1 h2 h3 h4 h5 h6
    have hval : (p.map Prod.snd).getD i (.fin 0) = valAt p i := rfl
    by_cases hle : (valAt p i).le pval = true
    · have hsw := RangePerm.swap left right p sind i h1 (by omega) (by omega) (by omega)
        (by omega) (by omega)
      have hv := fun k => valAt_swapAt p sind i k (by omega) (by omega)
      obtain ⟨p2, s, e, a1, a2, a3, a4, a5, a6, -⟩ := ih (i + 1) (sind + 1) (swapAt p sind i)
        (by omega) (by omega) (by omega) (by rw [length_swapAt]; exact h4)
        (by
          intro k k1 k2
          rw [hv k]
          by_cases hki : k = i
          · rw [if_pos hki]
            by_cases hsi : sind = i
            · rw [hsi]; exact hle
            · exact absurd hki (by omega)
          · rw [if_neg hki]
            by_cases hks : k = sind
            · rw [if_pos hks]; exact hle
            · rw [if_neg hks]; exact h5 k k1 (by omega))
        (by
          intro k k1 k2
          rw [hv k]
          by_cases hki : k = i
          · rw [if_pos hki]; exact h6 sind (le_refl _) (by omega)
          · rw [if_neg hki, if_neg (by omega)]; exact h6 k (by omega) (by omega))
      refine ⟨p2, s, ?_, by omega, a2, hsw.trans a3, ?_, a5, a6, fun _ => by omega⟩
      · rw [partitionLoop, hval, hle, if_pos rfl, swapAt_map, swapAt_map]
        exact e
      · intro k hk
        rw [a4 k hk, getElem?_swapAt p sind i k (by omega) (by omega), if_neg (by omega),
          if_neg (by omega)]
    · have hf : (valAt p i).le pval = false := Bool.eq_false_iff.mpr hle
      obtain ⟨p2, s, e, a1, a2, a3, a4, a5, a6, a7⟩ := ih (i + 1) sind p h1 (by omega) (by omega)
        h4 h5
        (by
          intro k k1 k2
          by_cases hki : k = i
          · rw [hki]; exact hf
          · exact h6 k k1 (by omega))
      refine ⟨p2, s, ?_, a1, a2, a3, a4, a5, a6, ?_⟩
      · rw [partitionLoop, hval, hf, if_neg Bool.false_ne_true]
        exact e
      · rintro ⟨k, k1, k2, k3⟩
        by_cases hki : k = i
        · rw [hki] at k3; exact absurd k3 hle
        · exact a7 ⟨k, by omega, k2, k3⟩

/-- One call of `sortRec`, up to its recursive calls: the pivot ends at
`sind` with the values that passed the test before it and the others behind
it; and `sind` is beyond `left` when some other entry of `left..right` passes
the test against the pivot value. -/
theorem sortRec_partition {α : Type} (fuel : Nat) (p : List (α × Dbl))
    (left right pivotind : Nat) (h1 : left ≤ pivotind) (h2 : pivotind ≤ right)
    (h3 : right < p.length) :
    ∃ (p3 : List (α × Dbl)) (sind : Nat),
      sortRec (fuel + 1) (p.map Prod.fst) (p.map Prod.snd) left right pivotind
        = sortRecCalls fuel p3 left right sind
      ∧ Partitioned p p3 left right pivotind sind
      ∧ ((∃ k : Nat, left ≤ k ∧ k ≤ right ∧ k ≠ pivotind
            ∧ (valAt p k).le (valAt p pivotind) = true) →
          left < sind) := by
  have hsw1 := RangePerm.swap left right p pivotind right h1 h2 (by omega) (le_refl _)
    (by omega) h3
  have hv1 := fun k => valAt_swapAt p pivotind right k (by omega) h3
  obtain ⟨p2, s, e, a1, a2, a3, a4, a5, a6, a7⟩ := partitionLoop_spec (valAt p pivotind) left
    right (right - left) left left (swapAt p pivotind right) (le_refl _) (le_refl _) (by omega)
    (by rw [length_swapAt]; exact h3) (fun k k1 k2 => by omega) (fun k k1 k2 => by omega)
  have hlen2 : p2.length = p.length := by rw [a3.length, length_swapAt]
  have hsw3 := RangePerm.swap left right p2 s right a1 a2 (by omega) (le_refl _)
    (by omega) (by omega)
  have hv3 := fun k => valAt_swapAt p2 s right k (by omega) (by omega)
  have hright : valAt p2 right = valAt p pivotind := by
    rw [valAt_congr _ _ _ _ (a4 right (le_refl _)), hv1 right, if_pos rfl]
  refine ⟨swapAt p2 s right, s, ?_, ⟨a1, a2, (hsw1.trans a3).trans hsw3, ?_, ?_, ?_⟩, ?_⟩
  · have hval : (p.map Prod.snd).getD pivotind (.fin 0) = valAt p pivotind := rfl
    simp only [sortRec, swapAt_map, hval, e, sortRecCalls]
  · intro k k1 k2
    rw [hv3 k, if_neg (by omega), if_neg (by omega)]
    exact a5 k k1 k2
  · rw [hv3 s]
    by_cases hs : s = right
    · rw [if_pos hs, hs]; exact hright
    · rw [if_neg hs, if_pos rfl]; exact hright
  · intro k k1 k2
    rw [hv3 k]
    by_cases hk : k = right
    · rw [if_pos hk]; exact a6 s (le_refl _) (by omega)
    · rw [if_neg hk, if_neg (by omega)]; exact a6 k (by omega) (by omega)
  · rintro ⟨k, k1, k2, k3, k4⟩
    apply a7
    by_cases hk : k = right
    · refine ⟨pivotind, h1, by omega, ?_⟩
      rw [hv1 pivotind, if_neg (by omega), if_pos rfl, ← hk]
      exact k4
    · refine ⟨k, k1, by omega, ?_⟩
      rw [hv1 k, if_neg hk, if_neg k3]
      exact k4

/-- The end of `sortRec` on arrays without NaN: when the recursive calls that
are made return the arrays sorted on their part, the call returns them sorted
on `left..right`. -/
theorem sortRecCalls_combine {α : Type} (fuel : Nat) (p p3 : List (α × Dbl))
    (left right pivotind s : Nat) (hnan : ∀ k : Nat, (valAt p k).isnan = false)
    (hp : Partitioned p p3 left right pivotind s)
    (h1 : (s : Int) - (left : Int) > 1 →
      SortedResult
        (sortRec fuel (p3.map Prod.fst) (p3.map Prod.snd) left (s - 1) ((s + left) / 2))
        p3 left (s - 1))
    (h2 : ∀ p4 : List (α × Dbl), RangePerm left (s - 1) p3 p4 →
      (¬ (s : Int) - (left : Int) > 1 → p4 = p3) → (right : Int) - (s : Int) > 1 →
      SortedResult
        (sortRec fuel (p4.map Prod.fst) (p4.map Prod.snd) s right ((s + right) / 2))
        p4 s right) :
    SortedResult (sortRecCalls fuel p3 left right s) p left right := by
  obtain ⟨hl, hr, hrp, hlo, hmid, hhi⟩ := hp
  have hnan3 := hrp.valAt_isnan hnan
  -- a value behind the pivot is not below it
  have hge : ∀ k : Nat, s < k → k ≤ right → (valAt p pivotind).le (valAt p3 k) = true :=
    fun k k1 k2 => dblLe_total _ _ (hnan3 k) (hnan pivotind) (hhi k k1 k2)
  -- the first recursive call
  obtain ⟨p4, e4, r4, s4, q4, f1, f2⟩ : ∃ p4 : List (α × Dbl),
      (if (s : Int) - (left : Int) > 1 then
          sortRec fuel (p3.map Prod.fst) (p3.map Prod.snd) left (s - 1) ((s + left) / 2)
        else some (p3.map Prod.fst, p3.map Prod.snd))
        = some (p4.map Prod.fst, p4.map Prod.snd)
      ∧ RangePerm left (s - 1) p3 p4 ∧ SortedOn left (s - 1) p4
      ∧ (¬ (s : Int) - (left : Int) > 1 → p4 = p3)
      ∧ (∀ k : Nat, left ≤ k → k < s → (valAt p4 k).le (valAt p pivotind) = true)
      ∧ (∀ k : Nat, s ≤ k → p4[k]? = p3[k]?) := by
    by_cases hc : (s : Int) - (left : Int) > 1
    · obtain ⟨p4, e4, r4, s4⟩ := h1 hc
      refine ⟨p4, by rw [if_pos hc]; exact e4, r4, s4, fun hn => absurd hc hn, ?_, ?_⟩
      · intro k k1 k2
        obtain ⟨k3, c1, c2, c3⟩ := r4.2.2 k k1 (by omega)
        rw [valAt_congr _ _ _ _ c3]
        exact hlo k3 c1 (by omega)
      · intro k k1
        exact r4.2.1 k (Or.inr (by omega))
    · refine ⟨p3, by rw [if_neg hc], RangePerm.refl _ _ _, ?_, fun _ => rfl, hlo, fun _ _ => rfl⟩
      intro i j i1 i2 i3
      omega
  -- the second recursive call
  obtain ⟨p5, e5, r5, s5⟩ : ∃ p5 : List (α × Dbl),
      (if (right : Int) - (s : Int) > 1 then
          sortRec fuel (p4.map Prod.fst) (p4.map Prod.snd) s right ((s + right) / 2)
        else some (p4.map Prod.fst, p4.map Prod.snd))
        = some (p5.map Prod.fst, p5.map Prod.snd)
      ∧ RangePerm s right p4 p5 ∧ SortedOn s right p5 := by
    by_cases hc : (right : Int) - (s : Int) > 1
    · obtain ⟨p5, e5, r5, s5⟩ := h2 p4 r4 q4 hc
      exact ⟨p5, by rw [if_pos hc]; exact e5, r5, s5⟩
    · refine ⟨p4, by rw [if_neg hc], RangePerm.refl _ _ _, ?_⟩
      intro i j i1 i2 i3
      have hi : i = s := by omega
      have hj : j = right := by omega
      rw [hi, hj, valAt_congr _ _ _ _ (f2 s (le_refl _)),
        valAt_congr _ _ _ _ (f2 right (by omega)), hmid]
      exact hge right (by omega) (le_refl _)
  refine ⟨p5, ?_, ?_, ?_⟩
  · simp only [sortRecCalls, e4, e5]
  · exact (hrp.trans (r4.mono (le_refl _) (by omega))).trans (r5.mono hl (le_refl _))
  · intro i j i1 i2 i3
    have hlow : ∀ k : Nat, k < s → valAt p5 k = valAt p4 k :=
      fun k hk => valAt_congr _ _ _ _ (r5.2.1 k (Or.inl hk))
    have hhigh : ∀ k : Nat, s ≤ k → k ≤ right →
        (valAt p pivotind).le (valAt p5 k) = true := by
      intro k k1 k2
      obtain ⟨k3, c1, c2, c3⟩ := r5.2.2 k k1 k2
      rw [valAt_congr _ _ _ _ c3, valAt_congr _ _ _ _ (f2 k3 c1)]
      by_cases hk : k3 = s
      · rw [hk, hmid]
        exact dblLe_refl _ (hnan pivotind)
      · exact hge k3 (by omega) c2
    by_cases hj : j < s
    · rw [hlow i (by omega), hlow j hj]
      exact s4 i j i1 i2 (by omega)
    · by_cases hi : s ≤ i
      · exact s5 i j hi i2 i3
      · rw [hlow i (by omega)]
        exact dblLe_trans _ _ _ (f1 i i1 (by omega)) (hhigh j (by omega) i3)

/-- When the pivot ends beyond `left`, both recursive calls are on shorter
parts. -/
theorem sortRec_progress {α : Type} (n : Nat)
    (ih : ∀ (fuel : Nat) (p : List (α × Dbl)) (left right pivotind : Nat),
      (∀ k : Nat, (valAt p k).isnan = false) →
      left ≤ pivotind → pivotind ≤ right → right < p.length → right - left < n →
      2 * (right - left) + 1 ≤ fuel →
      SortedResult (sortRec fuel (p.map Prod.fst) (p.map Prod.snd) left right pivotind)
        p left right)
    (fuel : Nat) (p p3 : List (α × Dbl)) (left right pivotind s : Nat)
    (hnan : ∀ k : Nat, (valAt p k).isnan = false)
    (hsize : right - left < n + 1) (hfuel : 2 * (right - left) ≤ fuel + 1)
    (h3 : right < p.length) (hp : Partitioned p p3 left right pivotind s) (hs : left < s) :
    SortedResult (sortRecCalls fuel p3 left right s) p left right := by
  have hlen3 : p3.length = p.length := hp.2.2.1.length
  have hr : s ≤ right := hp.2.1
  have hnan3 := hp.2.2.1.valAt_isnan hnan
  refine sortRecCalls_combine fuel p p3 left right pivotind s hnan hp ?_ ?_
  · intro hc
    exact ih fuel p3 left (s - 1) ((s + left) / 2) hnan3 (by omega) (by omega) (by omega)
      (by omega) (by omega)
  · intro p4 r4 _ hc
    have hlen4 : p4.length = p3.length := r4.length
    exact ih fuel p4 s right ((s + right) / 2) (r4.valAt_isnan hnan3) (by omega) (by omega)
      (by omega) (by omega) (by omega)

/-- A call in which some other value of `left..right` passes the test against
the pivot value needs one unit of fuel less. -/
theorem sortRec_good {α : Type} (n : Nat)
    (ih : ∀ (fuel : Nat) (p : List (α × Dbl)) (left right pivotind : Nat),
      (∀ k : Nat, (valAt p k).isnan = false) →
      left ≤ pivotind → pivotind ≤ right → right < p.length → right - left < n →
      2 * (right - left) + 1 ≤ fuel →
      SortedResult (sortRec fuel (p.map Prod.fst) (p.map Prod.snd) left right pivotind)
        p left right)
    (fuel : Nat) (p : List (α × Dbl)) (left right pivotind : Nat)
    (hnan : ∀ k : Nat, (valAt p k).isnan = false)
    (h1 : left ≤ pivotind) (h2 : pivotind ≤ right) (h3 : right < p.length)
    (hsize : right - left < n + 1) (hfuel : 2 * (right - left) ≤ fuel + 1)
    (hgood : ∃ k : Nat, left ≤ k ∧ k ≤ right ∧ k ≠ pivotind
      ∧ (valAt p k).le (valAt p pivotind) = true) :
    SortedResult (sortRec (fuel + 1) (p.map Prod.fst) (p.map Prod.snd) left right pivotind)
      p left right := by
  obtain ⟨p3, s, e, hp, hg⟩ := sortRec_partition fuel p left right pivotind h1 h2 h3
  rw [e]
  exact sortRec_progress n ih fuel p p3 left right pivotind s hnan hsize hfuel h3 hp (hg hgood)

/-- With fuel `2·(right − left) + 1`, `sortRec` returns arrays without NaN with
the entries of `left..right` in non-decreasing order of the values. -/
theorem sortRec_sorted_aux {α : Type} (n : Nat) :
    ∀ (fuel : Nat) (p : List (α × Dbl)) (left right pivotind : Nat),
      (∀ k : Nat, (valAt p k).isnan = false) →
      left ≤ pivotind → pivotind ≤ right → right < p.length → right - left < n →
      2 * (right - left) + 1 ≤ fuel →
      SortedResult (sortRec fuel (p.map Prod.fst) (p.map Prod.snd) left right pivotind)
        p left right := by
  induction n with
  | zero => intro fuel p left right pivotind _ _ _ _ h; exact absurd h (Nat.not_lt_zero _)
  | succ n ih =>
    intro fuel1 p left right pivotind hnan h1 h2 h3 hsize hfuel
    obtain ⟨fuel, rfl⟩ : ∃ fuel : Nat, fuel1 = fuel + 1 := ⟨fuel1 - 1, by omega⟩
    obtain ⟨p3, s, e, hp, -⟩ := sortRec_partition fuel p left right pivotind h1 h2 h3
    rw [e]
    by_cases hs : left < s
    · exact sortRec_progress n ih fuel p p3 left right pivotind s hnan hsize (by omega) h3 hp hs
    · have hl : left ≤ s := hp.1
      have hsl : s = left := by omega
      have hlen3 : p3.length = p.length := hp.2.2.1.length
      have hnan3 := hp.2.2.1.valAt_isnan hnan
      refine sortRecCalls_combine fuel p p3 left right pivotind s hnan hp
        (fun hc => absurd hc (by omega)) ?_
      intro p4 _ q4 hc
      have e4 : p4 = p3 := q4 (by omega)
      subst e4
      obtain ⟨fuel0, rfl⟩ : ∃ fuel0 : Nat, fuel = fuel0 + 1 := ⟨fuel - 1, by omega⟩
      rw [hsl]
      refine sortRec_good n ih fuel0 p4 left right ((left + right) / 2) hnan3 (by omega)
        (by omega) (by omega) hsize (by omega) ⟨left, le_refl _, by omega, by omega, ?_⟩
      have hmid := hp.2.2.2.2.1
      rw [hsl] at hmid
      rw [hmid]
      exact dblLe_total _ _ (hnan3 _) (hnan pivotind)
        (hp.2.2.2.2.2 ((left + right) / 2) (by omega) (by omega))

/-- More fuel does not change a result. -/
theorem sortRec_fuel_succ {α : Type} :
    ∀ (fuel : Nat) (vvec : List α) (x : List Dbl) (left right pivotind : Nat)
      (res : List α × List Dbl),
      sortRec fuel vvec x left right pivotind = some res →
      sortRec (fuel + 1) vvec x left right pivotind = some res := by
  intro fuel
  induction fuel with
  | zero => intro vvec x left right pivotind res h; simp [sortRec] at h
  | succ fuel ih =>
    intro vvec x left right pivotind res h
    rw [sortRec] at h ⊢
    generalize partitionLoop (x.getD pivotind (.fin 0)) (right - left) left left
      (swapAt vvec pivotind right) (swapAt x pivotind right) = r at h ⊢
    by_cases hc1 : (r.2.2 : Int) - (left : Int) > 1
    · simp only [hc1, if_true] at h ⊢
      cases h1 : sortRec fuel (swapAt r.1 r.2.2 right) (swapAt r.2.1 r.2.2 right) left
          (r.2.2 - 1) ((r.2.2 + left) / 2) with
      | none => rw [h1] at h; simp at h
      | some v4 =>
        rw [h1] at h
        rw [ih _ _ _ _ _ _ h1]
        simp only at h ⊢
        by_cases hc2 : (right : Int) - (r.2.2 : Int) > 1
        · simp only [hc2, if_true] at h ⊢
          exact ih _ _ _ _ _ _ h
        · simp only [hc2, if_false] at h ⊢
          exact h
    · simp only [hc1, if_false] at h ⊢
      by_cases hc2 : (right : Int) - (r.2.2 : Int) > 1
      · simp only [hc2, if_true] at h ⊢
        exact ih _ _ _ _ _ _ h
      · simp only [hc2, if_false] at h ⊢
        exact h

theorem sortRec_fuel_mono {α : Type} (fuel extra : Nat) (vvec : List α) (x : List Dbl)
    (left right pivotind : Nat) (res : List α × List Dbl)
    (h : sortRec fuel vvec x left right pivotind = some res) :
    sortRec (fuel + extra) vvec x left right pivotind = some res := by
  induction extra with
  | zero => exact h
  | succ e ih => exact sortRec_fuel_succ _ _ _ _ _ _ _ ih

/-- The loop that multiplies the entries by `-1` reaches every entry below
`n` once. -/
theorem getElem?_negateLoop (n : Nat) :
    ∀ (x : List Dbl) (j : Nat), n ≤ x.length →
      (negateLoop n x)[j]?
        = if j < n then x[j]?.map (fun a => a.mul (.fin (-1))) else x[j]? := by
  induction n with
  | zero => intro x j _; simp [negateLoop]
  | succ n ih =>
    intro x j hn
    rw [negateLoop, ih _ _ (by simp; omega)]
    by_cases hj : j < n
    · rw [if_pos hj, if_pos (by omega), List.getElem?_set_ne (by omega)]
    · rw [if_neg hj]
      by_cases hjn : j = n
      · subst hjn
        rw [if_pos (by omega), List.getElem?_set_self (by omega)]
        simp [List.getD_eq_getElem?_getD, List.getElem?_eq_getElem (show j < x.length by omega)]
      · rw [if_neg (by omega), List.getElem?_set_ne (by omega)]

theorem negateLoop_eq_map (x : List Dbl) :
    negateLoop x.length x = x.map (fun a => a.mul (.fin (-1))) := by
  apply List.ext_getElem?
  intro j
  rw [getElem?_negateLoop _ _ _ (le_refl _), List.getElem?_map]
  by_cases hj : j < x.length
  · rw [if_pos hj]
  · rw [if_neg hj, List.getElem?_eq_none (by omega)]; rfl

/-- The first call of `sortRec` in `sort`: with at least two entries, none of
them NaN, and fuel `2·size − 1` it returns the arrays as a permutation of the
pairs, with the values in non-decreasing order. -/
theorem sortRec_top {α : Type} (vvec : List α) (x0 : List Dbl) (fuel : Nat)
    (hlen : x0.length = vvec.length) (hnan : ∀ a ∈ x0, a.isnan = false)
    (h2 : 2 ≤ vvec.length) (hfuel : 2 * vvec.length ≤ fuel + 1) :
    ∃ p1 : List (α × Dbl),
      sortRec fuel vvec x0 0 (vvec.length - 1) (vvec.length / 2)
        = some (p1.map Prod.fst, p1.map Prod.snd)
      ∧ p1.Perm (vvec.zip x0)
      ∧ (p1.map Prod.snd).Pairwise (fun a c => a.le c = true) := by
  have hz : (vvec.zip x0).length = vvec.length := by
    rw [List.length_zip, hlen, Nat.min_self]
  have hnan0 : ∀ k : Nat, (valAt (vvec.zip x0) k).isnan = false := by
    intro k
    rw [valAt, List.map_snd_zip _ _ (by omega), List.getD_eq_getElem?_getD]
    by_cases hk : k < x0.length
    · rw [List.getElem?_eq_getElem hk]
      exact hnan _ (List.getElem_mem hk)
    · rw [List.getElem?_eq_none (by omega)]
      rfl
  obtain ⟨p1, e, r1, s1⟩ := sortRec_sorted_aux vvec.length fuel (vvec.zip x0) 0
    (vvec.length - 1) (vvec.length / 2) hnan0 (Nat.zero_le _) (by omega) (by omega) (by omega)
    (by omega)
  rw [List.map_fst_zip _ _ (by omega), List.map_snd_zip _ _ (by omega)] at e
  refine ⟨p1, e, r1.1, ?_⟩
  have hl1 : p1.length = vvec.length := by rw [r1.length, hz]
  rw [List.pairwise_iff_getElem]
  intro i j hi hj hij
  have hj1 : j < vvec.length := by rw [List.length_map, hl1] at hj; exact hj
  have h := s1 i j (Nat.zero_le _) hij (by omega)
  simp only [valAt, List.getD_eq_getElem?_getD, List.getElem?_eq_getElem hi,
    List.getElem?_eq_getElem hj, Option.getD_some] at h
  exact h

/-- On three values that are all NaN no fuel suffices: no entry passes the
test `x[i] <= pval`, `sind` stays at `left = 0`, and the second recursive call
is on the same range `0..2` with the same pivot index `1`. -/
theorem sortRec_nan {α : Type} :
    ∀ (fuel : Nat) (v : List α), sortRec fuel v [.nan, .nan, .nan] 0 2 1 = none := by
  intro fuel
  induction fuel with
  | zero => intro v; rfl
  | succ fuel ih =>
    intro v
    have hx : swapAt [Dbl.nan, Dbl.nan, Dbl.nan] 1 2 = [Dbl.nan, Dbl.nan, Dbl.nan] := rfl
    have hx2 : swapAt [Dbl.nan, Dbl.nan, Dbl.nan] 0 2 = [Dbl.nan, Dbl.nan, Dbl.nan] := rfl
    have hp : ∀ w : List α, partitionLoop Dbl.nan 2 0 0 w [Dbl.nan, Dbl.nan, Dbl.nan]
        = (w, [Dbl.nan, Dbl.nan, Dbl.nan], 0) := fun w => rfl
    have hv : [Dbl.nan, Dbl.nan, Dbl.nan].getD 1 (Dbl.fin 0) = Dbl.nan := rfl
    rw [sortRec]
    simp only [hx, hv, Nat.sub_zero, hp, hx2]
    norm_num
    exact ih _

/-- C30, as the code has it: NaN fails every test `x[i] <= pval`, and
`sortRec` is sound only without it.  On a variable vector `vvec` and a value
array `x` of the same length without NaN entries (infinite values are
allowed), `sort(vvec, x, ascend)` terminates (with fuel `2·size` for the
recursion of `sortRec` it returns, and more fuel gives the same result);
afterwards the pairs `(vvec[i], x[i])` are a permutation of the original
pairs, `x` is non-decreasing when `ascend` is true and non-increasing when it
is false, and inputs of length at most 1 are returned unchanged. -/
theorem sort_sorted {α : Type} (vvec : List α) (x : List Dbl) (ascend : Bool) (fuel : Nat)
    (hlen : x.length = vvec.length) (hnan : ∀ a ∈ x, a.isnan = false)
    (hfuel : 2 * vvec.length ≤ fuel) :
    ∃ (vvec1 : List α) (x1 : List Dbl),
      sort fuel vvec x ascend = some (vvec1, x1)
      ∧ sort (2 * vvec.length) vvec x ascend = some (vvec1, x1)
      ∧ vvec1.length = vvec.length ∧ x1.length = x.length
      ∧ (vvec1.zip x1).Perm (vvec.zip x)
      ∧ (ascend = true → x1.Pairwise (fun a c => a.le c = true))
      ∧ (ascend = false → x1.Pairwise (fun a c => c.le a = true))
      ∧ (vvec.length ≤ 1 → vvec1 = vvec ∧ x1 = x) := by
  by_cases h1 : vvec.length ≤ 1
  · refine ⟨vvec, x, by simp [sort, h1], by simp [sort, h1], rfl, rfl, List.Perm.refl _, ?_, ?_,
      fun _ => ⟨rfl, rfl⟩⟩
    · intro _
      rw [List.pairwise_iff_getElem]
      intro i j hi hj hij
      omega
    · intro _
      rw [List.pairwise_iff_getElem]
      intro i j hi hj hij
      omega
  · have h2 : 2 ≤ vvec.length := by omega
    obtain ⟨extra, rfl⟩ : ∃ extra : Nat, fuel = 2 * vvec.length + extra :=
      ⟨fuel - 2 * vvec.length, by omega⟩
    cases ascend with
    | true =>
      obtain ⟨p1, e, hperm, hsorted⟩ := sortRec_top vvec x (2 * vvec.length) hlen hnan h2
        (by omega)
      have e1 := sortRec_fuel_mono _ extra _ _ _ _ _ _ e
      have hl1 : p1.length = vvec.length := by
        rw [hperm.length_eq, List.length_zip, hlen, Nat.min_self]
      refine ⟨p1.map Prod.fst, p1.map Prod.snd, by simp [sort, h1, e1], by simp [sort, h1, e],
        by simp [hl1], by simp [hl1, hlen], ?_, fun _ => hsorted, fun h => absurd h (by simp),
        fun h => absurd h h1⟩
      rw [List.zip_map', List.map_id']
      exact hperm
    | false =>
      have hx0 : negateLoop vvec.length x = x.map (fun a => a.mul (.fin (-1))) := by
        rw [← hlen]; exact negateLoop_eq_map x
      have hnan1 : ∀ a ∈ x.map (fun a => a.mul (.fin (-1))), a.isnan = false := by
        intro a ha
        obtain ⟨c, hc, rfl⟩ := List.mem_map.mp ha
        exact isnan_mul_neg_one c (hnan c hc)
      obtain ⟨p1, e, hperm, hsorted⟩ := sortRec_top vvec (x.map (fun a => a.mul (.fin (-1))))
        (2 * vvec.length) (by simp [hlen]) hnan1 h2 (by omega)
      have e1 := sortRec_fuel_mono _ extra _ _ _ _ _ _ e
      have hl1 : p1.length = vvec.length := by
        rw [hperm.length_eq, List.length_zip, List.length_map, hlen, Nat.min_self]
      have hx1 : negateLoop vvec.length (p1.map Prod.snd)
          = (p1.map Prod.snd).map (fun a => a.mul (.fin (-1))) := by
        rw [← hl1, ← List.length_map p1 Prod.snd]; exact negateLoop_eq_map _
      refine ⟨p1.map Prod.fst, (p1.map Prod.snd).map (fun a => a.mul (.fin (-1))),
        by simp only [sort, h1, if_false, eq_self, if_true, hx0, e1, hx1],
        by simp only [sort, h1, if_false, eq_self, if_true, hx0, e, hx1],
        by simp [hl1], by simp [hl1, hlen], ?_, fun h => absurd h (by simp), fun _ => ?_,
        fun h => absurd h h1⟩
      · rw [List.map_map, List.zip_map']
        have hp := hperm.map (fun q : α × Dbl => (q.1, q.2.mul (.fin (-1))))
        refine hp.trans (List.Perm.of_eq ?_)
        rw [List.zip_map_right, List.map_map]
        conv_rhs => rw [← List.map_id (vvec.zip x)]
        apply List.map_congr_left
        intro q _
        simp [Prod.map, mul_neg_one_mul_neg_one]
      · rw [List.pairwise_map]
        exact hsorted.imp (fun {a c} h => dblLe_mul_neg_one a c h)

/-- Witness of C30 as amended: five variables (named by their numbers) with
values `3, +∞, 2, −∞, 4` are sorted in ascending order to
`−∞, 2, 3, 4, +∞`, and three variables with values `3, −∞, 2` in descending
order to `3, 2, −∞`, each variable staying with its value. -/
theorem sort_sorted_witness :
    sort 10 ([10, 11, 12, 13, 14] : List Nat) [.fin 3, .posInf, .fin 2, .negInf, .fin 4] true
      = some (([13, 12, 10, 14, 11] : List Nat), [.negInf, .fin 2, .fin 3, .fin 4, .posInf])
    ∧ (([13, 12, 10, 14, 11] : List Nat).zip
          [Dbl.negInf, .fin 2, .fin 3, .fin 4, .posInf]).Perm
        (([10, 11, 12, 13, 14] : List Nat).zip [Dbl.fin 3, .posInf, .fin 2, .negInf, .fin 4])
    ∧ [Dbl.negInf, .fin 2, .fin 3, .fin 4, .posInf].Pairwise (fun a c => a.le c = true)
    ∧ sort 6 ([10, 11, 12] : List Nat) [.fin 3, .negInf, .fin 2] false
      = some (([10, 12, 11] : List Nat), [.fin 3, .fin 2, .negInf])
    ∧ [Dbl.fin 3, .fin 2, .negInf].Pairwise (fun a c => c.le a = true) := by
  obtain ⟨v1, x1, e, -, -, -, hperm, hs, -, -⟩ := sort_sorted ([10, 11, 12, 13, 14] : List Nat)
    [.fin 3, .posInf, .fin 2, .negInf, .fin 4] true 10 rfl (by simp [Dbl.isnan]) (by decide)
  have hval : sort 10 ([10, 11, 12, 13, 14] : List Nat)
      [.fin 3, .posInf, .fin 2, .negInf, .fin 4] true
      = some (([13, 12, 10, 14, 11] : List Nat), [.negInf, .fin 2, .fin 3, .fin 4, .posInf]) :=
    rfl
  rw [hval] at e
  simp only [Option.some.injEq, Prod.mk.injEq] at e
  obtain ⟨a1, a2⟩ := e
  subst a1 a2
  obtain ⟨v2, x2, e2, -, -, -, -, -, hs2, -⟩ := sort_sorted ([10, 11, 12] : List Nat)
    [.fin 3, .negInf, .fin 2] false 6 rfl (by simp [Dbl.isnan]) (by decide)
  have hval2 : sort 6 ([10, 11, 12] : List Nat) [.fin 3, .negInf, .fin 2] false
      = some (([10, 12, 11] : List Nat), [.fin 3, .fin 2, .negInf]) := by
    obtain ⟨-, m2, m3, m4⟩ := mul_neg_one_cases
    have h1 : negateLoop 3 [.fin 3, .negInf, .fin 2] = [.fin (-3), .posInf, .fin (-2)] := by
      simp only [negateLoop, List.getD_eq_getElem?_getD, List.getElem?_cons_succ,
        List.getElem?_cons_zero, Option.getD_some, List.set_cons_succ, List.set_cons_zero,
        m2, m4]
    have h2 : sortRec 6 ([10, 11, 12] : List Nat) [.fin (-3), .posInf, .fin (-2)] 0 2 1
        = some (([10, 12, 11] : List Nat), [.fin (-3), .fin (-2), .posInf]) := rfl
    have h3 : negateLoop 3 [.fin (-3), .fin (-2), .posInf] = [.fin 3, .fin 2, .negInf] := by
      simp only [negateLoop, List.getD_eq_getElem?_getD, List.getElem?_cons_succ,
        List.getElem?_cons_zero, Option.getD_some, List.set_cons_succ, List.set_cons_zero,
        m3, m4, neg_neg]
    simp only [sort, List.length_cons, List.length_nil]
    norm_num [h1, h2, h3]
  rw [hval2] at e2
  simp only [Option.some.injEq, Prod.mk.injEq] at e2
  obtain ⟨c1, c2⟩ := e2
  subst c1 c2
  exact ⟨hval, hperm, hs rfl, hval2, hs2 rfl⟩

/-- C30 fails as stated: on three variables whose values are all NaN, `sort`
does not terminate: whatever the fuel, the recursion of `sortRec` does not
come to an end. -/
theorem sort_sorted_counterexample :
    [Dbl.nan, Dbl.nan, Dbl.nan].length = ([10, 11, 12] : List Nat).length
    ∧ ∀ fuel : Nat,
        sort fuel ([10, 11, 12] : List Nat) [Dbl.nan, Dbl.nan, Dbl.nan] true = none := by
  refine ⟨rfl, fun fuel => ?_⟩
  have h := sortRec_nan fuel ([10, 11, 12] : List Nat)
  simp only [sort, List.length_cons, List.length_nil]
  norm_num [h]

end Minotaur
